import Mathlib

/-!
# Memory_Management_Visualizer: contiguous allocation with first/best/worst fit

Shallow embedding of `src/src/memory_structures.c` and `src/src/memory_manager.c`.

Modelling conventions
* A C `int` is a mathematical integer (`Int`).  The section on 32-bit arithmetic repeats
  the code with every `int` operation checked and shows that for
  `0 ≤ osMem < totalMem ≤ 2^31 - 2` no operation of a reachable execution leaves the 32-bit
  range.  At `totalMem = 2^31 - 1` the addition `totalMemory + 1` of `bestFit` overflows;
  it is modelled with the two's-complement wrap `wrap32`.
* `float` is IEEE-754 binary32 with round-to-nearest (`F32`); `calculateFragmentation32` is
  the function as the code computes it, `calculateFragmentation` the exact rational value
  of its formula.
* The singly linked list hanging off `mm->head` is a `List MemoryBlock`; the `next` pointer
  of a node is the tail of the list.  `malloc` is assumed to succeed.
* A pointer into the list (`bestBlock`, `worstBlock`, the node where `firstFit` stops) is the
  position of the node in the list.
* A function that mutates `*mm` and returns an `int` becomes a function returning the pair
  of the returned `int` and the new `MemoryManager`.  Output through `printf` is dropped.
-/

namespace MemSim

/-! ## Data model (`memory_structures.h`) -/

/-- One node of the block list (`struct MemoryBlock` without its `next` pointer). -/
structure MemoryBlock where
  isHole : Int
  startAddress : Int
  endAddress : Int
  size : Int
  processID : Int
deriving DecidableEq, Repr

/-- The allocator state (`struct MemoryManager`); `head` is the whole linked list. -/
structure MemoryManager where
  head : List MemoryBlock
  totalMemory : Int
  osMemory : Int
  userMemory : Int
  freeMemory : Int
  numProcesses : Int
  numHoles : Int
deriving DecidableEq, Repr

/-- The enumerators of `AllocationAlgorithm`. -/
def FIRST_FIT : Int := 0

/-- Second enumerator of `AllocationAlgorithm`. -/
def BEST_FIT : Int := 1

/-- Third enumerator of `AllocationAlgorithm`. -/
def WORST_FIT : Int := 2

/-- `createBlock(isHole, start, end, pid)`: the size is derived as `end - start + 1`. -/
def createBlock (isHole start end_ pid : Int) : MemoryBlock :=
  { isHole := isHole
    startAddress := start
    endAddress := end_
    size := end_ - start + 1
    processID := pid }

/-- `initializeMemory(mm, totalMem, osMem)`. -/
def initializeMemory (totalMem osMem : Int) : MemoryManager :=
  { totalMemory := totalMem
    osMemory := osMem
    userMemory := totalMem - osMem
    freeMemory := totalMem - osMem
    numProcesses := 0
    numHoles := 1
    head := [createBlock 1 osMem (totalMem - 1) (-1)] }

/-! ## Allocation -/

/-- The loop test shared by the three policies: `current->isHole && current->size >= size`. -/
def fits (size : Int) (current : MemoryBlock) : Bool :=
  decide (current.isHole ≠ 0) && decide (current.size ≥ size)

/-- The nodes that take the place of the chosen hole: the exact-fit branch keeps the node and
marks it occupied, the split branch shrinks it to `size` and links a new hole after it. -/
def allocBlock (current : MemoryBlock) (processID size : Int) : List MemoryBlock :=
  if current.size = size then
    [{ current with isHole := 0, processID := processID }]
  else
    let newStart := current.startAddress + size
    let oldEnd := current.endAddress
    [{ current with endAddress := newStart - 1, size := size, isHole := 0,
                    processID := processID },
     createBlock 1 newStart oldEnd (-1)]

/-- The change of `numHoles` made by the allocation code: `numHoles--` on an exact fit only. -/
def allocHoleDelta (current : MemoryBlock) (size : Int) : Int :=
  if current.size = size then -1 else 0

/-- Replace the node at position `i` by the nodes `r` (pointer relinking at that node). -/
def replaceAt : List MemoryBlock → Nat → List MemoryBlock → List MemoryBlock
  | [], _, _ => []
  | _ :: rest, 0, r => r ++ rest
  | b :: rest, i + 1, r => b :: replaceAt rest i r

/-- The allocation code shared by `firstFit`, `bestFit` and `worstFit`, run on the node at
position `i`: it returns `startAddr` and the updated manager.  The position always comes
from a scan of the same list, so the `none` branch is never taken by the three callers. -/
def allocateAt (mm : MemoryManager) (i : Nat) (processID size : Int) : Int × MemoryManager :=
  match mm.head.get? i with
  | none => (-1, mm)
  | some current =>
    (current.startAddress,
     { mm with
        head := replaceAt mm.head i (allocBlock current processID size)
        numHoles := mm.numHoles + allocHoleDelta current size
        numProcesses := mm.numProcesses + 1
        freeMemory := mm.freeMemory - size })

/-- The scan of `firstFit`: position of the first node passing the loop test, counted from
`idx`; the loop stops there. -/
def firstFitScan (size : Int) : List MemoryBlock → Nat → Option Nat
  | [], _ => none
  | current :: rest, idx =>
    if fits size current then some idx else firstFitScan size rest (idx + 1)

/-- `firstFit(mm, processID, size)`. -/
def firstFit (mm : MemoryManager) (processID size : Int) : Int × MemoryManager :=
  match firstFitScan size mm.head 0 with
  | none => (-1, mm)
  | some i => allocateAt mm i processID size

/-- The scan of `bestFit`: the loop carries `bestBlock` and `minSize` and visits every
node; `idx` is the position of `current`. -/
def bestFitScan (size : Int) : List MemoryBlock → Nat → Option Nat → Int → Option Nat
  | [], _, bestBlock, _ => bestBlock
  | current :: rest, idx, bestBlock, minSize =>
    if fits size current then
      if current.size < minSize then
        bestFitScan size rest (idx + 1) (some idx) current.size
      else
        bestFitScan size rest (idx + 1) bestBlock minSize
    else
      bestFitScan size rest (idx + 1) bestBlock minSize

/-- The value a 32-bit two's-complement `int` holds after an operation with exact result
`x`: `x` itself inside `-2^31 .. 2^31 - 1`, wrapped modulo `2^32` outside. -/
def wrap32 (x : Int) : Int := (x + 2147483648) % 4294967296 - 2147483648

/-- `bestFit(mm, processID, size)`; `minSize` starts at `totalMemory + 1`, a 32-bit `int`
addition: for `totalMemory = 2^31 - 1` it wraps to `-2^31`, no hole size is below it, and
the function returns `-1`. -/
def bestFit (mm : MemoryManager) (processID size : Int) : Int × MemoryManager :=
  match bestFitScan size mm.head 0 none (wrap32 (mm.totalMemory + 1)) with
  | none => (-1, mm)
  | some i => allocateAt mm i processID size

/-- The scan of `worstFit`: the loop carries `worstBlock` and `maxSize`. -/
def worstFitScan (size : Int) : List MemoryBlock → Nat → Option Nat → Int → Option Nat
  | [], _, worstBlock, _ => worstBlock
  | current :: rest, idx, worstBlock, maxSize =>
    if fits size current then
      if current.size > maxSize then
        worstFitScan size rest (idx + 1) (some idx) current.size
      else
        worstFitScan size rest (idx + 1) worstBlock maxSize
    else
      worstFitScan size rest (idx + 1) worstBlock maxSize

/-- `worstFit(mm, processID, size)`; `maxSize` starts at `-1`. -/
def worstFit (mm : MemoryManager) (processID size : Int) : Int × MemoryManager :=
  match worstFitScan size mm.head 0 none (-1) with
  | none => (-1, mm)
  | some i => allocateAt mm i processID size

/-- `allocateMemory(mm, processID, size, algo)`; `algo` is the integer value of the enum, any
value other than 0, 1, 2 takes the `default` branch. -/
def allocateMemory (mm : MemoryManager) (processID size algo : Int) : Int × MemoryManager :=
  if size ≤ 0 then (-1, mm)
  else if size > mm.freeMemory then (-1, mm)
  else if algo = FIRST_FIT then firstFit mm processID size
  else if algo = BEST_FIT then bestFit mm processID size
  else if algo = WORST_FIT then worstFit mm processID size
  else (-1, mm)

/-! ## Deallocation -/

/-- STEP 5 of `deallocateMemory`: when `current->next` exists and is a hole, `current` is
extended over it and the node is unlinked.  `rest` is the list from `current->next` on.
The result is the new `current`, the new `current->next` list and the number of
`numHoles--` executed. -/
def mergeNext (current : MemoryBlock) (rest : List MemoryBlock) :
    MemoryBlock × List MemoryBlock × Int :=
  match rest with
  | [] => (current, [], 0)
  | nextHole :: after =>
    if nextHole.isHole ≠ 0 then
      ({ current with
          endAddress := nextHole.endAddress
          size := nextHole.endAddress - current.startAddress + 1 }, after, 1)
    else (current, nextHole :: after, 0)

/-- STEP 6 of `deallocateMemory`: when `prev` exists (`none` is `NULL`) and is a hole, `prev`
is extended over `current` and `current` is unlinked.  The result is the list that
replaces `prev`, `current` and `rest`, and the number of `numHoles--` executed. -/
def mergePrev (prev : Option MemoryBlock) (current : MemoryBlock) (rest : List MemoryBlock) :
    List MemoryBlock × Int :=
  match prev with
  | none => (current :: rest, 0)
  | some p =>
    if p.isHole ≠ 0 then
      ({ p with
          endAddress := current.endAddress
          size := current.endAddress - p.startAddress + 1 } :: rest, 1)
    else (p :: current :: rest, 0)

/-- STEP 3 to 6 of `deallocateMemory` once `current` is found: mark it as a hole, merge with
the next node, merge with the previous node.  The result is the list that replaces
`prev`, `current` and `rest`, and the net change of `numHoles` (`numHoles++`, then
`numHoles--` for each merge). -/
def freeBlock (prev : Option MemoryBlock) (current : MemoryBlock) (rest : List MemoryBlock) :
    List MemoryBlock × Int :=
  let current1 : MemoryBlock := { current with isHole := 1, processID := -1 }
  let step5 := mergeNext current1 rest
  let step6 := mergePrev prev step5.1 step5.2.1
  (step6.1, 1 - step5.2.2 - step6.2)

/-- The loop of `deallocateMemory`, carrying `prev`.  On a hit the result is the list that
replaces `prev` followed by the remaining nodes, the change of `numHoles`, and the size
added to `freeMemory` (the size of the found node before any merge). -/
def deallocScan (processID : Int) :
    Option MemoryBlock → List MemoryBlock → Option (List MemoryBlock × Int × Int)
  | _, [] => none
  | prev, current :: rest =>
    if current.isHole = 0 ∧ current.processID = processID then
      some ((freeBlock prev current rest).1, (freeBlock prev current rest).2, current.size)
    else
      match deallocScan processID (some current) rest with
      | none => none
      | some (l, dh, sz) => some (prev.toList ++ l, dh, sz)

/-- `deallocateMemory(mm, processID)`. -/
def deallocateMemory (mm : MemoryManager) (processID : Int) : Int × MemoryManager :=
  match deallocScan processID none mm.head with
  | none => (0, mm)
  | some (l, dh, sz) =>
    (1, { mm with
            head := l
            numProcesses := mm.numProcesses - 1
            numHoles := mm.numHoles + dh
            freeMemory := mm.freeMemory + sz })

/-! ## Call sequences and reachable states -/

/-- One call issued by a client of the allocator. -/
inductive Op where
  | alloc (processID size algo : Int)
  | dealloc (processID : Int)
deriving DecidableEq, Repr

/-- The state after one call (the returned `int` is dropped). -/
def step (mm : MemoryManager) : Op → MemoryManager
  | Op.alloc processID size algo => (allocateMemory mm processID size algo).2
  | Op.dealloc processID => (deallocateMemory mm processID).2

/-- The state after a finite sequence of calls. -/
def run (mm : MemoryManager) (ops : List Op) : MemoryManager :=
  ops.foldl step mm

/-- States reachable from `initializeMemory(total, os)` by `allocateMemory` and
`deallocateMemory` calls. -/
def Reachable (total os : Int) (mm : MemoryManager) : Prop :=
  ∃ ops : List Op, mm = run (initializeMemory total os) ops

/-! ## Observations on the block list -/

/-- A block is a hole when its `isHole` field is non-zero (C truth value). -/
def hole (b : MemoryBlock) : Bool := decide (b.isHole ≠ 0)

/-- Number of holes of a list. -/
def holeCount : List MemoryBlock → Int
  | [] => 0
  | b :: rest => (if hole b then 1 else 0) + holeCount rest

/-- Number of occupied blocks of a list. -/
def procCount : List MemoryBlock → Int
  | [] => 0
  | b :: rest => (if hole b then 0 else 1) + procCount rest

/-- Sum of the sizes of the holes. -/
def holeBytes : List MemoryBlock → Int
  | [] => 0
  | b :: rest => (if hole b then b.size else 0) + holeBytes rest

/-- Sum of the sizes of the occupied blocks. -/
def procBytes : List MemoryBlock → Int
  | [] => 0
  | b :: rest => (if hole b then 0 else b.size) + procBytes rest

/-- The blocks tile the addresses from `s` up to `e`: the first starts at `s`, each next one
starts right after its predecessor ends, and the last ends at `e` (the empty list tiles
the empty range `e + 1 .. e`). -/
def Tiles : Int → Int → List MemoryBlock → Prop
  | s, e, [] => s = e + 1
  | s, e, b :: rest => b.startAddress = s ∧ Tiles (b.endAddress + 1) e rest

/-- Whether the first block of a list is a hole (`false` for the empty list). -/
def headHole : List MemoryBlock → Bool
  | [] => false
  | b :: _ => hole b

/-- No two consecutive blocks are both holes. -/
def NoAdjHoles : List MemoryBlock → Prop
  | [] => True
  | b :: rest => ¬ (hole b = true ∧ headHole rest = true) ∧ NoAdjHoles rest

/-- A block is well formed: non-empty span, stored size equal to the derived one. -/
def WellFormed (b : MemoryBlock) : Prop :=
  b.startAddress ≤ b.endAddress ∧ b.size = b.endAddress - b.startAddress + 1

/-- The structural invariant of a block list over the address range `s .. e`. -/
def ListInv (s e : Int) (l : List MemoryBlock) : Prop :=
  Tiles s e l ∧ NoAdjHoles l ∧ ∀ b ∈ l, WellFormed b

/-- The invariant of allocator states reachable from `initializeMemory(total, os)`. -/
def Inv (total os : Int) (mm : MemoryManager) : Prop :=
  mm.totalMemory = total ∧ mm.osMemory = os ∧ mm.userMemory = total - os ∧
  ListInv os (total - 1) mm.head ∧
  mm.numHoles = holeCount mm.head ∧ mm.numProcesses = procCount mm.head ∧
  mm.freeMemory = holeBytes mm.head

/-- Whether address `a` lies inside block `b`. -/
def inBlock (a : Int) (b : MemoryBlock) : Bool :=
  decide (b.startAddress ≤ a) && decide (a ≤ b.endAddress)

/-- The state of `initializeMemory(9, -1)`, outside the documented `0 ≤ osMem`: one hole
over the addresses `-1 .. 8`. -/
def negativeStartState : MemoryManager := initializeMemory 9 (-1)

/-- The layout `[HOLE 50][P2 10][HOLE 200][P4 10][HOLE 100][P6 654]` over `0..1023`, reached
by six first-fit allocations and three deallocations. -/
def holesOps : List Op :=
  [Op.alloc 1 50 0, Op.alloc 2 10 0, Op.alloc 3 200 0, Op.alloc 4 10 0, Op.alloc 5 100 0,
   Op.alloc 6 654 0, Op.dealloc 1, Op.dealloc 3, Op.dealloc 5]

/-- The state with holes of sizes 50, 200, 100 at increasing addresses. -/
def holesState : MemoryManager := run (initializeMemory 1024 0) holesOps

/-! ## Fragmentation metric -/

/-- The loop of `calculateFragmentation`: `largest` is the running `largestHole`, updated
when `current->isHole && current->size > largestHole`. -/
def largestHoleScan : List MemoryBlock → Int → Int
  | [], largest => largest
  | current :: rest, largest =>
    if current.isHole ≠ 0 ∧ current.size > largest then largestHoleScan rest current.size
    else largestHoleScan rest largest

/-- The exact value of the formula that `calculateFragmentation(mm)` evaluates,
`(freeMemory - largestHole) / userMemory * 100` as a rational number, with the guard and
the scan of the code; `none` when the division is a division by zero.  The `float`
computation of the code itself is `calculateFragmentation32` below; it differs from this
value by a relative error of at most `2^-21` (`fragmentation_err`) and agrees with it in
the zero cases (`calculateFragmentation32_zero`). -/
def calculateFragmentation (mm : MemoryManager) : Option ℚ :=
  if mm.freeMemory = 0 then some 0
  else
    let largestHole := largestHoleScan mm.head 0
    let fragmentedMemory := mm.freeMemory - largestHole
    if mm.userMemory = 0 then none
    else some ((fragmentedMemory : ℚ) / (mm.userMemory : ℚ) * 100)

/-- Whether an optional neighbour block exists and is a hole. -/
def isHoleAt : Option MemoryBlock → Bool
  | none => false
  | some b => hole b

/-- The state of `initializeMemory(3, 5)`, outside the documented `osMem < totalMem`: one
hole `5 .. 2` of size `-2`, with `userMemory = freeMemory = -2`. -/
def invertedState : MemoryManager := initializeMemory 3 5

/-- Calls that leave two separated holes of 100 each in a user memory of 1000. -/
def twoHolesOps : List Op :=
  [Op.alloc 1 100 0, Op.alloc 2 400 0, Op.alloc 3 100 0, Op.alloc 4 400 0,
   Op.dealloc 1, Op.dealloc 3]

/-- The state with two non-adjacent holes of size 100 (`freeMemory = 200`). -/
def twoHolesState : MemoryManager := run (initializeMemory 1000 0) twoHolesOps

/-- Calls that build the layout `[P1 0-255][P2 256-355][HOLE 356-455][P3 456-1023]`. -/
def mergeOps : List Op :=
  [Op.alloc 1 256 0, Op.alloc 2 100 0, Op.alloc 9 100 0, Op.alloc 3 568 0, Op.dealloc 9]

/-- The state `[P1][P2: 256-355][HOLE: 356-455][P3]`. -/
def mergeState : MemoryManager := run (initializeMemory 1024 0) mergeOps

/-- The state after one request that takes the whole user memory: no free memory left. -/
def fullState : MemoryManager := run (initializeMemory 1024 0) [Op.alloc 1 1024 0]

/-! ## Owners -/

/-- The process ids carried by the occupied blocks, in list order. -/
def occupiedIds (l : List MemoryBlock) : List Int :=
  (l.filter (fun b => !hole b)).map (fun b => b.processID)

/-- Whether every `allocateMemory` call of the sequence, issued from state `mm` on, uses a
process id that no occupied block carries at the time of the call. -/
def freshIds : MemoryManager → List Op → Bool
  | _, [] => true
  | mm, Op.alloc processID size algo :: ops =>
    decide (processID ∉ occupiedIds mm.head) &&
      freshIds (step mm (Op.alloc processID size algo)) ops
  | mm, Op.dealloc processID :: ops => freshIds (step mm (Op.dealloc processID)) ops

/-- Whether a call is an `allocateMemory` call with the hole sentinel `-1` as process id. -/
def usesSentinelId : Op → Bool
  | Op.alloc processID _ _ => decide (processID = -1)
  | Op.dealloc _ => false

/-- Two allocations with the same process id. -/
def duplicateOps : List Op := [Op.alloc 1 10 0, Op.alloc 1 20 0]

/-- The state after two allocations with process id 1. -/
def duplicateState : MemoryManager := run (initializeMemory 1024 0) duplicateOps

/-- The state after one allocation with process id `-1`. -/
def sentinelState : MemoryManager := run (initializeMemory 1024 0) [Op.alloc (-1) 10 0]

/-- Calls that build the layout `[A 0-49][HOLE 50-99][B 100-129][HOLE 130-179][P5]`, with
`A` of process id 1 and size 50 and `B` of process id 3 and size 30. -/
def scenarioOps : List Op :=
  [Op.alloc 1 50 0, Op.alloc 2 50 0, Op.alloc 3 30 0, Op.alloc 4 50 0, Op.alloc 5 844 0,
   Op.dealloc 2, Op.dealloc 4]

/-- The state `[Occupied A][Free 50][Occupied B][Free 50][P5]`. -/
def scenarioState : MemoryManager := run (initializeMemory 1024 0) scenarioOps

/-- `allocateMemory` with STEP 2, the `size > freeMemory` pre-check, left out: the size
validation and the dispatch to the policy functions are kept as they are. -/
def allocateNoPrecheck (mm : MemoryManager) (processID size algo : Int) :
    Int × MemoryManager :=
  if size ≤ 0 then (-1, mm)
  else if algo = FIRST_FIT then firstFit mm processID size
  else if algo = BEST_FIT then bestFit mm processID size
  else if algo = WORST_FIT then worstFit mm processID size
  else (-1, mm)

/-! ## Merge order -/

/-- The free step with the two merges in the other order, following the words of the
specification: the block is marked free, then the predecessor side is handled first (a free
predecessor absorbs the block: its end is extended and the block is removed), and the
successor side second (the surviving block absorbs a free successor).  The counter change
is `+1` for the new hole and `-1` for each absorption. -/
def freeBlockPrevFirst (prev : Option MemoryBlock) (current : MemoryBlock)
    (rest : List MemoryBlock) : List MemoryBlock × Int :=
  let current1 : MemoryBlock := { current with isHole := 1, processID := -1 }
  match prev with
  | none =>
    let next := mergeNext current1 rest
    (next.1 :: next.2.1, 1 - next.2.2)
  | some p =>
    if p.isHole ≠ 0 then
      let merged : MemoryBlock :=
        { p with
            endAddress := current1.endAddress
            size := current1.endAddress - p.startAddress + 1 }
      let next := mergeNext merged rest
      (next.1 :: next.2.1, 1 - 1 - next.2.2)
    else
      let next := mergeNext current1 rest
      (p :: next.1 :: next.2.1, 1 - next.2.2)

/-- The loop of `deallocateMemory` with `freeBlockPrevFirst` as the free step. -/
def deallocScanPrevFirst (processID : Int) :
    Option MemoryBlock → List MemoryBlock → Option (List MemoryBlock × Int × Int)
  | _, [] => none
  | prev, current :: rest =>
    if current.isHole = 0 ∧ current.processID = processID then
      some ((freeBlockPrevFirst prev current rest).1, (freeBlockPrevFirst prev current rest).2,
            current.size)
    else
      match deallocScanPrevFirst processID (some current) rest with
      | none => none
      | some (l, dh, sz) => some (prev.toList ++ l, dh, sz)

/-- Deallocation with the predecessor absorbed first and the successor second. -/
def deallocatePrevFirst (mm : MemoryManager) (processID : Int) : Int × MemoryManager :=
  match deallocScanPrevFirst processID none mm.head with
  | none => (0, mm)
  | some (l, dh, sz) =>
    (1, { mm with
            head := l
            numProcesses := mm.numProcesses - 1
            numHoles := mm.numHoles + dh
            freeMemory := mm.freeMemory + sz })

/-! ## 32-bit arithmetic

The functions below are the allocation and deallocation code again, with every `int`
operation (`+`, `-`, `++`, `--`, `+=`, `-=`) checked: the result is `none` as soon as the
exact value of one operation is not representable in a 32-bit `int`, where the C program
has undefined behaviour.  Comparisons and assignments cannot overflow and are not checked. -/

/-- Whether an integer is representable as a 32-bit `int`. -/
def inInt32 (x : Int) : Bool := decide (-2147483648 ≤ x) && decide (x ≤ 2147483647)

/-- The outcome of one `int` operation with exact value `x`. -/
def chk (x : Int) : Option Int := if inInt32 x = true then some x else none

/-- Checked `createBlock`: `end - start + 1` is two operations. -/
def createBlock32 (isHole start end_ pid : Int) : Option MemoryBlock := do
  let d ← chk (end_ - start)
  let size ← chk (d + 1)
  pure { isHole := isHole
         startAddress := start
         endAddress := end_
         size := size
         processID := pid }

/-- Checked `allocBlock`: `startAddress + size`, `newStart - 1` and the `createBlock` call. -/
def allocBlock32 (current : MemoryBlock) (processID size : Int) :
    Option (List MemoryBlock) :=
  if current.size = size then
    pure [{ current with isHole := 0, processID := processID }]
  else do
    let newStart ← chk (current.startAddress + size)
    let oldEnd := current.endAddress
    let newEnd ← chk (newStart - 1)
    let newHole ← createBlock32 1 newStart oldEnd (-1)
    pure [{ current with endAddress := newEnd, size := size, isHole := 0,
                         processID := processID },
          newHole]

/-- Checked `allocateAt`: `numHoles--` on an exact fit, `numProcesses++`,
`freeMemory -= size`. -/
def allocateAt32 (mm : MemoryManager) (i : Nat) (processID size : Int) :
    Option (Int × MemoryManager) :=
  match mm.head.get? i with
  | none => pure (-1, mm)
  | some current => do
    let blocks ← allocBlock32 current processID size
    let numHoles ← if current.size = size then chk (mm.numHoles - 1) else pure mm.numHoles
    let numProcesses ← chk (mm.numProcesses + 1)
    let freeMemory ← chk (mm.freeMemory - size)
    pure (current.startAddress,
          { mm with
              head := replaceAt mm.head i blocks
              numHoles := numHoles
              numProcesses := numProcesses
              freeMemory := freeMemory })

/-- Checked `firstFit`. -/
def firstFit32 (mm : MemoryManager) (processID size : Int) : Option (Int × MemoryManager) :=
  match firstFitScan size mm.head 0 with
  | none => pure (-1, mm)
  | some i => allocateAt32 mm i processID size

/-- Checked `bestFit`: `totalMemory + 1` is computed before the scan. -/
def bestFit32 (mm : MemoryManager) (processID size : Int) : Option (Int × MemoryManager) := do
  let minSize ← chk (mm.totalMemory + 1)
  match bestFitScan size mm.head 0 none minSize with
  | none => pure (-1, mm)
  | some i => allocateAt32 mm i processID size

/-- Checked `worstFit`. -/
def worstFit32 (mm : MemoryManager) (processID size : Int) : Option (Int × MemoryManager) :=
  match worstFitScan size mm.head 0 none (-1) with
  | none => pure (-1, mm)
  | some i => allocateAt32 mm i processID size

/-- Checked `allocateMemory`. -/
def allocateMemory32 (mm : MemoryManager) (processID size algo : Int) :
    Option (Int × MemoryManager) :=
  if size ≤ 0 then pure (-1, mm)
  else if size > mm.freeMemory then pure (-1, mm)
  else if algo = FIRST_FIT then firstFit32 mm processID size
  else if algo = BEST_FIT then bestFit32 mm processID size
  else if algo = WORST_FIT then worstFit32 mm processID size
  else pure (-1, mm)

/-- Checked `mergeNext`: `current->endAddress - current->startAddress + 1`. -/
def mergeNext32 (current : MemoryBlock) (rest : List MemoryBlock) :
    Option (MemoryBlock × List MemoryBlock × Int) :=
  match rest with
  | [] => pure (current, [], 0)
  | nextHole :: after =>
    if nextHole.isHole ≠ 0 then do
      let d ← chk (nextHole.endAddress - current.startAddress)
      let size ← chk (d + 1)
      pure ({ current with endAddress := nextHole.endAddress, size := size }, after, 1)
    else pure (current, nextHole :: after, 0)

/-- Checked `mergePrev`: `prev->endAddress - prev->startAddress + 1`. -/
def mergePrev32 (prev : Option MemoryBlock) (current : MemoryBlock)
    (rest : List MemoryBlock) : Option (List MemoryBlock × Int) :=
  match prev with
  | none => pure (current :: rest, 0)
  | some p =>
    if p.isHole ≠ 0 then do
      let d ← chk (current.endAddress - p.startAddress)
      let size ← chk (d + 1)
      pure ({ p with endAddress := current.endAddress, size := size } :: rest, 1)
    else pure (p :: current :: rest, 0)

/-- Checked `freeBlock`, carrying the value of `numHoles`: `numHoles++` when the block is
marked, `numHoles--` inside each merge that is executed.  The result is the new list and
the new value of `numHoles`. -/
def freeBlock32 (numHoles : Int) (prev : Option MemoryBlock) (current : MemoryBlock)
    (rest : List MemoryBlock) : Option (List MemoryBlock × Int) := do
  let current1 : MemoryBlock := { current with isHole := 1, processID := -1 }
  let n1 ← chk (numHoles + 1)
  let step5 ← mergeNext32 current1 rest
  let n2 ← if step5.2.2 = 1 then chk (n1 - 1) else pure n1
  let step6 ← mergePrev32 prev step5.1 step5.2.1
  let n3 ← if step6.2 = 1 then chk (n2 - 1) else pure n2
  pure (step6.1, n3)

/-- Checked loop of `deallocateMemory`: the outer `none` is an overflow, the inner `none`
is "process not found".  On a hit the result is the new list, the new `numHoles` and the
size of the found node. -/
def deallocScan32 (numHoles processID : Int) :
    Option MemoryBlock → List MemoryBlock → Option (Option (List MemoryBlock × Int × Int))
  | _, [] => some none
  | prev, current :: rest =>
    if current.isHole = 0 ∧ current.processID = processID then
      match freeBlock32 numHoles prev current rest with
      | none => none
      | some r => some (some (r.1, r.2, current.size))
    else
      match deallocScan32 numHoles processID (some current) rest with
      | none => none
      | some none => some none
      | some (some (l, nh, sz)) => some (some (prev.toList ++ l, nh, sz))

/-- Checked `deallocateMemory`: `numProcesses--` and `freeMemory += current->size` (the
code does them before the merges; the outcome does not depend on the order of the
checks). -/
def deallocateMemory32 (mm : MemoryManager) (processID : Int) :
    Option (Int × MemoryManager) :=
  match deallocScan32 mm.numHoles processID none mm.head with
  | none => none
  | some none => some (0, mm)
  | some (some (l, nh, sz)) => do
    let numProcesses ← chk (mm.numProcesses - 1)
    let freeMemory ← chk (mm.freeMemory + sz)
    pure (1, { mm with
                 head := l
                 numProcesses := numProcesses
                 numHoles := nh
                 freeMemory := freeMemory })

/-- The state of `initializeMemory(2147483647, 0)`, the largest total a 32-bit `int` holds. -/
def maxTotalState : MemoryManager := initializeMemory 2147483647 0

/-- The state of the example of the header file, `initializeMemory(1024, 256)`. -/
def exampleState : MemoryManager := initializeMemory 1024 256

/-- The value ranges used by the 32-bit analysis: every block lies inside `0 .. 2^31 - 2`
with `startAddress ≤ endAddress` and the derived size, the counters and `freeMemory` lie in
`0 .. 2^31 - 2`, `freeMemory` plus the size of any occupied block stays in that range, and
`totalMemory + 1` is representable. -/
def InRange (mm : MemoryManager) : Prop :=
  (∀ b ∈ mm.head, 0 ≤ b.startAddress ∧ b.startAddress ≤ b.endAddress ∧
    b.endAddress ≤ 2147483646 ∧ b.size = b.endAddress - b.startAddress + 1) ∧
  (0 ≤ mm.numHoles ∧ mm.numHoles ≤ 2147483646) ∧
  (0 ≤ mm.numProcesses ∧ mm.numProcesses ≤ 2147483646) ∧
  (0 ≤ mm.freeMemory ∧ mm.freeMemory ≤ 2147483646) ∧
  (∀ b ∈ mm.head, hole b = false → mm.freeMemory + b.size ≤ 2147483646) ∧
  (0 ≤ mm.totalMemory ∧ mm.totalMemory ≤ 2147483646)

/-! ## binary32 arithmetic (`float`)

`calculateFragmentation` returns a `float`.  The definitions below are IEEE-754 binary32
arithmetic with round-to-nearest, ties-to-even, on finite values, each operation rounded
to binary32 (`FLT_EVAL_METHOD == 0`, as on x86-64 and AArch64).  Every `int` has magnitude
at most `2^31`, so the quotients and products of `calculateFragmentation` have magnitude
between `2^-31` and `2^38`, inside the normal range of binary32: subnormal numbers and
overflow to infinity cannot occur and are not modelled.  The sign of a zero is not
represented, a division by zero (an infinity or a NaN in C) is `none`. -/

/-- A finite binary32 value `mant * 2 ^ exp`: zero is `⟨0, 0⟩`, every other value produced
by the operations below has `2^23 ≤ |mant| < 2^24`. -/
structure F32 where
  mant : Int
  exp : Int
deriving DecidableEq, Repr

/-- The rational number a binary32 value stands for. -/
def F32.toRat (a : F32) : ℚ := (a.mant : ℚ) * (2 : ℚ) ^ a.exp

/-- Number of binary digits of `n`, by halving at most `fuel` times. -/
def bitLenAux : Nat → Nat → Nat
  | 0, _ => 0
  | fuel + 1, n => if n = 0 then 0 else bitLenAux fuel (n / 2) + 1

/-- Number of binary digits of `n` (`0` for `n = 0`). -/
def bitLen (n : Nat) : Nat := bitLenAux n n

/-- The integer nearest to `n / d`, a tie going to the even one. -/
def roundDiv (n d : Nat) : Nat :=
  let q := n / d
  let r := n % d
  if 2 * r < d then q
  else if d < 2 * r then q + 1
  else if q % 2 = 0 then q else q + 1

/-- The exponent `e` with `2^23 ≤ (n / d) / 2^e < 2^24` (`n`, `d` positive): with
`k = bitLen n - bitLen d` the quotient lies between `2^(k-1)` and `2^(k+1)`, and one
comparison with `2^k` decides between `k - 23` and `k - 24`. -/
def F32.roundExp (n d : Nat) : Int :=
  let k : Int := (bitLen n : Int) - (bitLen d : Int)
  if d * 2 ^ k.toNat ≤ n * 2 ^ (-k).toNat then k - 23 else k - 24

/-- The binary32 value nearest to `± (n / d) * 2 ^ shift` (`d ≠ 0`): the quotient scaled by
`2^-e` is rounded to an integer of 24 bits (ties to even), and a result of `2^24` is
renormalised to `2^23` with the next exponent. -/
def F32.round (neg : Bool) (n d : Nat) (shift : Int) : F32 :=
  if n = 0 then ⟨0, 0⟩
  else
    let e : Int := F32.roundExp n d
    let m := roundDiv (n * 2 ^ (-e).toNat) (d * 2 ^ e.toNat)
    let m2 : Nat := if m = 16777216 then 8388608 else m
    let e2 : Int := if m = 16777216 then e + 1 else e
    ⟨if neg = true then -(m2 : Int) else (m2 : Int), e2 + shift⟩

/-- The conversion `(float)x` of an `int`. -/
def F32.ofInt (x : Int) : F32 := F32.round (decide (x < 0)) x.natAbs 1 0

/-- The `float` division `a / b`; `none` when `b` is zero. -/
def F32.div (a b : F32) : Option F32 :=
  if b.mant = 0 then none
  else
    some (F32.round (xor (decide (a.mant < 0)) (decide (b.mant < 0)))
            a.mant.natAbs b.mant.natAbs (a.exp - b.exp))

/-- The `float` multiplication `a * b`. -/
def F32.mul (a b : F32) : F32 :=
  F32.round (xor (decide (a.mant < 0)) (decide (b.mant < 0)))
    (a.mant.natAbs * b.mant.natAbs) 1 (a.exp + b.exp)

/-- `calculateFragmentation(mm)` with its `float` arithmetic:
`(float)fragmentedMemory / mm->userMemory * 100` converts the two `int` operands and the
constant to `float`, divides, then multiplies. -/
def calculateFragmentation32 (mm : MemoryManager) : Option F32 :=
  if mm.freeMemory = 0 then some ⟨0, 0⟩
  else
    let largestHole := largestHoleScan mm.head 0
    let fragmentedMemory := mm.freeMemory - largestHole
    match F32.div (F32.ofInt fragmentedMemory) (F32.ofInt mm.userMemory) with
    | none => none
    | some q => some (F32.mul q (F32.ofInt 100))

/-! ## Basic facts -/

theorem wrap32_eq (x : Int) (h1 : -2147483648 ≤ x) (h2 : x ≤ 2147483647) : wrap32 x = x := by
  unfold wrap32
  omega

theorem hole_iff (b : MemoryBlock) : hole b = true ↔ b.isHole ≠ 0 := by
  simp [hole]

theorem fits_iff (size : Int) (b : MemoryBlock) :
    fits size b = true ↔ hole b = true ∧ size ≤ b.size := by
  simp [fits, hole]

/-! ## The allocation code preserves the list invariant -/

theorem replaceAt_inv (pid size : Int) (hs : 0 < size) :
    ∀ (l : List MemoryBlock) (i : Nat) (s e : Int) (cur : MemoryBlock),
      l.get? i = some cur → hole cur = true → size ≤ cur.size → ListInv s e l →
      ListInv s e (replaceAt l i (allocBlock cur pid size)) ∧
      (headHole (replaceAt l i (allocBlock cur pid size)) = true → headHole l = true) := by
  intro l
  induction l with
  | nil => intro i s e cur h; simp at h
  | cons b rest ih =>
    intro i s e cur hget hh hle hinv
    obtain ⟨ht, hn, hw⟩ := hinv
    simp only [Tiles] at ht
    simp only [NoAdjHoles] at hn
    have hwb : WellFormed b := hw b (List.mem_cons_self _ _)
    have hwr : ∀ x ∈ rest, WellFormed x := fun x hx => hw x (List.mem_cons_of_mem _ hx)
    cases i with
    | zero =>
      simp only [List.get?_cons_zero, Option.some.injEq] at hget
      subst hget
      obtain ⟨hw1, hw2⟩ := hwb
      by_cases hex : b.size = size
      · simp only [replaceAt, allocBlock, hex, if_true, List.singleton_append]
        refine ⟨⟨?_, ?_, ?_⟩, ?_⟩
        · simpa [Tiles] using ht
        · simp [NoAdjHoles, hole, hn.2]
        · intro x hx
          rcases List.mem_cons.1 hx with rfl | hx
          · constructor
            · exact hw1
            · show size = b.endAddress - b.startAddress + 1
              omega
          · exact hwr x hx
        · simp [headHole, hole]
      · simp only [replaceAt, allocBlock, hex, if_false, List.cons_append, List.nil_append]
        refine ⟨⟨?_, ?_, ?_⟩, ?_⟩
        · simp only [Tiles, createBlock]
          refine ⟨ht.1, by omega, ht.2⟩
        · simp only [NoAdjHoles, headHole]
          refine ⟨by simp [hole], ?_, hn.2⟩
          intro hc
          exact hn.1 ⟨hh, hc.2⟩
        · intro x hx
          rcases List.mem_cons.1 hx with rfl | hx
          · constructor
            · show b.startAddress ≤ b.startAddress + size - 1
              omega
            · show size = b.startAddress + size - 1 - b.startAddress + 1
              omega
          · rcases List.mem_cons.1 hx with rfl | hx
            · have : size < b.size := lt_of_le_of_ne hle (Ne.symm hex)
              constructor
              · show b.startAddress + size ≤ b.endAddress
                omega
              · rfl
            · exact hwr x hx
        · simp [headHole, hole]
    | succ j =>
      simp only [List.get?_cons_succ] at hget
      obtain ⟨hi1, hi2⟩ := ih j (b.endAddress + 1) e cur hget hh hle ⟨ht.2, hn.2, hwr⟩
      obtain ⟨it, inn, iw⟩ := hi1
      simp only [replaceAt]
      refine ⟨⟨?_, ?_, ?_⟩, ?_⟩
      · exact ⟨ht.1, it⟩
      · refine ⟨?_, inn⟩
        intro hc
        exact hn.1 ⟨hc.1, hi2 hc.2⟩
      · intro x hx
        rcases List.mem_cons.1 hx with rfl | hx
        · exact hwb
        · exact iw x hx
      · simp [headHole]

theorem replaceAt_counts (pid size : Int) :
    ∀ (l : List MemoryBlock) (i : Nat) (cur : MemoryBlock),
      l.get? i = some cur → hole cur = true → (∀ b ∈ l, WellFormed b) →
      holeCount (replaceAt l i (allocBlock cur pid size)) = holeCount l + allocHoleDelta cur size ∧
      procCount (replaceAt l i (allocBlock cur pid size)) = procCount l + 1 ∧
      holeBytes (replaceAt l i (allocBlock cur pid size)) = holeBytes l - size ∧
      procBytes (replaceAt l i (allocBlock cur pid size)) = procBytes l + size := by
  intro l
  induction l with
  | nil => intro i cur h; simp at h
  | cons b rest ih =>
    intro i cur hget hh hw
    cases i with
    | zero =>
      simp only [List.get?_cons_zero, Option.some.injEq] at hget
      subst hget
      obtain ⟨hw1, hw2⟩ := hw b (List.mem_cons_self _ _)
      by_cases hex : b.size = size
      · simp only [replaceAt, allocBlock, allocHoleDelta, hex, if_true, List.singleton_append,
          holeCount, procCount, holeBytes, procBytes, hh]
        simp [hole]
        omega
      · simp only [replaceAt, allocBlock, allocHoleDelta, hex, if_false, List.cons_append,
          List.nil_append, holeCount, procCount, holeBytes, procBytes, hh, createBlock]
        simp [hole]
        omega
    | succ j =>
      simp only [List.get?_cons_succ] at hget
      obtain ⟨h1, h2, h3, h4⟩ :=
        ih j cur hget hh (fun x hx => hw x (List.mem_cons_of_mem _ hx))
      simp only [replaceAt, holeCount, procCount, holeBytes, procBytes, h1, h2, h3, h4]
      omega

/-! ## The deallocation code preserves the list invariant -/

theorem mergeNext_nil (c : MemoryBlock) : mergeNext c [] = (c, [], 0) := rfl

theorem mergeNext_cons_hole (c n : MemoryBlock) (after : List MemoryBlock)
    (h : n.isHole ≠ 0) :
    mergeNext c (n :: after) =
      ({ c with endAddress := n.endAddress, size := n.endAddress - c.startAddress + 1 },
        after, 1) := by
  simp [mergeNext, h]

theorem mergeNext_cons_proc (c n : MemoryBlock) (after : List MemoryBlock)
    (h : n.isHole = 0) : mergeNext c (n :: after) = (c, n :: after, 0) := by
  simp [mergeNext, h]

theorem mergePrev_hole (p c : MemoryBlock) (rest : List MemoryBlock) (h : p.isHole ≠ 0) :
    mergePrev (some p) c rest =
      ({ p with endAddress := c.endAddress, size := c.endAddress - p.startAddress + 1 } :: rest,
        1) := by
  simp [mergePrev, h]

theorem mergePrev_proc (p c : MemoryBlock) (rest : List MemoryBlock) (h : p.isHole = 0) :
    mergePrev (some p) c rest = (p :: c :: rest, 0) := by
  simp [mergePrev, h]

theorem mergeNext_inv (c : MemoryBlock) (rest : List MemoryBlock) (s e : Int)
    (hc : hole c = true) (ht : Tiles s e (c :: rest)) (hn : NoAdjHoles rest)
    (hw : ∀ b ∈ c :: rest, WellFormed b) :
    ListInv s e ((mergeNext c rest).1 :: (mergeNext c rest).2.1) ∧
    hole (mergeNext c rest).1 = true ∧
    (mergeNext c rest).1.startAddress = c.startAddress ∧
    holeCount ((mergeNext c rest).1 :: (mergeNext c rest).2.1) =
      holeCount (c :: rest) - (mergeNext c rest).2.2 ∧
    procCount ((mergeNext c rest).1 :: (mergeNext c rest).2.1) = procCount (c :: rest) ∧
    holeBytes ((mergeNext c rest).1 :: (mergeNext c rest).2.1) = holeBytes (c :: rest) ∧
    procBytes ((mergeNext c rest).1 :: (mergeNext c rest).2.1) = procBytes (c :: rest) := by
  rcases rest with _ | ⟨n, after⟩
  · rw [mergeNext_nil]
    refine ⟨⟨ht, ?_, hw⟩, hc, rfl, ?_, rfl, rfl, rfl⟩
    · simp [NoAdjHoles, headHole]
    · show holeCount [c] = holeCount [c] - 0
      omega
  · have hwc : WellFormed c := hw c (List.mem_cons_self _ _)
    have hwn : WellFormed n := hw n (List.mem_cons_of_mem _ (List.mem_cons_self _ _))
    have hwa : ∀ b ∈ after, WellFormed b := fun b hb =>
      hw b (List.mem_cons_of_mem _ (List.mem_cons_of_mem _ hb))
    obtain ⟨hc1, hc2⟩ := hwc
    obtain ⟨hn1, hn2⟩ := hwn
    obtain ⟨ht1, ht2, ht3⟩ := ht
    obtain ⟨hna, hnb⟩ := hn
    by_cases hnh : n.isHole = 0
    · have hnh2 : hole n = false := by simp [hole, hnh]
      rw [mergeNext_cons_proc c n after hnh]
      refine ⟨⟨⟨ht1, ht2, ht3⟩, ⟨?_, hna, hnb⟩, hw⟩, hc, rfl, ?_, rfl, rfl, rfl⟩
      · intro h
        have h2 : hole n = true := h.2
        rw [hnh2] at h2
        exact Bool.noConfusion h2
      · show holeCount (c :: n :: after) = holeCount (c :: n :: after) - 0
        omega
    · have hnh2 : hole n = true := by simp [hole, hnh]
      rw [mergeNext_cons_hole c n after hnh]
      refine ⟨⟨⟨ht1, ht3⟩, ⟨?_, hnb⟩, ?_⟩, hc, rfl, ?_, ?_, ?_, ?_⟩
      · intro h
        exact hna ⟨hnh2, h.2⟩
      · intro b hb
        rcases List.mem_cons.1 hb with rfl | hb
        · constructor
          · show c.startAddress ≤ n.endAddress
            omega
          · rfl
        · exact hwa b hb
      · show (if hole c = true then 1 else 0) + holeCount after =
          (if hole c = true then 1 else 0) +
            ((if hole n = true then 1 else 0) + holeCount after) - 1
        rw [hnh2, hc]
        simp only [if_true]
        omega
      · show (if hole c = true then 0 else 1) + procCount after =
          (if hole c = true then 0 else 1) +
            ((if hole n = true then 0 else 1) + procCount after)
        rw [hnh2]
        simp
      · show (if hole c = true then n.endAddress - c.startAddress + 1 else 0) + holeBytes after =
          (if hole c = true then c.size else 0) +
            ((if hole n = true then n.size else 0) + holeBytes after)
        rw [hnh2, hc]
        simp only [if_true]
        omega
      · show (if hole c = true then 0 else n.endAddress - c.startAddress + 1) + procBytes after =
          (if hole c = true then 0 else c.size) +
            ((if hole n = true then 0 else n.size) + procBytes after)
        rw [hnh2, hc]
        simp

theorem mergePrev_inv (p c : MemoryBlock) (rest : List MemoryBlock) (s e : Int)
    (hc : hole c = true) (ht : Tiles s e (p :: c :: rest)) (hn : NoAdjHoles (c :: rest))
    (hw : ∀ b ∈ p :: c :: rest, WellFormed b) :
    ListInv s e (mergePrev (some p) c rest).1 ∧
    headHole (mergePrev (some p) c rest).1 = hole p ∧
    holeCount (mergePrev (some p) c rest).1 =
      holeCount (p :: c :: rest) - (mergePrev (some p) c rest).2 ∧
    procCount (mergePrev (some p) c rest).1 = procCount (p :: c :: rest) ∧
    holeBytes (mergePrev (some p) c rest).1 = holeBytes (p :: c :: rest) ∧
    procBytes (mergePrev (some p) c rest).1 = procBytes (p :: c :: rest) := by
  obtain ⟨hp1, hp2⟩ := hw p (List.mem_cons_self _ _)
  obtain ⟨hc1, hc2⟩ := hw c (List.mem_cons_of_mem _ (List.mem_cons_self _ _))
  have hwr : ∀ b ∈ rest, WellFormed b := fun b hb =>
    hw b (List.mem_cons_of_mem _ (List.mem_cons_of_mem _ hb))
  obtain ⟨ht1, ht2, ht3⟩ := ht
  obtain ⟨hna, hnb⟩ := hn
  by_cases hph : p.isHole = 0
  · have hph2 : hole p = false := by simp [hole, hph]
    rw [mergePrev_proc p c rest hph]
    refine ⟨⟨⟨ht1, ht2, ht3⟩, ⟨?_, hna, hnb⟩, hw⟩, rfl, ?_, rfl, rfl, rfl⟩
    · intro h
      have h2 : hole p = true := h.1
      rw [hph2] at h2
      exact Bool.noConfusion h2
    · show holeCount (p :: c :: rest) = holeCount (p :: c :: rest) - 0
      omega
  · have hph2 : hole p = true := by simp [hole, hph]
    rw [mergePrev_hole p c rest hph]
    refine ⟨⟨⟨ht1, ht3⟩, ⟨?_, hnb⟩, ?_⟩, rfl, ?_, ?_, ?_, ?_⟩
    · intro h
      exact hna ⟨hc, h.2⟩
    · intro b hb
      rcases List.mem_cons.1 hb with rfl | hb
      · constructor
        · show p.startAddress ≤ c.endAddress
          omega
        · rfl
      · exact hwr b hb
    · show (if hole p = true then 1 else 0) + holeCount rest =
        (if hole p = true then 1 else 0) +
          ((if hole c = true then 1 else 0) + holeCount rest) - 1
      rw [hc, hph2]
      simp only [if_true]
      omega
    · show (if hole p = true then 0 else 1) + procCount rest =
        (if hole p = true then 0 else 1) +
          ((if hole c = true then 0 else 1) + procCount rest)
      rw [hc]
      simp
    · show (if hole p = true then c.endAddress - p.startAddress + 1 else 0) + holeBytes rest =
        (if hole p = true then p.size else 0) +
          ((if hole c = true then c.size else 0) + holeBytes rest)
      rw [hc, hph2]
      simp only [if_true]
      omega
    · show (if hole p = true then 0 else c.endAddress - p.startAddress + 1) + procBytes rest =
        (if hole p = true then 0 else p.size) +
          ((if hole c = true then 0 else c.size) + procBytes rest)
      rw [hc, hph2]
      simp

theorem holeCount_cons (b : MemoryBlock) (l : List MemoryBlock) :
    holeCount (b :: l) = (if hole b = true then 1 else 0) + holeCount l := rfl

theorem procCount_cons (b : MemoryBlock) (l : List MemoryBlock) :
    procCount (b :: l) = (if hole b = true then 0 else 1) + procCount l := rfl

theorem holeBytes_cons (b : MemoryBlock) (l : List MemoryBlock) :
    holeBytes (b :: l) = (if hole b = true then b.size else 0) + holeBytes l := rfl

theorem procBytes_cons (b : MemoryBlock) (l : List MemoryBlock) :
    procBytes (b :: l) = (if hole b = true then 0 else b.size) + procBytes l := rfl

theorem merge_inv (prev : Option MemoryBlock) (c : MemoryBlock) (rest : List MemoryBlock)
    (s e : Int) (hc : hole c = true) (ht : Tiles s e (prev.toList ++ c :: rest))
    (hn : NoAdjHoles rest) (hw : ∀ b ∈ prev.toList ++ c :: rest, WellFormed b) :
    ListInv s e (mergePrev prev (mergeNext c rest).1 (mergeNext c rest).2.1).1 ∧
    (∀ p, prev = some p →
      headHole (mergePrev prev (mergeNext c rest).1 (mergeNext c rest).2.1).1 = hole p) ∧
    holeCount (mergePrev prev (mergeNext c rest).1 (mergeNext c rest).2.1).1 =
      holeCount (prev.toList ++ c :: rest) - (mergeNext c rest).2.2 -
        (mergePrev prev (mergeNext c rest).1 (mergeNext c rest).2.1).2 ∧
    procCount (mergePrev prev (mergeNext c rest).1 (mergeNext c rest).2.1).1 =
      procCount (prev.toList ++ c :: rest) ∧
    holeBytes (mergePrev prev (mergeNext c rest).1 (mergeNext c rest).2.1).1 =
      holeBytes (prev.toList ++ c :: rest) ∧
    procBytes (mergePrev prev (mergeNext c rest).1 (mergeNext c rest).2.1).1 =
      procBytes (prev.toList ++ c :: rest) := by
  rcases prev with _ | p
  · obtain ⟨m1, _, _, m4, m5, m6, m7⟩ := mergeNext_inv c rest s e hc ht hn hw
    refine ⟨m1, ?_, ?_, m5, m6, m7⟩
    · intro p hp
      exact Option.noConfusion hp
    · show holeCount (_ :: _) = holeCount (c :: rest) - _ - 0
      rw [m4]
      omega
  · have hw1 : ∀ b ∈ c :: rest, WellFormed b := fun b hb => hw b (List.mem_cons_of_mem _ hb)
    obtain ⟨m1, m2, _, m4, m5, m6, m7⟩ :=
      mergeNext_inv c rest (p.endAddress + 1) e hc ht.2 hn hw1
    generalize mergeNext c rest = r at m1 m2 m4 m5 m6 m7 ⊢
    obtain ⟨c2, rest2, k⟩ := r
    obtain ⟨mt, mn, mw⟩ := m1
    simp only at mt mn mw m2 m4 m5 m6 m7
    have hw2 : ∀ b ∈ p :: c2 :: rest2, WellFormed b := by
      intro b hb
      rcases List.mem_cons.1 hb with rfl | hb
      · exact hw b (List.mem_cons_self _ _)
      · exact mw b hb
    obtain ⟨q1, q2, q3, q4, q5, q6⟩ := mergePrev_inv p c2 rest2 s e m2 ⟨ht.1, mt⟩ mn hw2
    refine ⟨q1, ?_, ?_, ?_, ?_, ?_⟩
    · intro p2 hp
      cases hp
      exact q2
    · show holeCount (mergePrev (some p) c2 rest2).1 =
        holeCount (p :: c :: rest) - k - (mergePrev (some p) c2 rest2).2
      rw [q3, holeCount_cons, m4, holeCount_cons p]
      omega
    · show procCount (mergePrev (some p) c2 rest2).1 = procCount (p :: c :: rest)
      rw [q4, procCount_cons, m5, procCount_cons p]
    · show holeBytes (mergePrev (some p) c2 rest2).1 = holeBytes (p :: c :: rest)
      rw [q5, holeBytes_cons, m6, holeBytes_cons p]
    · show procBytes (mergePrev (some p) c2 rest2).1 = procBytes (p :: c :: rest)
      rw [q6, procBytes_cons, m7, procBytes_cons p]

theorem freeBlock_inv (prev : Option MemoryBlock) (current : MemoryBlock)
    (rest : List MemoryBlock) (s e : Int) (hc : current.isHole = 0)
    (hinv : ListInv s e (prev.toList ++ current :: rest)) :
    ListInv s e (freeBlock prev current rest).1 ∧
    (∀ p, prev = some p → headHole (freeBlock prev current rest).1 = hole p) ∧
    holeCount (freeBlock prev current rest).1 =
      holeCount (prev.toList ++ current :: rest) + (freeBlock prev current rest).2 ∧
    procCount (freeBlock prev current rest).1 =
      procCount (prev.toList ++ current :: rest) - 1 ∧
    holeBytes (freeBlock prev current rest).1 =
      holeBytes (prev.toList ++ current :: rest) + current.size ∧
    procBytes (freeBlock prev current rest).1 =
      procBytes (prev.toList ++ current :: rest) - current.size := by
  obtain ⟨ht, hn, hw⟩ := hinv
  have hch : hole current = false := by simp [hole, hc]
  obtain ⟨c1, hc1⟩ : ∃ c1 : MemoryBlock, c1 = { current with isHole := 1, processID := -1 } :=
    ⟨_, rfl⟩
  have h1 : hole c1 = true := by rw [hc1]; simp [hole]
  have hsz : c1.size = current.size := by rw [hc1]
  have hfb : freeBlock prev current rest =
      ((mergePrev prev (mergeNext c1 rest).1 (mergeNext c1 rest).2.1).1,
        1 - (mergeNext c1 rest).2.2 -
          (mergePrev prev (mergeNext c1 rest).1 (mergeNext c1 rest).2.1).2) := by
    rw [hc1]; rfl
  have ht1 : Tiles s e (prev.toList ++ c1 :: rest) := by
    rw [hc1]
    rcases prev with _ | p
    · exact ht
    · exact ht
  have hn1 : NoAdjHoles rest := by
    rcases prev with _ | p
    · exact hn.2
    · exact hn.2.2
  have hw1 : ∀ b ∈ prev.toList ++ c1 :: rest, WellFormed b := by
    intro b hb
    rcases List.mem_append.1 hb with hb | hb
    · exact hw b (List.mem_append_left _ hb)
    · rcases List.mem_cons.1 hb with rfl | hb
      · rw [hc1]
        exact hw current (List.mem_append_right _ (List.mem_cons_self _ _))
      · exact hw b (List.mem_append_right _ (List.mem_cons_of_mem _ hb))
  obtain ⟨g1, g2, g3, g4, g5, g6⟩ := merge_inv prev c1 rest s e h1 ht1 hn1 hw1
  rw [hfb]
  refine ⟨g1, g2, ?_, ?_, ?_, ?_⟩
  · show holeCount _ = _ + (1 - _ - _)
    rw [g3]
    rcases prev with _ | p
    · show holeCount (c1 :: rest) - _ - _ = holeCount (current :: rest) + _
      rw [holeCount_cons, holeCount_cons, h1, hch]
      simp
      omega
    · show holeCount (p :: c1 :: rest) - _ - _ = holeCount (p :: current :: rest) + _
      rw [holeCount_cons, holeCount_cons, holeCount_cons p, holeCount_cons current, h1, hch]
      simp
      omega
  · show procCount _ = _
    rw [g4]
    rcases prev with _ | p
    · show procCount (c1 :: rest) = procCount (current :: rest) - 1
      rw [procCount_cons, procCount_cons, h1, hch]
      simp
    · show procCount (p :: c1 :: rest) = procCount (p :: current :: rest) - 1
      rw [procCount_cons, procCount_cons, procCount_cons p, procCount_cons current, h1, hch]
      simp
      omega
  · show holeBytes _ = _
    rw [g5]
    rcases prev with _ | p
    · show holeBytes (c1 :: rest) = holeBytes (current :: rest) + current.size
      rw [holeBytes_cons, holeBytes_cons, h1, hch, hsz]
      simp
      omega
    · show holeBytes (p :: c1 :: rest) = holeBytes (p :: current :: rest) + current.size
      rw [holeBytes_cons, holeBytes_cons, holeBytes_cons p, holeBytes_cons current, h1, hch,
        hsz]
      simp
      omega
  · show procBytes _ = _
    rw [g6]
    rcases prev with _ | p
    · show procBytes (c1 :: rest) = procBytes (current :: rest) - current.size
      rw [procBytes_cons, procBytes_cons, h1, hch]
      simp
    · show procBytes (p :: c1 :: rest) = procBytes (p :: current :: rest) - current.size
      rw [procBytes_cons, procBytes_cons, procBytes_cons p, procBytes_cons current, h1, hch]
      simp
      omega

theorem deallocScan_inv (pid : Int) :
    ∀ (rest : List MemoryBlock) (prev : Option MemoryBlock) (s e : Int)
      (l : List MemoryBlock) (dh sz : Int),
      ListInv s e (prev.toList ++ rest) → deallocScan pid prev rest = some (l, dh, sz) →
      ListInv s e l ∧ (∀ p, prev = some p → headHole l = hole p) ∧
      holeCount l = holeCount (prev.toList ++ rest) + dh ∧
      procCount l = procCount (prev.toList ++ rest) - 1 ∧
      holeBytes l = holeBytes (prev.toList ++ rest) + sz ∧
      procBytes l = procBytes (prev.toList ++ rest) - sz := by
  intro rest
  induction rest with
  | nil => intro prev s e l dh sz _ h; simp [deallocScan] at h
  | cons current rest ih =>
    intro prev s e l dh sz hinv h
    by_cases hm : current.isHole = 0 ∧ current.processID = pid
    · simp only [deallocScan, hm, and_self, if_true, Option.some.injEq, Prod.mk.injEq] at h
      obtain ⟨rfl, rfl, rfl⟩ := h
      exact freeBlock_inv prev current rest s e hm.1 hinv
    · simp only [deallocScan, hm, if_false] at h
      cases hrec : deallocScan pid (some current) rest with
      | none => rw [hrec] at h; exact Option.noConfusion h
      | some r =>
        obtain ⟨l2, dh2, sz2⟩ := r
        rw [hrec] at h
        simp only [Option.some.injEq, Prod.mk.injEq] at h
        obtain ⟨rfl, rfl, rfl⟩ := h
        rcases prev with _ | p
        · obtain ⟨i1, _, i3, i4, i5, i6⟩ := ih (some current) s e l2 dh2 sz2 hinv hrec
          refine ⟨i1, ?_, i3, i4, i5, i6⟩
          intro p hp
          exact Option.noConfusion hp
        · obtain ⟨ht, hn, hw⟩ := hinv
          obtain ⟨i1, i2, i3, i4, i5, i6⟩ := ih (some current) (p.endAddress + 1) e l2 dh2 sz2
            ⟨ht.2, hn.2, fun b hb => hw b (List.mem_cons_of_mem _ hb)⟩ hrec
          obtain ⟨it, inn, iw⟩ := i1
          have i2c := i2 current rfl
          replace i3 : holeCount l2 = holeCount (current :: rest) + dh2 := i3
          replace i4 : procCount l2 = procCount (current :: rest) - 1 := i4
          replace i5 : holeBytes l2 = holeBytes (current :: rest) + sz2 := i5
          replace i6 : procBytes l2 = procBytes (current :: rest) - sz2 := i6
          refine ⟨⟨⟨ht.1, it⟩, ⟨?_, inn⟩, ?_⟩, ?_, ?_, ?_, ?_, ?_⟩
          · intro hc
            have hc2 : headHole l2 = true := hc.2
            rw [i2c] at hc2
            exact hn.1 ⟨hc.1, hc2⟩
          · intro b hb
            rcases List.mem_cons.1 hb with rfl | hb
            · exact hw b (List.mem_cons_self _ _)
            · exact iw b hb
          · intro p2 hp
            cases hp
            rfl
          · show holeCount (p :: l2) = holeCount (p :: current :: rest) + dh2
            rw [holeCount_cons, i3, holeCount_cons p]
            show _ = _ + holeCount (current :: rest) + dh2
            omega
          · show procCount (p :: l2) = procCount (p :: current :: rest) - 1
            rw [procCount_cons, i4, procCount_cons p]
            show _ = _ + procCount (current :: rest) - 1
            omega
          · show holeBytes (p :: l2) = holeBytes (p :: current :: rest) + sz2
            rw [holeBytes_cons, i5, holeBytes_cons p]
            show _ = _ + holeBytes (current :: rest) + sz2
            omega
          · show procBytes (p :: l2) = procBytes (p :: current :: rest) - sz2
            rw [procBytes_cons, i6, procBytes_cons p]
            show _ = _ + procBytes (current :: rest) - sz2
            omega

/-! ## Where the scans stop -/

theorem firstFitScan_spec (size : Int) :
    ∀ (l : List MemoryBlock) (idx : Nat),
      ((∀ b ∈ l, fits size b = false) ∧ firstFitScan size l idx = none) ∨
      (∃ pre cur post, l = pre ++ cur :: post ∧
        firstFitScan size l idx = some (idx + pre.length) ∧ fits size cur = true ∧
        ∀ b ∈ pre, fits size b = false) := by
  intro l
  induction l with
  | nil => intro idx; left; simp [firstFitScan]
  | cons c rest ih =>
    intro idx
    by_cases hf : fits size c = true
    · right
      exact ⟨[], c, rest, rfl, by simp [firstFitScan, hf], hf, by simp⟩
    · have hf2 : fits size c = false := by simpa using hf
      rcases ih (idx + 1) with ⟨h1, h2⟩ | ⟨pre, cur, post, h1, h2, h3, h4⟩
      · left
        refine ⟨?_, by simp [firstFitScan, hf2, h2]⟩
        intro b hb
        rcases List.mem_cons.1 hb with rfl | hb
        · exact hf2
        · exact h1 b hb
      · right
        refine ⟨c :: pre, cur, post, by rw [h1]; rfl, ?_, h3, ?_⟩
        · simp only [firstFitScan, hf2, Bool.false_eq_true, if_false, h2, List.length_cons]
          congr 1
          omega
        · intro b hb
          rcases List.mem_cons.1 hb with rfl | hb
          · exact hf2
          · exact h4 b hb

theorem bestFitScan_spec (size : Int) :
    ∀ (l : List MemoryBlock) (idx : Nat) (best : Option Nat) (m : Int),
      ((∀ b ∈ l, fits size b = true → m ≤ b.size) ∧ bestFitScan size l idx best m = best) ∨
      (∃ pre cur post, l = pre ++ cur :: post ∧
        bestFitScan size l idx best m = some (idx + pre.length) ∧ fits size cur = true ∧
        cur.size < m ∧ (∀ b ∈ l, fits size b = true → cur.size ≤ b.size) ∧
        ∀ b ∈ pre, fits size b = true → cur.size < b.size) := by
  intro l
  induction l with
  | nil => intro idx best m; left; simp [bestFitScan]
  | cons c rest ih =>
    intro idx best m
    by_cases hf : fits size c = true ∧ c.size < m
    · have e1 : bestFitScan size (c :: rest) idx best m =
          bestFitScan size rest (idx + 1) (some idx) c.size := by
        simp [bestFitScan, hf.1, hf.2]
      rw [e1]
      right
      rcases ih (idx + 1) (some idx) c.size with ⟨h1, h2⟩ | ⟨pre, cur, post, h1, h2, h3, h4, h5, h6⟩
      · refine ⟨[], c, rest, rfl, by simpa using h2, hf.1, hf.2, ?_, by simp⟩
        intro b hb hfb
        rcases List.mem_cons.1 hb with rfl | hb
        · exact le_refl _
        · exact h1 b hb hfb
      · refine ⟨c :: pre, cur, post, by rw [h1]; rfl, ?_, h3, by omega, ?_, ?_⟩
        · rw [h2, List.length_cons]
          congr 1
          omega
        · intro b hb hfb
          rcases List.mem_cons.1 hb with rfl | hb
          · omega
          · exact h5 b hb hfb
        · intro b hb hfb
          rcases List.mem_cons.1 hb with rfl | hb
          · exact h4
          · exact h6 b hb hfb
    · have e1 : bestFitScan size (c :: rest) idx best m =
          bestFitScan size rest (idx + 1) best m := by
        by_cases hfc : fits size c = true
        · have : ¬ c.size < m := fun h => hf ⟨hfc, h⟩
          simp [bestFitScan, hfc, this]
        · simp [bestFitScan, hfc]
      rw [e1]
      have hc : fits size c = true → m ≤ c.size := by
        intro hfc
        by_contra hlt
        exact hf ⟨hfc, by omega⟩
      rcases ih (idx + 1) best m with ⟨h1, h2⟩ | ⟨pre, cur, post, h1, h2, h3, h4, h5, h6⟩
      · left
        refine ⟨?_, h2⟩
        intro b hb hfb
        rcases List.mem_cons.1 hb with rfl | hb
        · exact hc hfb
        · exact h1 b hb hfb
      · right
        refine ⟨c :: pre, cur, post, by rw [h1]; rfl, ?_, h3, h4, ?_, ?_⟩
        · rw [h2, List.length_cons]
          congr 1
          omega
        · intro b hb hfb
          rcases List.mem_cons.1 hb with rfl | hb
          · have := hc hfb
            omega
          · exact h5 b hb hfb
        · intro b hb hfb
          rcases List.mem_cons.1 hb with rfl | hb
          · have := hc hfb
            omega
          · exact h6 b hb hfb

theorem worstFitScan_spec (size : Int) :
    ∀ (l : List MemoryBlock) (idx : Nat) (worst : Option Nat) (m : Int),
      ((∀ b ∈ l, fits size b = true → b.size ≤ m) ∧ worstFitScan size l idx worst m = worst) ∨
      (∃ pre cur post, l = pre ++ cur :: post ∧
        worstFitScan size l idx worst m = some (idx + pre.length) ∧ fits size cur = true ∧
        m < cur.size ∧ (∀ b ∈ l, fits size b = true → b.size ≤ cur.size) ∧
        ∀ b ∈ pre, fits size b = true → b.size < cur.size) := by
  intro l
  induction l with
  | nil => intro idx worst m; left; simp [worstFitScan]
  | cons c rest ih =>
    intro idx worst m
    by_cases hf : fits size c = true ∧ m < c.size
    · have e1 : worstFitScan size (c :: rest) idx worst m =
          worstFitScan size rest (idx + 1) (some idx) c.size := by
        simp [worstFitScan, hf.1, hf.2]
      rw [e1]
      right
      rcases ih (idx + 1) (some idx) c.size with ⟨h1, h2⟩ | ⟨pre, cur, post, h1, h2, h3, h4, h5, h6⟩
      · refine ⟨[], c, rest, rfl, by simpa using h2, hf.1, hf.2, ?_, by simp⟩
        intro b hb hfb
        rcases List.mem_cons.1 hb with rfl | hb
        · exact le_refl _
        · exact h1 b hb hfb
      · refine ⟨c :: pre, cur, post, by rw [h1]; rfl, ?_, h3, by omega, ?_, ?_⟩
        · rw [h2, List.length_cons]
          congr 1
          omega
        · intro b hb hfb
          rcases List.mem_cons.1 hb with rfl | hb
          · omega
          · exact h5 b hb hfb
        · intro b hb hfb
          rcases List.mem_cons.1 hb with rfl | hb
          · exact h4
          · exact h6 b hb hfb
    · have e1 : worstFitScan size (c :: rest) idx worst m =
          worstFitScan size rest (idx + 1) worst m := by
        by_cases hfc : fits size c = true
        · have : ¬ m < c.size := fun h => hf ⟨hfc, h⟩
          simp [worstFitScan, hfc, this]
        · simp [worstFitScan, hfc]
      rw [e1]
      have hc : fits size c = true → c.size ≤ m := by
        intro hfc
        by_contra hlt
        exact hf ⟨hfc, by omega⟩
      rcases ih (idx + 1) worst m with ⟨h1, h2⟩ | ⟨pre, cur, post, h1, h2, h3, h4, h5, h6⟩
      · left
        refine ⟨?_, h2⟩
        intro b hb hfb
        rcases List.mem_cons.1 hb with rfl | hb
        · exact hc hfb
        · exact h1 b hb hfb
      · right
        refine ⟨c :: pre, cur, post, by rw [h1]; rfl, ?_, h3, h4, ?_, ?_⟩
        · rw [h2, List.length_cons]
          congr 1
          omega
        · intro b hb hfb
          rcases List.mem_cons.1 hb with rfl | hb
          · have := hc hfb
            omega
          · exact h5 b hb hfb
        · intro b hb hfb
          rcases List.mem_cons.1 hb with rfl | hb
          · have := hc hfb
            omega
          · exact h6 b hb hfb

/-! ## Consequences of the list invariant -/

theorem tiles_bounds :
    ∀ (l : List MemoryBlock) (s e : Int), Tiles s e l → (∀ b ∈ l, WellFormed b) →
      s ≤ e + 1 ∧ ∀ b ∈ l, s ≤ b.startAddress ∧ b.endAddress ≤ e := by
  intro l
  induction l with
  | nil =>
    intro s e ht _
    have : s = e + 1 := ht
    exact ⟨by omega, by simp⟩
  | cons c rest ih =>
    intro s e ht hw
    obtain ⟨hc1, _⟩ := hw c (List.mem_cons_self _ _)
    obtain ⟨i1, i2⟩ := ih (c.endAddress + 1) e ht.2 (fun b hb => hw b (List.mem_cons_of_mem _ hb))
    have hs : c.startAddress = s := ht.1
    refine ⟨by omega, ?_⟩
    intro b hb
    rcases List.mem_cons.1 hb with rfl | hb
    · exact ⟨by omega, by omega⟩
    · have := i2 b hb
      exact ⟨by omega, this.2⟩

theorem tiles_ne_nil (l : List MemoryBlock) (s e : Int) (ht : Tiles s e l) (hse : s ≤ e) :
    l ≠ [] := by
  rintro rfl
  have : s = e + 1 := ht
  omega

theorem tiles_getLast :
    ∀ (l : List MemoryBlock) (s e : Int), Tiles s e l → l ≠ [] →
      l.getLast?.map (fun b => b.endAddress) = some e := by
  intro l
  induction l with
  | nil => intro s e _ h; exact absurd rfl h
  | cons c rest ih =>
    intro s e ht _
    rcases rest with _ | ⟨d, rest⟩
    · have h2 : c.endAddress + 1 = e + 1 := ht.2
      simp only [List.getLast?_singleton, Option.map_some', Option.some.injEq]
      omega
    · rw [List.getLast?_cons_cons]
      exact ih (c.endAddress + 1) e ht.2 (List.cons_ne_nil _ _)

theorem tiles_consecutive :
    ∀ (l : List MemoryBlock) (s e : Int), Tiles s e l →
      ∀ (i : Nat) (a b : MemoryBlock), l.get? i = some a → l.get? (i + 1) = some b →
        b.startAddress = a.endAddress + 1 := by
  intro l
  induction l with
  | nil => intro s e _ i a b h; simp at h
  | cons c rest ih =>
    intro s e ht i a b ha hb
    cases i with
    | zero =>
      simp only [List.get?_cons_zero, Option.some.injEq] at ha
      subst ha
      rcases rest with _ | ⟨d, rest⟩
      · simp at hb
      · simp only [List.get?_cons_succ, List.get?_cons_zero, Option.some.injEq] at hb
        subst hb
        exact ht.2.1
    | succ j =>
      simp only [List.get?_cons_succ] at ha hb
      exact ih (c.endAddress + 1) e ht.2 j a b ha hb

theorem tiles_sorted :
    ∀ (l : List MemoryBlock) (s e : Int), Tiles s e l → (∀ b ∈ l, WellFormed b) →
      List.Pairwise (fun a b => a.startAddress < b.startAddress) l := by
  intro l
  induction l with
  | nil => intro s e _ _; exact List.Pairwise.nil
  | cons c rest ih =>
    intro s e ht hw
    have hwr : ∀ b ∈ rest, WellFormed b := fun b hb => hw b (List.mem_cons_of_mem _ hb)
    obtain ⟨hc1, _⟩ := hw c (List.mem_cons_self _ _)
    refine List.Pairwise.cons ?_ (ih (c.endAddress + 1) e ht.2 hwr)
    intro b hb
    have := (tiles_bounds rest (c.endAddress + 1) e ht.2 hwr).2 b hb
    omega

theorem tiles_countP (a : Int) :
    ∀ (l : List MemoryBlock) (s e : Int), Tiles s e l → (∀ b ∈ l, WellFormed b) →
      l.countP (inBlock a) = if s ≤ a ∧ a ≤ e then 1 else 0 := by
  intro l
  induction l with
  | nil =>
    intro s e ht _
    have : s = e + 1 := ht
    have hn : ¬ (s ≤ a ∧ a ≤ e) := by omega
    simp [hn]
  | cons c rest ih =>
    intro s e ht hw
    have hwr : ∀ b ∈ rest, WellFormed b := fun b hb => hw b (List.mem_cons_of_mem _ hb)
    obtain ⟨hc1, _⟩ := hw c (List.mem_cons_self _ _)
    have hs : c.startAddress = s := ht.1
    have hb := (tiles_bounds rest (c.endAddress + 1) e ht.2 hwr).1
    rw [List.countP_cons, ih (c.endAddress + 1) e ht.2 hwr]
    by_cases h1 : s ≤ a ∧ a ≤ c.endAddress
    · have e1 : inBlock a c = true := by simp [inBlock, hs, h1.1, h1.2]
      have e2 : ¬ (c.endAddress + 1 ≤ a ∧ a ≤ e) := by omega
      have e3 : s ≤ a ∧ a ≤ e := by omega
      rw [if_neg e2, if_pos e3, e1]
      rfl
    · have e1 : inBlock a c = false := by
        simp only [inBlock, hs, Bool.and_eq_false_imp, decide_eq_true_eq, decide_eq_false_iff_not]
        intro h
        omega
      by_cases h2 : s ≤ a ∧ a ≤ e
      · have e2 : c.endAddress + 1 ≤ a ∧ a ≤ e := by omega
        rw [if_pos e2, if_pos h2, e1]
        rfl
      · have e2 : ¬ (c.endAddress + 1 ≤ a ∧ a ≤ e) := by omega
        rw [if_neg e2, if_neg h2, e1]
        rfl

theorem noAdjHoles_get :
    ∀ (l : List MemoryBlock), NoAdjHoles l →
      ∀ (i : Nat) (a b : MemoryBlock), l.get? i = some a → l.get? (i + 1) = some b →
        ¬ (hole a = true ∧ hole b = true) := by
  intro l
  induction l with
  | nil => intro _ i a b h; simp at h
  | cons c rest ih =>
    intro hn i a b ha hb
    cases i with
    | zero =>
      simp only [List.get?_cons_zero, Option.some.injEq] at ha
      subst ha
      rcases rest with _ | ⟨d, rest⟩
      · simp at hb
      · simp only [List.get?_cons_succ, List.get?_cons_zero, Option.some.injEq] at hb
        subst hb
        exact hn.1
    | succ j =>
      simp only [List.get?_cons_succ] at ha hb
      exact ih hn.2 j a b ha hb

theorem bytes_total :
    ∀ (l : List MemoryBlock) (s e : Int), Tiles s e l → (∀ b ∈ l, WellFormed b) →
      holeBytes l + procBytes l = e - s + 1 := by
  intro l
  induction l with
  | nil =>
    intro s e ht _
    have : s = e + 1 := ht
    simp only [holeBytes, procBytes]
    omega
  | cons c rest ih =>
    intro s e ht hw
    obtain ⟨_, hc2⟩ := hw c (List.mem_cons_self _ _)
    have hs : c.startAddress = s := ht.1
    have := ih (c.endAddress + 1) e ht.2 (fun b hb => hw b (List.mem_cons_of_mem _ hb))
    rw [holeBytes_cons, procBytes_cons]
    by_cases hh : hole c = true
    · rw [if_pos hh, if_pos hh]
      omega
    · rw [if_neg hh, if_neg hh]
      omega

theorem counts_length :
    ∀ (l : List MemoryBlock), procCount l + holeCount l = (l.length : Int) := by
  intro l
  induction l with
  | nil => rfl
  | cons c rest ih =>
    rw [holeCount_cons, procCount_cons, List.length_cons]
    by_cases hh : hole c = true
    · rw [if_pos hh, if_pos hh]
      push_cast
      omega
    · rw [if_neg hh, if_neg hh]
      push_cast
      omega

/-! ## The allocation functions on a decomposed list -/

theorem get?_split (pre : List MemoryBlock) (cur : MemoryBlock) (post : List MemoryBlock) :
    (pre ++ cur :: post).get? pre.length = some cur := by
  induction pre with
  | nil => rfl
  | cons c pre ih => simpa using ih

theorem replaceAt_split (pre : List MemoryBlock) (cur : MemoryBlock)
    (post r : List MemoryBlock) :
    replaceAt (pre ++ cur :: post) pre.length r = pre ++ r ++ post := by
  induction pre with
  | nil => simp [replaceAt]
  | cons c pre ih => simp [replaceAt, ih]

theorem allocateAt_split (mm : MemoryManager) (pid size : Int) (pre : List MemoryBlock)
    (cur : MemoryBlock) (post : List MemoryBlock) (hl : mm.head = pre ++ cur :: post) :
    allocateAt mm pre.length pid size =
      (cur.startAddress,
       { mm with
          head := pre ++ allocBlock cur pid size ++ post
          numHoles := mm.numHoles + allocHoleDelta cur size
          numProcesses := mm.numProcesses + 1
          freeMemory := mm.freeMemory - size }) := by
  simp only [allocateAt, hl, get?_split, replaceAt_split]

theorem firstFit_cases (mm : MemoryManager) (pid size : Int) :
    ((∀ b ∈ mm.head, fits size b = false) ∧ firstFit mm pid size = (-1, mm)) ∨
    (∃ pre cur post, mm.head = pre ++ cur :: post ∧ fits size cur = true ∧
      (∀ b ∈ pre, fits size b = false) ∧
      firstFit mm pid size = allocateAt mm pre.length pid size) := by
  rcases firstFitScan_spec size mm.head 0 with ⟨h1, h2⟩ | ⟨pre, cur, post, h1, h2, h3, h4⟩
  · left
    exact ⟨h1, by simp [firstFit, h2]⟩
  · right
    refine ⟨pre, cur, post, h1, h3, h4, ?_⟩
    simp [firstFit, h2]

theorem bestFit_cases (mm : MemoryManager) (pid size : Int) :
    ((∀ b ∈ mm.head, fits size b = true → wrap32 (mm.totalMemory + 1) ≤ b.size) ∧
      bestFit mm pid size = (-1, mm)) ∨
    (∃ pre cur post, mm.head = pre ++ cur :: post ∧ fits size cur = true ∧
      (∀ b ∈ mm.head, fits size b = true → cur.size ≤ b.size) ∧
      (∀ b ∈ pre, fits size b = true → cur.size < b.size) ∧
      bestFit mm pid size = allocateAt mm pre.length pid size) := by
  rcases bestFitScan_spec size mm.head 0 none (wrap32 (mm.totalMemory + 1)) with
    ⟨h1, h2⟩ | ⟨pre, cur, post, h1, h2, h3, _, h5, h6⟩
  · left
    exact ⟨h1, by simp [bestFit, h2]⟩
  · right
    refine ⟨pre, cur, post, h1, h3, h5, h6, ?_⟩
    simp [bestFit, h2]

theorem worstFit_cases (mm : MemoryManager) (pid size : Int) :
    ((∀ b ∈ mm.head, fits size b = true → b.size ≤ -1) ∧ worstFit mm pid size = (-1, mm)) ∨
    (∃ pre cur post, mm.head = pre ++ cur :: post ∧ fits size cur = true ∧
      (∀ b ∈ mm.head, fits size b = true → b.size ≤ cur.size) ∧
      (∀ b ∈ pre, fits size b = true → b.size < cur.size) ∧
      worstFit mm pid size = allocateAt mm pre.length pid size) := by
  rcases worstFitScan_spec size mm.head 0 none (-1) with
    ⟨h1, h2⟩ | ⟨pre, cur, post, h1, h2, h3, _, h5, h6⟩
  · left
    exact ⟨h1, by simp [worstFit, h2]⟩
  · right
    refine ⟨pre, cur, post, h1, h3, h5, h6, ?_⟩
    simp [worstFit, h2]

theorem allocateMemory_cases (mm : MemoryManager) (pid size algo : Int) :
    allocateMemory mm pid size algo = (-1, mm) ∨
    (0 < size ∧ size ≤ mm.freeMemory ∧
      ∃ pre cur post, mm.head = pre ++ cur :: post ∧ fits size cur = true ∧
        allocateMemory mm pid size algo = allocateAt mm pre.length pid size) := by
  by_cases h1 : size ≤ 0
  · left
    unfold allocateMemory
    rw [if_pos h1]
  by_cases h2 : size > mm.freeMemory
  · left
    unfold allocateMemory
    rw [if_neg h1, if_pos h2]
  by_cases a0 : algo = FIRST_FIT
  · have e : allocateMemory mm pid size algo = firstFit mm pid size := by
      unfold allocateMemory
      rw [if_neg h1, if_neg h2, if_pos a0]
    rw [e]
    rcases firstFit_cases mm pid size with ⟨_, h⟩ | ⟨pre, cur, post, h3, h4, _, h5⟩
    · left; exact h
    · right; exact ⟨by omega, by omega, pre, cur, post, h3, h4, h5⟩
  by_cases a1 : algo = BEST_FIT
  · have e : allocateMemory mm pid size algo = bestFit mm pid size := by
      unfold allocateMemory
      rw [if_neg h1, if_neg h2, if_neg a0, if_pos a1]
    rw [e]
    rcases bestFit_cases mm pid size with ⟨_, h⟩ | ⟨pre, cur, post, h3, h4, _, _, h5⟩
    · left; exact h
    · right; exact ⟨by omega, by omega, pre, cur, post, h3, h4, h5⟩
  by_cases a2 : algo = WORST_FIT
  · have e : allocateMemory mm pid size algo = worstFit mm pid size := by
      unfold allocateMemory
      rw [if_neg h1, if_neg h2, if_neg a0, if_neg a1, if_pos a2]
    rw [e]
    rcases worstFit_cases mm pid size with ⟨_, h⟩ | ⟨pre, cur, post, h3, h4, _, _, h5⟩
    · left; exact h
    · right; exact ⟨by omega, by omega, pre, cur, post, h3, h4, h5⟩
  left
  unfold allocateMemory
  rw [if_neg h1, if_neg h2, if_neg a0, if_neg a1, if_neg a2]

/-! ## The invariant holds in every reachable state -/

theorem inv_init (total os : Int) (h : os < total) :
    Inv total os (initializeMemory total os) := by
  refine ⟨rfl, rfl, rfl, ⟨⟨rfl, ?_⟩, ?_, ?_⟩, ?_, ?_, ?_⟩
  · show total - 1 + 1 = total - 1 + 1
    rfl
  · simp [NoAdjHoles, headHole]
  · intro b hb
    have hb2 : b ∈ [createBlock 1 os (total - 1) (-1)] := hb
    rw [List.mem_singleton] at hb2
    subst hb2
    constructor
    · show os ≤ total - 1
      omega
    · rfl
  · simp [initializeMemory, holeCount, hole, createBlock]
  · simp [initializeMemory, procCount, hole, createBlock]
  · simp [initializeMemory, holeBytes, hole, createBlock]
    omega

theorem inv_allocateAt (total os : Int) (mm : MemoryManager) (pid size : Int)
    (pre : List MemoryBlock) (cur : MemoryBlock) (post : List MemoryBlock)
    (hinv : Inv total os mm) (hl : mm.head = pre ++ cur :: post)
    (hf : fits size cur = true) (hs : 0 < size) :
    Inv total os (allocateAt mm pre.length pid size).2 := by
  obtain ⟨i1, i2, i3, i4, i5, i6, i7⟩ := hinv
  have hget : mm.head.get? pre.length = some cur := by rw [hl]; exact get?_split pre cur post
  obtain ⟨hh, hle⟩ := (fits_iff size cur).1 hf
  obtain ⟨r1, _⟩ := replaceAt_inv pid size hs mm.head pre.length os (total - 1) cur hget hh hle i4
  obtain ⟨c1, c2, c3, _⟩ := replaceAt_counts pid size mm.head pre.length cur hget hh i4.2.2
  have e : allocateAt mm pre.length pid size =
      (cur.startAddress,
       { mm with
          head := replaceAt mm.head pre.length (allocBlock cur pid size)
          numHoles := mm.numHoles + allocHoleDelta cur size
          numProcesses := mm.numProcesses + 1
          freeMemory := mm.freeMemory - size }) := by
    simp only [allocateAt, hget]
  rw [e]
  refine ⟨i1, i2, i3, r1, ?_, ?_, ?_⟩
  · show mm.numHoles + allocHoleDelta cur size = _
    rw [c1, i5]
  · show mm.numProcesses + 1 = _
    rw [c2, i6]
  · show mm.freeMemory - size = _
    rw [c3, i7]

theorem inv_allocateMemory (total os : Int) (mm : MemoryManager) (pid size algo : Int)
    (hinv : Inv total os mm) : Inv total os (allocateMemory mm pid size algo).2 := by
  rcases allocateMemory_cases mm pid size algo with h | ⟨hs, _, pre, cur, post, h1, h2, h3⟩
  · rw [h]; exact hinv
  · rw [h3]; exact inv_allocateAt total os mm pid size pre cur post hinv h1 h2 hs

theorem inv_deallocateMemory (total os : Int) (mm : MemoryManager) (pid : Int)
    (hinv : Inv total os mm) : Inv total os (deallocateMemory mm pid).2 := by
  cases hrec : deallocScan pid none mm.head with
  | none =>
    have e : deallocateMemory mm pid = (0, mm) := by simp [deallocateMemory, hrec]
    rw [e]; exact hinv
  | some r =>
    obtain ⟨l, dh, sz⟩ := r
    have e : deallocateMemory mm pid =
        (1, { mm with
                head := l
                numProcesses := mm.numProcesses - 1
                numHoles := mm.numHoles + dh
                freeMemory := mm.freeMemory + sz }) := by
      simp [deallocateMemory, hrec]
    rw [e]
    obtain ⟨i1, i2, i3, i4, i5, i6, i7⟩ := hinv
    obtain ⟨d1, _, d3, d4, d5, _⟩ :=
      deallocScan_inv pid mm.head none os (total - 1) l dh sz i4 hrec
    refine ⟨i1, i2, i3, d1, ?_, ?_, ?_⟩
    · show mm.numHoles + dh = holeCount l
      rw [d3, i5]; rfl
    · show mm.numProcesses - 1 = procCount l
      rw [d4, i6]; rfl
    · show mm.freeMemory + sz = holeBytes l
      rw [d5, i7]; rfl

theorem inv_run (total os : Int) (ops : List Op) :
    ∀ mm : MemoryManager, Inv total os mm → Inv total os (run mm ops) := by
  induction ops with
  | nil => intro mm h; exact h
  | cons op ops ih =>
    intro mm h
    show Inv total os (run (step mm op) ops)
    apply ih
    cases op with
    | alloc pid size algo => exact inv_allocateMemory total os mm pid size algo h
    | dealloc pid => exact inv_deallocateMemory total os mm pid h

theorem inv_reachable (total os : Int) (h : os < total) (mm : MemoryManager)
    (hr : Reachable total os mm) : Inv total os mm := by
  obtain ⟨ops, rfl⟩ := hr
  exact inv_run total os ops _ (inv_init total os h)

/-! ## The counters in terms of library functions -/

theorem holeCount_eq (l : List MemoryBlock) : holeCount l = (l.countP hole : Int) := by
  induction l with
  | nil => rfl
  | cons c rest ih =>
    rw [holeCount_cons, List.countP_cons, ih]
    by_cases hh : hole c = true
    · rw [if_pos hh, if_pos hh]; push_cast; omega
    · rw [if_neg hh, if_neg hh]; push_cast; omega

theorem procCount_eq (l : List MemoryBlock) :
    procCount l = (l.countP (fun b => !hole b) : Int) := by
  induction l with
  | nil => rfl
  | cons c rest ih =>
    rw [procCount_cons, List.countP_cons, ih]
    by_cases hh : hole c = true
    · simp [hh]
    · simp [hh]
      omega

theorem holeBytes_eq (l : List MemoryBlock) :
    holeBytes l = ((l.filter hole).map (fun b => b.size)).sum := by
  induction l with
  | nil => rfl
  | cons c rest ih =>
    rw [holeBytes_cons, ih]
    by_cases hh : hole c = true
    · simp [hh]
    · simp [hh]

theorem procBytes_eq (l : List MemoryBlock) :
    procBytes l = ((l.filter (fun b => !hole b)).map (fun b => b.size)).sum := by
  induction l with
  | nil => rfl
  | cons c rest ih =>
    rw [procBytes_cons, ih]
    by_cases hh : hole c = true
    · simp [hh]
    · simp [hh]

theorem reachable_holes : Reachable 1024 0 holesState := ⟨holesOps, rfl⟩

/-! ## C1 to C4: invariants of the reachable states -/

/-- C1 (coverage invariant).  In every state reachable from `initializeMemory(total, os)`
with `0 ≤ os < total` by `allocateMemory` / `deallocateMemory` calls (of any outcome and
policy) the block list is non-empty, its first block starts at `os`, its last block ends
at `total - 1`, and every other block starts at its predecessor's end plus one; so the
starts ascend strictly, every block lies inside `[os, total - 1]`, and an address is
inside exactly one block when it is in `[os, total - 1]` and inside none otherwise. -/
theorem C1_coverage_invariant (total os : Int) (h0 : 0 ≤ os) (h1 : os < total)
    (mm : MemoryManager) (hr : Reachable total os mm) :
    mm.head ≠ [] ∧
    mm.head.head?.map (fun b => b.startAddress) = some os ∧
    mm.head.getLast?.map (fun b => b.endAddress) = some (total - 1) ∧
    (∀ (i : Nat) (a b : MemoryBlock), mm.head.get? i = some a → mm.head.get? (i + 1) = some b →
      b.startAddress = a.endAddress + 1) ∧
    List.Pairwise (fun a b => a.startAddress < b.startAddress) mm.head ∧
    (∀ b ∈ mm.head, os ≤ b.startAddress ∧ b.startAddress ≤ b.endAddress ∧
      b.endAddress ≤ total - 1) ∧
    (∀ a : Int, mm.head.countP (inBlock a) = if os ≤ a ∧ a ≤ total - 1 then 1 else 0) := by
  have _ := h0
  obtain ⟨_, _, _, ⟨ht, _, hw⟩, _, _, _⟩ := inv_reachable total os h1 mm hr
  have hne : mm.head ≠ [] := tiles_ne_nil mm.head os (total - 1) ht (by omega)
  refine ⟨hne, ?_, tiles_getLast mm.head os (total - 1) ht hne,
    tiles_consecutive mm.head os (total - 1) ht, tiles_sorted mm.head os (total - 1) ht hw,
    ?_, fun a => tiles_countP a mm.head os (total - 1) ht hw⟩
  · cases hl : mm.head with
    | nil => exact absurd hl hne
    | cons c rest =>
      rw [hl] at ht
      have : c.startAddress = os := ht.1
      simp [this]
  · intro b hb
    have := (tiles_bounds mm.head os (total - 1) ht hw).2 b hb
    exact ⟨this.1, (hw b hb).1, this.2⟩

theorem C1_coverage_invariant_witness :
    (0 : Int) ≤ 0 ∧ (0 : Int) < 1024 ∧ Reachable 1024 0 holesState ∧
    holesState.head.length = 6 ∧
    holesState.head.head?.map (fun b => b.startAddress) = some 0 ∧
    holesState.head.getLast?.map (fun b => b.endAddress) = some (1024 - 1) ∧
    holesState.head.countP (inBlock 300) = 1 :=
  have h := C1_coverage_invariant 1024 0 (by decide) (by decide) holesState reachable_holes
  ⟨by decide, by decide, reachable_holes, by decide, h.2.1, h.2.2.1,
    (h.2.2.2.2.2.2 300).trans (by decide)⟩

/-- C2 (no adjacent free blocks).  In every state reachable from
`initializeMemory(total, os)` with `0 ≤ os < total`, and in particular in the state after
any further `deallocateMemory` call, no two consecutive blocks of the list are both
holes. -/
theorem C2_no_adjacent_holes (total os : Int) (h0 : 0 ≤ os) (h1 : os < total)
    (mm : MemoryManager) (hr : Reachable total os mm) :
    (∀ (i : Nat) (a b : MemoryBlock), mm.head.get? i = some a → mm.head.get? (i + 1) = some b →
      ¬ (hole a = true ∧ hole b = true)) ∧
    (∀ (pid : Int) (i : Nat) (a b : MemoryBlock),
      (deallocateMemory mm pid).2.head.get? i = some a →
      (deallocateMemory mm pid).2.head.get? (i + 1) = some b →
      ¬ (hole a = true ∧ hole b = true)) := by
  have _ := h0
  have hinv := inv_reachable total os h1 mm hr
  refine ⟨noAdjHoles_get mm.head hinv.2.2.2.1.2.1, ?_⟩
  intro pid
  exact noAdjHoles_get _ (inv_deallocateMemory total os mm pid hinv).2.2.2.1.2.1

theorem C2_no_adjacent_holes_witness :
    (0 : Int) ≤ 0 ∧ (0 : Int) < 1024 ∧ Reachable 1024 0 holesState ∧
    (deallocateMemory holesState 4).2.head.length = 4 ∧
    (∀ (i : Nat) (a b : MemoryBlock),
      (deallocateMemory holesState 4).2.head.get? i = some a →
      (deallocateMemory holesState 4).2.head.get? (i + 1) = some b →
      ¬ (hole a = true ∧ hole b = true)) :=
  ⟨by decide, by decide, reachable_holes, by decide,
    (C2_no_adjacent_holes 1024 0 (by decide) (by decide) holesState reachable_holes).2 4⟩

/-- C3 (conservation).  In every state reachable from `initializeMemory(total, os)` with
`0 ≤ os < total`, `freeMemory` plus the sum of the sizes of the occupied blocks equals
`userMemory`. -/
theorem C3_conservation (total os : Int) (h0 : 0 ≤ os) (h1 : os < total)
    (mm : MemoryManager) (hr : Reachable total os mm) :
    mm.freeMemory + ((mm.head.filter (fun b => !hole b)).map (fun b => b.size)).sum =
      mm.userMemory := by
  have _ := h0
  obtain ⟨_, _, hu, ⟨ht, _, hw⟩, _, _, hf⟩ := inv_reachable total os h1 mm hr
  have := bytes_total mm.head os (total - 1) ht hw
  rw [← procBytes_eq, hf, hu]
  omega

theorem C3_conservation_witness :
    (0 : Int) ≤ 0 ∧ (0 : Int) < 1024 ∧ Reachable 1024 0 holesState ∧
    holesState.freeMemory = 350 ∧
    holesState.freeMemory +
      ((holesState.head.filter (fun b => !hole b)).map (fun b => b.size)).sum =
      holesState.userMemory :=
  ⟨by decide, by decide, reachable_holes, by decide,
    C3_conservation 1024 0 (by decide) (by decide) holesState reachable_holes⟩

/-- C4 (counter consistency).  In every state reachable from `initializeMemory(total, os)`
with `0 ≤ os < total`, `numHoles` is the number of hole blocks, `numProcesses` is the
number of occupied blocks, their sum is the length of the list, and `freeMemory` is the
sum of the sizes of the hole blocks. -/
theorem C4_counter_consistency (total os : Int) (h0 : 0 ≤ os) (h1 : os < total)
    (mm : MemoryManager) (hr : Reachable total os mm) :
    mm.numHoles = (mm.head.countP hole : Int) ∧
    mm.numProcesses = (mm.head.countP (fun b => !hole b) : Int) ∧
    mm.numProcesses + mm.numHoles = (mm.head.length : Int) ∧
    mm.freeMemory = ((mm.head.filter hole).map (fun b => b.size)).sum := by
  have _ := h0
  obtain ⟨_, _, _, _, hh, hp, hf⟩ := inv_reachable total os h1 mm hr
  refine ⟨by rw [hh, holeCount_eq], by rw [hp, procCount_eq], ?_, by rw [hf, holeBytes_eq]⟩
  rw [hh, hp]
  exact counts_length mm.head

theorem C4_counter_consistency_witness :
    (0 : Int) ≤ 0 ∧ (0 : Int) < 1024 ∧ Reachable 1024 0 holesState ∧
    holesState.numHoles = 3 ∧ holesState.numProcesses = 3 ∧
    holesState.numHoles = (holesState.head.countP hole : Int) ∧
    holesState.numProcesses = (holesState.head.countP (fun b => !hole b) : Int) ∧
    holesState.numProcesses + holesState.numHoles = (holesState.head.length : Int) ∧
    holesState.freeMemory = ((holesState.head.filter hole).map (fun b => b.size)).sum :=
  ⟨by decide, by decide, reachable_holes, by decide, by decide,
    C4_counter_consistency 1024 0 (by decide) (by decide) holesState reachable_holes⟩

/-! ## C5 and C6: failing calls -/

theorem reachable_hole_start (total os : Int) (h0 : 0 ≤ os) (h1 : os < total)
    (mm : MemoryManager) (hr : Reachable total os mm) :
    ∀ b ∈ mm.head, hole b = true → b.startAddress ≠ -1 := by
  obtain ⟨_, _, _, ⟨ht, _, hw⟩, _, _, _⟩ := inv_reachable total os h1 mm hr
  intro b hb _
  have := (tiles_bounds mm.head os (total - 1) ht hw).2 b hb
  omega

/-- C5, as stated, fails: in the state of `initializeMemory(9, -1)` the first-fit request of
5 units succeeds at start address `-1`, so `allocateMemory` returns `-1` although the
list and the counters have changed. -/
theorem C5_counterexample :
    (allocateMemory negativeStartState 1 5 FIRST_FIT).1 = -1 ∧
    (allocateMemory negativeStartState 1 5 FIRST_FIT).2.head ≠ negativeStartState.head ∧
    (allocateMemory negativeStartState 1 5 FIRST_FIT).2.freeMemory ≠
      negativeStartState.freeMemory ∧
    (allocateMemory negativeStartState 1 5 FIRST_FIT).2.numProcesses ≠
      negativeStartState.numProcesses := by
  decide

/-- C5 (failure atomicity of allocate, amended).  In every state in which no hole starts at
address `-1`, in particular in every state reachable from `initializeMemory(total, os)`
with `0 ≤ os < total`, for every process id, size and policy value (also one outside
`FIRST_FIT`/`BEST_FIT`/`WORST_FIT`), when `allocateMemory` returns `-1` the whole state (the
block list, `freeMemory`, `numProcesses`, `numHoles`, `totalMemory`, `osMemory`,
`userMemory`) is what it was before the call. -/
theorem C5_failure_atomicity (mm : MemoryManager)
    (hstart : (∀ b ∈ mm.head, hole b = true → b.startAddress ≠ -1) ∨
      ∃ total os : Int, 0 ≤ os ∧ os < total ∧ Reachable total os mm)
    (pid size algo : Int) (hret : (allocateMemory mm pid size algo).1 = -1) :
    (allocateMemory mm pid size algo).2 = mm := by
  have hstart2 : ∀ b ∈ mm.head, hole b = true → b.startAddress ≠ -1 := by
    rcases hstart with h | ⟨total, os, h0, h1, hr⟩
    · exact h
    · exact reachable_hole_start total os h0 h1 mm hr
  rcases allocateMemory_cases mm pid size algo with h | ⟨_, _, pre, cur, post, h1, h2, h3⟩
  · rw [h]
  · exfalso
    rw [h3, allocateAt_split mm pid size pre cur post h1] at hret
    have hmem : cur ∈ mm.head := by rw [h1]; simp
    exact hstart2 cur hmem ((fits_iff size cur).1 h2).1 hret

theorem C5_failure_atomicity_witness :
    (∀ b ∈ holesState.head, hole b = true → b.startAddress ≠ -1) ∧
    Reachable 1024 0 holesState ∧
    (allocateMemory holesState 7 300 BEST_FIT).1 = -1 ∧
    (allocateMemory holesState 7 300 BEST_FIT).2 = holesState ∧
    (allocateMemory holesState 7 80 5).1 = -1 ∧
    (allocateMemory holesState 7 80 5).2 = holesState :=
  ⟨by decide, reachable_holes, by decide,
    C5_failure_atomicity holesState (Or.inl (by decide)) 7 300 BEST_FIT (by decide), by decide,
    C5_failure_atomicity holesState (Or.inr ⟨1024, 0, by decide, by decide, reachable_holes⟩)
      7 80 5 (by decide)⟩

theorem deallocScan_none (pid : Int) :
    ∀ (l : List MemoryBlock) (prev : Option MemoryBlock),
      deallocScan pid prev l = none ↔ ∀ b ∈ l, ¬ (hole b = false ∧ b.processID = pid) := by
  intro l
  induction l with
  | nil => intro prev; simp [deallocScan]
  | cons c rest ih =>
    intro prev
    have hc : hole c = false ↔ c.isHole = 0 := by simp [hole]
    by_cases hm : c.isHole = 0 ∧ c.processID = pid
    · have e : deallocScan pid prev (c :: rest) ≠ none := by simp [deallocScan, hm]
      constructor
      · intro h; exact absurd h e
      · intro h
        exact absurd ⟨hc.2 hm.1, hm.2⟩ (h c (List.mem_cons_self _ _))
    · have e : deallocScan pid prev (c :: rest) = none ↔
          deallocScan pid (some c) rest = none := by
        simp only [deallocScan, hm, if_false]
        cases deallocScan pid (some c) rest with
        | none => simp
        | some r => simp
      rw [e, ih (some c)]
      constructor
      · intro h b hb
        rcases List.mem_cons.1 hb with rfl | hb
        · intro hh; exact hm ⟨hc.1 hh.1, hh.2⟩
        · exact h b hb
      · intro h b hb
        exact h b (List.mem_cons_of_mem _ hb)

theorem deallocateMemory_result (mm : MemoryManager) (pid : Int) :
    ((∀ b ∈ mm.head, ¬ (hole b = false ∧ b.processID = pid)) ∧
      deallocateMemory mm pid = (0, mm)) ∨
    ((∃ b ∈ mm.head, hole b = false ∧ b.processID = pid) ∧
      (deallocateMemory mm pid).1 = 1) := by
  cases hrec : deallocScan pid none mm.head with
  | none =>
    left
    exact ⟨(deallocScan_none pid mm.head none).1 hrec, by simp [deallocateMemory, hrec]⟩
  | some r =>
    right
    constructor
    · by_contra hno
      have : deallocScan pid none mm.head = none :=
        (deallocScan_none pid mm.head none).2 (fun b hb hh => hno ⟨b, hb, hh⟩)
      rw [this] at hrec
      exact Option.noConfusion hrec
    · simp [deallocateMemory, hrec]

/-- C6 (unknown owner).  In every state and for every id, `deallocateMemory` returns `0` if
and only if no occupied block has `processID == id`, and then the whole state (list and
counters) is unchanged; otherwise it returns `1`.  In particular, when the only blocks
carrying `processID == -1` are holes, `deallocateMemory(-1)` returns `0` and changes
nothing: it never frees a hole. -/
theorem C6_unknown_owner (mm : MemoryManager) (pid : Int) :
    ((deallocateMemory mm pid).1 = 0 ↔
      ¬ ∃ b ∈ mm.head, hole b = false ∧ b.processID = pid) ∧
    ((deallocateMemory mm pid).1 = 0 → (deallocateMemory mm pid).2 = mm) ∧
    ((∃ b ∈ mm.head, hole b = false ∧ b.processID = pid) → (deallocateMemory mm pid).1 = 1) ∧
    ((∀ b ∈ mm.head, b.processID = -1 → hole b = true) →
      deallocateMemory mm (-1) = (0, mm)) := by
  refine ⟨?_, ?_, ?_, ?_⟩
  · rcases deallocateMemory_result mm pid with ⟨h1, h2⟩ | ⟨h1, h2⟩
    · rw [h2]
      constructor
      · rintro _ ⟨b, hb, hh⟩; exact h1 b hb hh
      · intro _; rfl
    · rw [h2]
      constructor
      · intro h; exact absurd h (by decide)
      · intro h; exact absurd h1 h
  · intro h0
    rcases deallocateMemory_result mm pid with ⟨_, h2⟩ | ⟨_, h2⟩
    · rw [h2]
    · rw [h2] at h0; exact absurd h0 (by decide)
  · intro hex
    rcases deallocateMemory_result mm pid with ⟨h1, _⟩ | ⟨_, h2⟩
    · obtain ⟨b, hb, hh⟩ := hex
      exact absurd hh (h1 b hb)
    · exact h2
  · intro hall
    rcases deallocateMemory_result mm (-1) with ⟨_, h2⟩ | ⟨⟨b, hb, hh1, hh2⟩, _⟩
    · exact h2
    · have := hall b hb hh2
      rw [hh1] at this
      exact Bool.noConfusion this

theorem C6_unknown_owner_witness :
    (deallocateMemory holesState 9).1 = 0 ∧
    (deallocateMemory holesState 9).2 = holesState ∧
    (deallocateMemory holesState 4).1 = 1 ∧
    (∀ b ∈ holesState.head, b.processID = -1 → hole b = true) ∧
    deallocateMemory holesState (-1) = (0, holesState) :=
  ⟨by decide, (C6_unknown_owner holesState 9).2.1 (by decide),
    (C6_unknown_owner holesState 4).2.2.1 (by decide), by decide,
    (C6_unknown_owner holesState (-1)).2.2.2 (by decide)⟩

/-! ## C7 to C10: which hole each policy selects -/

theorem firstFitScan_split (size : Int) (cur : MemoryBlock) (post : List MemoryBlock)
    (hf : fits size cur = true) :
    ∀ (pre : List MemoryBlock) (idx : Nat), (∀ b ∈ pre, fits size b = false) →
      firstFitScan size (pre ++ cur :: post) idx = some (idx + pre.length) := by
  intro pre
  induction pre with
  | nil => intro idx _; simp [firstFitScan, hf]
  | cons c pre ih =>
    intro idx h
    have hc : fits size c = false := h c (List.mem_cons_self _ _)
    have := ih (idx + 1) (fun b hb => h b (List.mem_cons_of_mem _ hb))
    have e : firstFitScan size (c :: pre ++ cur :: post) idx =
        firstFitScan size (pre ++ cur :: post) (idx + 1) := by
      simp [firstFitScan, hc]
    rw [e, this, List.length_cons]
    congr 1
    omega

theorem sorted_split (pre : List MemoryBlock) (h : MemoryBlock) (post : List MemoryBlock)
    (hs : List.Pairwise (fun a b => a.startAddress < b.startAddress) (pre ++ h :: post)) :
    ∀ b ∈ h :: post, h.startAddress ≤ b.startAddress := by
  have h2 := (List.pairwise_append.1 hs).2.1
  have h3 := (List.pairwise_cons.1 h2).1
  intro b hb
  rcases List.mem_cons.1 hb with rfl | hb
  · exact le_refl _
  · exact le_of_lt (h3 b hb)

theorem reachable_sorted (total os : Int) (h1 : os < total) (mm : MemoryManager)
    (hr : Reachable total os mm) :
    List.Pairwise (fun a b => a.startAddress < b.startAddress) mm.head := by
  obtain ⟨_, _, _, ⟨ht, _, hw⟩, _, _, _⟩ := inv_reachable total os h1 mm hr
  exact tiles_sorted mm.head os (total - 1) ht hw

theorem allocateMemory_first (mm : MemoryManager) (pid size : Int) (hs : 0 < size)
    (hf : size ≤ mm.freeMemory) :
    allocateMemory mm pid size FIRST_FIT = firstFit mm pid size := by
  unfold allocateMemory
  rw [if_neg (by omega), if_neg (by omega), if_pos rfl]

theorem allocateMemory_best (mm : MemoryManager) (pid size : Int) (hs : 0 < size)
    (hf : size ≤ mm.freeMemory) :
    allocateMemory mm pid size BEST_FIT = bestFit mm pid size := by
  unfold allocateMemory
  rw [if_neg (by omega), if_neg (by omega), if_neg (by decide), if_pos rfl]

theorem allocateMemory_worst (mm : MemoryManager) (pid size : Int) (hs : 0 < size)
    (hf : size ≤ mm.freeMemory) :
    allocateMemory mm pid size WORST_FIT = worstFit mm pid size := by
  unfold allocateMemory
  rw [if_neg (by omega), if_neg (by omega), if_neg (by decide), if_neg (by decide), if_pos rfl]

/-- C7 (first-fit selection).  In every reachable state, for `0 < size ≤ freeMemory`, if
some hole has `size ≥ size` then `allocateMemory(..., FIRST_FIT)` allocates inside the first
such hole `h` in list order, which is also the one of lowest address: the list is
`pre ++ h :: post` with no qualifying hole in `pre`, the call returns `h.startAddress` and
the new list is `pre`, the blocks replacing `h`, then `post` unchanged; with any other
blocks `post2` after `h` the returned address and the replacement are the same. -/
theorem C7_first_fit (total os : Int) (h0 : 0 ≤ os) (h1 : os < total) (mm : MemoryManager)
    (hr : Reachable total os mm) (pid size : Int) (hs : 0 < size)
    (hf : size ≤ mm.freeMemory) (hex : ∃ b ∈ mm.head, hole b = true ∧ size ≤ b.size) :
    ∃ pre h post, mm.head = pre ++ h :: post ∧ hole h = true ∧ size ≤ h.size ∧
      (∀ b ∈ pre, ¬ (hole b = true ∧ size ≤ b.size)) ∧
      (∀ b ∈ mm.head, hole b = true → size ≤ b.size → h.startAddress ≤ b.startAddress) ∧
      (allocateMemory mm pid size FIRST_FIT).1 = h.startAddress ∧
      (allocateMemory mm pid size FIRST_FIT).2.head = pre ++ allocBlock h pid size ++ post ∧
      (∀ post2 : List MemoryBlock,
        (allocateMemory { mm with head := pre ++ h :: post2 } pid size FIRST_FIT).1 =
          h.startAddress ∧
        (allocateMemory { mm with head := pre ++ h :: post2 } pid size FIRST_FIT).2.head =
          pre ++ allocBlock h pid size ++ post2) := by
  have _ := h0
  rcases firstFit_cases mm pid size with ⟨hn, _⟩ | ⟨pre, h, post, hl, hfit, hpre, _⟩
  · obtain ⟨b, hb, hh⟩ := hex
    have := hn b hb
    rw [(fits_iff size b).2 hh] at this
    exact Bool.noConfusion this
  · obtain ⟨hh, hle⟩ := (fits_iff size h).1 hfit
    have hpre2 : ∀ b ∈ pre, ¬ (hole b = true ∧ size ≤ b.size) := by
      intro b hb hq
      have := hpre b hb
      rw [(fits_iff size b).2 hq] at this
      exact Bool.noConfusion this
    have key : ∀ post2 : List MemoryBlock,
        allocateMemory { mm with head := pre ++ h :: post2 } pid size FIRST_FIT =
          allocateAt { mm with head := pre ++ h :: post2 } pre.length pid size := by
      intro post2
      rw [allocateMemory_first { mm with head := pre ++ h :: post2 } pid size hs hf]
      have := firstFitScan_split size h post2 hfit pre 0 hpre
      simp only [firstFit, this, Nat.zero_add]
    have hmm : ({ mm with head := pre ++ h :: post } : MemoryManager) = mm := by
      rw [← hl]
    have hsort := reachable_sorted total os h1 mm hr
    rw [hl] at hsort
    refine ⟨pre, h, post, hl, hh, hle, hpre2, ?_, ?_, ?_, ?_⟩
    · intro b hb hbh hbs
      rw [hl] at hb
      rcases List.mem_append.1 hb with hb | hb
      · exact absurd ⟨hbh, hbs⟩ (hpre2 b hb)
      · exact sorted_split pre h post hsort b hb
    · have := key post
      rw [hmm] at this
      rw [this, allocateAt_split mm pid size pre h post hl]
    · have := key post
      rw [hmm] at this
      rw [this, allocateAt_split mm pid size pre h post hl]
    · intro post2
      rw [key post2, allocateAt_split _ pid size pre h post2 rfl]
      exact ⟨rfl, rfl⟩

theorem C7_first_fit_witness :
    Reachable 1024 0 holesState ∧
    (holesState.head.filter hole).map (fun b => b.size) = [50, 200, 100] ∧
    (allocateMemory holesState 7 80 FIRST_FIT).1 = 60 ∧
    (allocateMemory holesState 7 80 FIRST_FIT).2.head.get? 2 =
      some { isHole := 0, startAddress := 60, endAddress := 139, size := 80, processID := 7 } ∧
    (allocateMemory holesState 7 80 FIRST_FIT).2.head.drop 4 = holesState.head.drop 3 ∧
    ∃ pre h post, holesState.head = pre ++ h :: post ∧ hole h = true ∧ (80 : Int) ≤ h.size ∧
      (∀ b ∈ pre, ¬ (hole b = true ∧ (80 : Int) ≤ b.size)) ∧
      (∀ b ∈ holesState.head, hole b = true → (80 : Int) ≤ b.size →
        h.startAddress ≤ b.startAddress) ∧
      (allocateMemory holesState 7 80 FIRST_FIT).1 = h.startAddress ∧
      (allocateMemory holesState 7 80 FIRST_FIT).2.head = pre ++ allocBlock h 7 80 ++ post ∧
      (∀ post2 : List MemoryBlock,
        (allocateMemory { holesState with head := pre ++ h :: post2 } 7 80 FIRST_FIT).1 =
          h.startAddress ∧
        (allocateMemory { holesState with head := pre ++ h :: post2 } 7 80 FIRST_FIT).2.head =
          pre ++ allocBlock h 7 80 ++ post2) :=
  ⟨reachable_holes, by decide, by decide, by decide, by decide,
    C7_first_fit 1024 0 (by decide) (by decide) holesState reachable_holes 7 80 (by decide)
      (by decide) (by decide)⟩

theorem reachable_size_le (total os : Int) (h0 : 0 ≤ os) (h1 : os < total)
    (mm : MemoryManager) (hr : Reachable total os mm) :
    ∀ b ∈ mm.head, b.size ≤ mm.totalMemory := by
  obtain ⟨ht0, _, _, ⟨ht, _, hw⟩, _, _, _⟩ := inv_reachable total os h1 mm hr
  intro b hb
  have hb1 := (tiles_bounds mm.head os (total - 1) ht hw).2 b hb
  have hb2 := (hw b hb).2
  omega

/-- Best-fit selection below the overflow: in every state reachable from
`initializeMemory(total, os)` with `0 ≤ os < total ≤ 2^31 - 2`, for `0 < size ≤ freeMemory`,
if some hole has `size ≥ size` then `allocateMemory(..., BEST_FIT)` allocates inside a hole
`h` whose size is minimal among the holes with `size ≥ size`; every qualifying hole before
`h` in the list is strictly larger, so among the holes of that minimal size `h` is the
first in list order and the one of lowest address.  The call returns `h.startAddress` and
the new list is the old one with `h` replaced by the allocated block (and the remainder
hole when `h` is larger than the request). -/
theorem bestFit_selection (total os : Int) (h0 : 0 ≤ os) (h1 : os < total)
    (h2 : total ≤ 2147483646) (mm : MemoryManager)
    (hr : Reachable total os mm) (pid size : Int) (hs : 0 < size)
    (hf : size ≤ mm.freeMemory) (hex : ∃ b ∈ mm.head, hole b = true ∧ size ≤ b.size) :
    ∃ pre h post, mm.head = pre ++ h :: post ∧ hole h = true ∧ size ≤ h.size ∧
      (∀ b ∈ mm.head, hole b = true → size ≤ b.size → h.size ≤ b.size) ∧
      (∀ b ∈ pre, hole b = true → size ≤ b.size → h.size < b.size) ∧
      (∀ b ∈ mm.head, hole b = true → b.size = h.size → h.startAddress ≤ b.startAddress) ∧
      (allocateMemory mm pid size BEST_FIT).1 = h.startAddress ∧
      (allocateMemory mm pid size BEST_FIT).2.head = pre ++ allocBlock h pid size ++ post := by
  rw [allocateMemory_best mm pid size hs hf]
  rcases bestFit_cases mm pid size with ⟨hn, _⟩ | ⟨pre, h, post, hl, hfit, hmin, hpre, hres⟩
  · obtain ⟨b, hb, hh⟩ := hex
    have h4 := hn b hb ((fits_iff size b).2 hh)
    have h3 := reachable_size_le total os h0 h1 mm hr b hb
    have ht := (inv_reachable total os h1 mm hr).1
    rw [wrap32_eq _ (by omega) (by omega)] at h4
    omega
  · obtain ⟨hh, hle⟩ := (fits_iff size h).1 hfit
    have hsort := reachable_sorted total os h1 mm hr
    rw [hl] at hsort
    rw [hres, allocateAt_split mm pid size pre h post hl]
    refine ⟨pre, h, post, hl, hh, hle, ?_, ?_, ?_, rfl, rfl⟩
    · intro b hb hbh hbs
      exact hmin b hb ((fits_iff size b).2 ⟨hbh, hbs⟩)
    · intro b hb hbh hbs
      exact hpre b hb ((fits_iff size b).2 ⟨hbh, hbs⟩)
    · intro b hb hbh hbs
      rw [hl] at hb
      rcases List.mem_append.1 hb with hb | hb
      · have := hpre b hb ((fits_iff size b).2 ⟨hbh, by omega⟩)
        omega
      · exact sorted_split pre h post hsort b hb

/-- The example of the header file: holes `[50, 200, 100]`, a best-fit request of 80 takes
the hole of 100 and leaves a hole of 20. -/
theorem bestFit_selection_holes :
    Reachable 1024 0 holesState ∧
    (holesState.head.filter hole).map (fun b => b.size) = [50, 200, 100] ∧
    holesState.head.get? 4 =
      some { isHole := 1, startAddress := 270, endAddress := 369, size := 100,
             processID := -1 } ∧
    (allocateMemory holesState 7 80 BEST_FIT).1 = 270 ∧
    (allocateMemory holesState 7 80 BEST_FIT).2.head.get? 4 =
      some { isHole := 0, startAddress := 270, endAddress := 349, size := 80,
             processID := 7 } ∧
    (allocateMemory holesState 7 80 BEST_FIT).2.head.get? 5 =
      some { isHole := 1, startAddress := 350, endAddress := 369, size := 20,
             processID := -1 } ∧
    ∃ pre h post, holesState.head = pre ++ h :: post ∧ hole h = true ∧ (80 : Int) ≤ h.size ∧
      (∀ b ∈ holesState.head, hole b = true → (80 : Int) ≤ b.size → h.size ≤ b.size) ∧
      (∀ b ∈ pre, hole b = true → (80 : Int) ≤ b.size → h.size < b.size) ∧
      (∀ b ∈ holesState.head, hole b = true → b.size = h.size →
        h.startAddress ≤ b.startAddress) ∧
      (allocateMemory holesState 7 80 BEST_FIT).1 = h.startAddress ∧
      (allocateMemory holesState 7 80 BEST_FIT).2.head = pre ++ allocBlock h 7 80 ++ post :=
  ⟨reachable_holes, by decide, by decide, by decide, by decide, by decide,
    bestFit_selection 1024 0 (by decide) (by decide) (by decide) holesState reachable_holes
      7 80 (by decide) (by decide) (by decide)⟩

/-- C9 (worst-fit selection).  In every reachable state, for `0 < size ≤ freeMemory`, if
some hole has `size ≥ size` then `allocateMemory(..., WORST_FIT)` allocates inside a hole
`h` whose size is maximal among all holes of the list; every hole before `h` in the list
is strictly smaller, so among the holes of that maximal size `h` is the first in list
order and the one of lowest address.  The call returns `h.startAddress` and the new list
is the old one with `h` replaced by the allocated block (and the remainder hole when `h`
is larger than the request). -/
theorem C9_worst_fit (total os : Int) (h0 : 0 ≤ os) (h1 : os < total) (mm : MemoryManager)
    (hr : Reachable total os mm) (pid size : Int) (hs : 0 < size)
    (hf : size ≤ mm.freeMemory) (hex : ∃ b ∈ mm.head, hole b = true ∧ size ≤ b.size) :
    ∃ pre h post, mm.head = pre ++ h :: post ∧ hole h = true ∧ size ≤ h.size ∧
      (∀ b ∈ mm.head, hole b = true → b.size ≤ h.size) ∧
      (∀ b ∈ pre, hole b = true → b.size < h.size) ∧
      (∀ b ∈ mm.head, hole b = true → b.size = h.size → h.startAddress ≤ b.startAddress) ∧
      (allocateMemory mm pid size WORST_FIT).1 = h.startAddress ∧
      (allocateMemory mm pid size WORST_FIT).2.head = pre ++ allocBlock h pid size ++ post := by
  have _ := h0
  rw [allocateMemory_worst mm pid size hs hf]
  rcases worstFit_cases mm pid size with ⟨hn, _⟩ | ⟨pre, h, post, hl, hfit, hmax, hpre, hres⟩
  · obtain ⟨b, hb, hh⟩ := hex
    have h2 := hn b hb ((fits_iff size b).2 hh)
    omega
  · obtain ⟨hh, hle⟩ := (fits_iff size h).1 hfit
    have hsort := reachable_sorted total os h1 mm hr
    rw [hl] at hsort
    rw [hres, allocateAt_split mm pid size pre h post hl]
    have hpre2 : ∀ b ∈ pre, hole b = true → b.size < h.size := by
      intro b hb hbh
      by_cases hq : size ≤ b.size
      · exact hpre b hb ((fits_iff size b).2 ⟨hbh, hq⟩)
      · omega
    refine ⟨pre, h, post, hl, hh, hle, ?_, hpre2, ?_, rfl, rfl⟩
    · intro b hb hbh
      by_cases hq : size ≤ b.size
      · exact hmax b hb ((fits_iff size b).2 ⟨hbh, hq⟩)
      · omega
    · intro b hb hbh hbs
      rw [hl] at hb
      rcases List.mem_append.1 hb with hb | hb
      · have := hpre2 b hb hbh
        omega
      · exact sorted_split pre h post hsort b hb

theorem C9_worst_fit_witness :
    Reachable 1024 0 holesState ∧
    (holesState.head.filter hole).map (fun b => b.size) = [50, 200, 100] ∧
    holesState.head.get? 2 =
      some { isHole := 1, startAddress := 60, endAddress := 259, size := 200,
             processID := -1 } ∧
    (allocateMemory holesState 7 80 WORST_FIT).1 = 60 ∧
    (allocateMemory holesState 7 80 WORST_FIT).2.head.get? 2 =
      some { isHole := 0, startAddress := 60, endAddress := 139, size := 80,
             processID := 7 } ∧
    (allocateMemory holesState 7 80 WORST_FIT).2.head.get? 3 =
      some { isHole := 1, startAddress := 140, endAddress := 259, size := 120,
             processID := -1 } ∧
    ∃ pre h post, holesState.head = pre ++ h :: post ∧ hole h = true ∧ (80 : Int) ≤ h.size ∧
      (∀ b ∈ holesState.head, hole b = true → b.size ≤ h.size) ∧
      (∀ b ∈ pre, hole b = true → b.size < h.size) ∧
      (∀ b ∈ holesState.head, hole b = true → b.size = h.size →
        h.startAddress ≤ b.startAddress) ∧
      (allocateMemory holesState 7 80 WORST_FIT).1 = h.startAddress ∧
      (allocateMemory holesState 7 80 WORST_FIT).2.head = pre ++ allocBlock h 7 80 ++ post :=
  ⟨reachable_holes, by decide, by decide, by decide, by decide, by decide,
    C9_worst_fit 1024 0 (by decide) (by decide) holesState reachable_holes 7 80 (by decide)
      (by decide) (by decide)⟩

/-- C10 (no qualifying hole).  In every state and for every size, if no hole of the list has
`size ≥ size` then `firstFit`, `bestFit` and `worstFit` each return `-1` and leave the whole
state (list and counters) as it was. -/
theorem C10_no_qualifying_hole (mm : MemoryManager) (pid size : Int)
    (hno : ∀ b ∈ mm.head, hole b = true → b.size < size) :
    firstFit mm pid size = (-1, mm) ∧ bestFit mm pid size = (-1, mm) ∧
    worstFit mm pid size = (-1, mm) := by
  have hnf : ∀ b ∈ mm.head, fits size b = true → False := by
    intro b hb hfb
    obtain ⟨hh, hle⟩ := (fits_iff size b).1 hfb
    have := hno b hb hh
    omega
  refine ⟨?_, ?_, ?_⟩
  · rcases firstFit_cases mm pid size with ⟨_, h⟩ | ⟨pre, cur, post, hl, hfit, _, _⟩
    · exact h
    · exact absurd hfit (fun hc => hnf cur (by rw [hl]; simp) hc)
  · rcases bestFit_cases mm pid size with ⟨_, h⟩ | ⟨pre, cur, post, hl, hfit, _, _, _⟩
    · exact h
    · exact absurd hfit (fun hc => hnf cur (by rw [hl]; simp) hc)
  · rcases worstFit_cases mm pid size with ⟨_, h⟩ | ⟨pre, cur, post, hl, hfit, _, _, _⟩
    · exact h
    · exact absurd hfit (fun hc => hnf cur (by rw [hl]; simp) hc)

theorem C10_no_qualifying_hole_witness :
    (∀ b ∈ holesState.head, hole b = true → b.size < 201) ∧
    firstFit holesState 7 201 = (-1, holesState) ∧
    bestFit holesState 7 201 = (-1, holesState) ∧
    worstFit holesState 7 201 = (-1, holesState) :=
  ⟨by decide, C10_no_qualifying_hole holesState 7 201 (by decide)⟩

/-! ## C11 to C14: validation and the effect of a successful allocation -/

theorem reachable_merge : Reachable 1024 0 mergeState := ⟨mergeOps, rfl⟩

/-- C11 (request validation).  In every state, for every process id and every policy value,
`allocateMemory` returns `-1` and leaves the state unchanged whenever `size ≤ 0` and whenever
`size > freeMemory`; the outcome is the same for `FIRST_FIT`, `BEST_FIT` and `WORST_FIT`, and
it is the same whatever the block list holds, so the policy scan is not reached. -/
theorem C11_request_validation (mm : MemoryManager) (pid size algo : Int)
    (hbad : size ≤ 0 ∨ size > mm.freeMemory) :
    allocateMemory mm pid size algo = (-1, mm) ∧
    allocateMemory mm pid size FIRST_FIT = (-1, mm) ∧
    allocateMemory mm pid size BEST_FIT = (-1, mm) ∧
    allocateMemory mm pid size WORST_FIT = (-1, mm) ∧
    (∀ l : List MemoryBlock,
      allocateMemory { mm with head := l } pid size algo = (-1, { mm with head := l })) := by
  have key : ∀ (m : MemoryManager) (a : Int), m.freeMemory = mm.freeMemory →
      allocateMemory m pid size a = (-1, m) := by
    intro m a hm
    unfold allocateMemory
    by_cases h1 : size ≤ 0
    · rw [if_pos h1]
    · rw [if_neg h1, if_pos (by rw [hm]; omega)]
  exact ⟨key mm algo rfl, key mm _ rfl, key mm _ rfl, key mm _ rfl, fun l => key _ algo rfl⟩

theorem C11_request_validation_witness :
    ((0 : Int) ≤ 0 ∨ (0 : Int) > holesState.freeMemory) ∧
    ((351 : Int) ≤ 0 ∨ (351 : Int) > holesState.freeMemory) ∧
    allocateMemory holesState 7 0 BEST_FIT = (-1, holesState) ∧
    allocateMemory holesState 7 351 WORST_FIT = (-1, holesState) :=
  ⟨by decide, by decide,
    (C11_request_validation holesState 7 0 BEST_FIT (by decide)).1,
    (C11_request_validation holesState 7 351 WORST_FIT (by decide)).1⟩

theorem allocateMemory_success (mm : MemoryManager) (pid size algo : Int)
    (hsucc : (allocateMemory mm pid size algo).1 ≠ -1) :
    0 < size ∧ size ≤ mm.freeMemory ∧
    ∃ pre h post, mm.head = pre ++ h :: post ∧ hole h = true ∧ size ≤ h.size ∧
      allocateMemory mm pid size algo =
        (h.startAddress,
         { mm with
            head := pre ++ allocBlock h pid size ++ post
            numHoles := mm.numHoles + allocHoleDelta h size
            numProcesses := mm.numProcesses + 1
            freeMemory := mm.freeMemory - size }) := by
  rcases allocateMemory_cases mm pid size algo with h | ⟨hs, hf, pre, cur, post, h1, h2, h3⟩
  · rw [h] at hsucc
    exact absurd rfl hsucc
  · obtain ⟨hh, hle⟩ := (fits_iff size cur).1 h2
    refine ⟨hs, hf, pre, cur, post, h1, hh, hle, ?_⟩
    rw [h3, allocateAt_split mm pid size pre cur post h1]

theorem split_unique :
    ∀ (pre pre2 : List MemoryBlock) (h h2 : MemoryBlock) (post post2 : List MemoryBlock),
      List.Pairwise (fun a b => a.startAddress < b.startAddress) (pre ++ h :: post) →
      pre ++ h :: post = pre2 ++ h2 :: post2 → h.startAddress = h2.startAddress →
      pre = pre2 ∧ h = h2 ∧ post = post2 := by
  intro pre
  induction pre with
  | nil =>
    intro pre2 h h2 post post2 hs heq hst
    cases pre2 with
    | nil =>
      simp only [List.nil_append, List.cons.injEq] at heq
      exact ⟨rfl, heq.1, heq.2⟩
    | cons c p2 =>
      simp only [List.nil_append, List.cons_append, List.cons.injEq] at heq
      obtain ⟨rfl, rfl⟩ := heq
      have h3 := (List.pairwise_cons.1 hs).1 h2 (by simp)
      omega
  | cons c p ih =>
    intro pre2 h h2 post post2 hs heq hst
    cases pre2 with
    | nil =>
      simp only [List.nil_append, List.cons_append, List.cons.injEq] at heq
      obtain ⟨rfl, heq2⟩ := heq
      have h3 := (List.pairwise_cons.1 hs).1 h (by simp)
      omega
    | cons c2 p2 =>
      simp only [List.cons_append, List.cons.injEq] at heq
      obtain ⟨rfl, heq2⟩ := heq
      obtain ⟨i1, i2, i3⟩ := ih p2 h h2 post post2 (List.pairwise_cons.1 hs).2 heq2 hst
      exact ⟨by rw [i1], i2, i3⟩

theorem allocateMemory_selected (total os : Int) (h1 : os < total) (mm : MemoryManager)
    (hr : Reachable total os mm) (pid size algo : Int)
    (hsucc : (allocateMemory mm pid size algo).1 ≠ -1)
    (pre : List MemoryBlock) (h : MemoryBlock) (post : List MemoryBlock)
    (hl : mm.head = pre ++ h :: post)
    (hsel : (allocateMemory mm pid size algo).1 = h.startAddress) :
    0 < size ∧ hole h = true ∧ size ≤ h.size ∧
    allocateMemory mm pid size algo =
      (h.startAddress,
       { mm with
          head := pre ++ allocBlock h pid size ++ post
          numHoles := mm.numHoles + allocHoleDelta h size
          numProcesses := mm.numProcesses + 1
          freeMemory := mm.freeMemory - size }) := by
  obtain ⟨hs, _, pre2, h2, post2, hl2, hh, hle, hres⟩ :=
    allocateMemory_success mm pid size algo hsucc
  have hsort := reachable_sorted total os h1 mm hr
  rw [hl] at hsort
  rw [hres] at hsel
  obtain ⟨rfl, rfl, rfl⟩ := split_unique pre pre2 h h2 post post2 hsort (hl.symm.trans hl2)
    hsel.symm
  exact ⟨hs, hh, hle, hres⟩

/-- C12 (exact-match allocation).  In every reachable state and for every policy value, when
`allocateMemory` succeeds and the selected hole `h` (the block of the list at whose start
address the returned value lies) has `size` equal to the request, the new list is the old
one with `h` replaced by the occupied block with the same `startAddress`, `endAddress` and
`size` and `processID` equal to the given id; the list keeps its length, `numHoles`
decreases by 1 and `numProcesses` increases by 1. -/
theorem C12_exact_match (total os : Int) (h0 : 0 ≤ os) (h1 : os < total) (mm : MemoryManager)
    (hr : Reachable total os mm) (pid size algo : Int)
    (hsucc : (allocateMemory mm pid size algo).1 ≠ -1)
    (pre : List MemoryBlock) (h : MemoryBlock) (post : List MemoryBlock)
    (hl : mm.head = pre ++ h :: post)
    (hsel : (allocateMemory mm pid size algo).1 = h.startAddress) (hex : h.size = size) :
    hole h = true ∧
    (allocateMemory mm pid size algo).2.head =
      pre ++ { isHole := 0, startAddress := h.startAddress, endAddress := h.endAddress,
               size := h.size, processID := pid } :: post ∧
    (allocateMemory mm pid size algo).2.head.length = mm.head.length ∧
    (allocateMemory mm pid size algo).2.numHoles = mm.numHoles - 1 ∧
    (allocateMemory mm pid size algo).2.numProcesses = mm.numProcesses + 1 := by
  have _ := h0
  obtain ⟨_, hh, _, hres⟩ :=
    allocateMemory_selected total os h1 mm hr pid size algo hsucc pre h post hl hsel
  have e1 : allocBlock h pid size =
      [{ isHole := 0, startAddress := h.startAddress, endAddress := h.endAddress,
         size := h.size, processID := pid }] := by
    unfold allocBlock
    rw [if_pos hex]
  have e2 : allocHoleDelta h size = -1 := by
    unfold allocHoleDelta
    rw [if_pos hex]
  rw [hres, e1, e2]
  refine ⟨hh, ?_, ?_, ?_, rfl⟩
  · show pre ++ [_] ++ post = _
    simp
  · show (pre ++ [_] ++ post).length = _
    rw [hl]
    simp
  · show mm.numHoles + -1 = mm.numHoles - 1
    omega

theorem C12_exact_match_witness :
    Reachable 1024 0 holesState ∧
    (allocateMemory holesState 7 100 BEST_FIT).1 = 270 ∧
    (allocateMemory holesState 7 100 BEST_FIT).2.head.get? 4 =
      some { isHole := 0, startAddress := 270, endAddress := 369, size := 100,
             processID := 7 } ∧
    (allocateMemory holesState 7 100 BEST_FIT).2.head.length = holesState.head.length ∧
    (allocateMemory holesState 7 100 BEST_FIT).2.numHoles = holesState.numHoles - 1 ∧
    (allocateMemory holesState 7 100 BEST_FIT).2.numProcesses =
      holesState.numProcesses + 1 :=
  have h := C12_exact_match 1024 0 (by decide) (by decide) holesState reachable_holes 7 100
    BEST_FIT (by decide) (holesState.head.take 4)
    { isHole := 1, startAddress := 270, endAddress := 369, size := 100, processID := -1 }
    (holesState.head.drop 5) (by decide) (by decide) (by decide)
  ⟨reachable_holes, by decide, by decide, h.2.2.1, h.2.2.2.1, h.2.2.2.2⟩

/-- C13 (split allocation).  In every reachable state and for every policy value, when
`allocateMemory` succeeds with a request `n` and the selected hole `h` has `size > n`, then
`n > 0` and the new list is the old one with `h` replaced by exactly two blocks in this
order: the occupied block `[h.start, h.start + n - 1]` of size `n` carrying the given id,
and the hole `[h.start + n, h.end]` of size `(h.end - h.start + 1) - n` with `processID`
`-1`; `numHoles` is unchanged and `numProcesses` increases by 1. -/
theorem C13_split_allocation (total os : Int) (h0 : 0 ≤ os) (h1 : os < total)
    (mm : MemoryManager) (hr : Reachable total os mm) (pid n algo : Int)
    (hsucc : (allocateMemory mm pid n algo).1 ≠ -1)
    (pre : List MemoryBlock) (h : MemoryBlock) (post : List MemoryBlock)
    (hl : mm.head = pre ++ h :: post)
    (hsel : (allocateMemory mm pid n algo).1 = h.startAddress) (hgt : n < h.size) :
    0 < n ∧ hole h = true ∧
    (allocateMemory mm pid n algo).2.head =
      pre ++ { isHole := 0, startAddress := h.startAddress,
               endAddress := h.startAddress + n - 1, size := n, processID := pid } ::
             { isHole := 1, startAddress := h.startAddress + n, endAddress := h.endAddress,
               size := (h.endAddress - h.startAddress + 1) - n, processID := -1 } :: post ∧
    (allocateMemory mm pid n algo).2.head.length = mm.head.length + 1 ∧
    (allocateMemory mm pid n algo).2.numHoles = mm.numHoles ∧
    (allocateMemory mm pid n algo).2.numProcesses = mm.numProcesses + 1 := by
  have _ := h0
  obtain ⟨hs, hh, _, hres⟩ :=
    allocateMemory_selected total os h1 mm hr pid n algo hsucc pre h post hl hsel
  have hne : ¬ h.size = n := by omega
  have e1 : allocBlock h pid n =
      [{ isHole := 0, startAddress := h.startAddress, endAddress := h.startAddress + n - 1,
         size := n, processID := pid },
       { isHole := 1, startAddress := h.startAddress + n, endAddress := h.endAddress,
         size := (h.endAddress - h.startAddress + 1) - n, processID := -1 }] := by
    unfold allocBlock createBlock
    rw [if_neg hne]
    simp only [List.cons.injEq, MemoryBlock.mk.injEq, and_true, true_and]
    omega
  have e2 : allocHoleDelta h n = 0 := by
    unfold allocHoleDelta
    rw [if_neg hne]
  rw [hres, e1, e2]
  refine ⟨hs, hh, ?_, ?_, ?_, rfl⟩
  · show pre ++ [_, _] ++ post = _
    simp
  · show (pre ++ [_, _] ++ post).length = _
    rw [hl]
    simp
    omega
  · show mm.numHoles + 0 = mm.numHoles
    omega

theorem C13_split_allocation_witness :
    Reachable 1024 0 holesState ∧
    (allocateMemory holesState 7 80 WORST_FIT).1 = 60 ∧
    (allocateMemory holesState 7 80 WORST_FIT).2.head =
      holesState.head.take 2 ++
        { isHole := 0, startAddress := 60, endAddress := 60 + 80 - 1, size := 80,
          processID := 7 } ::
        { isHole := 1, startAddress := 60 + 80, endAddress := 259,
          size := (259 - 60 + 1) - 80, processID := -1 } :: holesState.head.drop 3 ∧
    (allocateMemory holesState 7 80 WORST_FIT).2.numHoles = holesState.numHoles ∧
    (allocateMemory holesState 7 80 WORST_FIT).2.numProcesses =
      holesState.numProcesses + 1 :=
  have h := C13_split_allocation 1024 0 (by decide) (by decide) holesState reachable_holes 7
    80 WORST_FIT (by decide) (holesState.head.take 2)
    { isHole := 1, startAddress := 60, endAddress := 259, size := 200, processID := -1 }
    (holesState.head.drop 3) (by decide) (by decide) (by decide)
  ⟨reachable_holes, by decide, h.2.2.1, h.2.2.2.2.1, h.2.2.2.2.2⟩

/-- C14 (success postcondition of allocate).  In every state, reachable or not, for every id,
size and policy value, if `allocateMemory` succeeds (its result is not `-1`) then
`freeMemory` afterwards is `freeMemory` before minus `size`, the returned value is the start
address of a hole of the old list with room for the request, and the new list holds an
occupied block starting at the returned value with `processID == id` and
`size == size`. -/
theorem C14_success_postcondition (mm : MemoryManager) (pid size algo : Int)
    (hsucc : (allocateMemory mm pid size algo).1 ≠ -1) :
    (allocateMemory mm pid size algo).2.freeMemory = mm.freeMemory - size ∧
    (∃ h ∈ mm.head, hole h = true ∧ size ≤ h.size ∧
      h.startAddress = (allocateMemory mm pid size algo).1) ∧
    (∃ b ∈ (allocateMemory mm pid size algo).2.head, hole b = false ∧
      b.startAddress = (allocateMemory mm pid size algo).1 ∧ b.processID = pid ∧
      b.size = size) := by
  obtain ⟨_, _, pre, h, post, hl, hh, hle, hres⟩ := allocateMemory_success mm pid size algo hsucc
  rw [hres]
  refine ⟨rfl, ⟨h, by rw [hl]; simp, hh, hle, rfl⟩, ?_⟩
  by_cases hex : h.size = size
  · refine ⟨{ h with isHole := 0, processID := pid }, ?_, by simp [hole], rfl, rfl, hex⟩
    show _ ∈ pre ++ allocBlock h pid size ++ post
    unfold allocBlock
    rw [if_pos hex]
    simp
  · refine ⟨{ isHole := 0, startAddress := h.startAddress,
              endAddress := h.startAddress + size - 1, size := size, processID := pid },
      ?_, by simp [hole], rfl, rfl, rfl⟩
    show _ ∈ pre ++ allocBlock h pid size ++ post
    unfold allocBlock
    rw [if_neg hex]
    simp

theorem C14_success_postcondition_witness :
    (allocateMemory holesState 7 80 BEST_FIT).1 = 270 ∧
    (allocateMemory holesState 7 80 BEST_FIT).2.freeMemory = holesState.freeMemory - 80 ∧
    (∃ b ∈ (allocateMemory holesState 7 80 BEST_FIT).2.head, hole b = false ∧
      b.startAddress = (allocateMemory holesState 7 80 BEST_FIT).1 ∧ b.processID = 7 ∧
      b.size = 80) :=
  have h := C14_success_postcondition holesState 7 80 BEST_FIT (by decide)
  ⟨by decide, h.1, h.2.2⟩

/-! ## Deallocation on a decomposed list -/

theorem deallocScan_split (pid : Int) (P : MemoryBlock) (post : List MemoryBlock)
    (hP : P.isHole = 0 ∧ P.processID = pid) :
    ∀ (pre : List MemoryBlock) (prev : Option MemoryBlock),
      (∀ b ∈ pre, ¬ (b.isHole = 0 ∧ b.processID = pid)) →
      deallocScan pid prev (pre ++ P :: post) =
        some ((prev.toList ++ pre).dropLast ++
                (freeBlock (prev.toList ++ pre).getLast? P post).1,
              (freeBlock (prev.toList ++ pre).getLast? P post).2, P.size) := by
  intro pre
  induction pre with
  | nil =>
    intro prev _
    have e : deallocScan pid prev ([] ++ P :: post) =
        some ((freeBlock prev P post).1, (freeBlock prev P post).2, P.size) := by
      simp [deallocScan, hP]
    rw [e]
    cases prev with
    | none => rfl
    | some p => rfl
  | cons c pre ih =>
    intro prev hpre
    have hc : ¬ (c.isHole = 0 ∧ c.processID = pid) := hpre c (List.mem_cons_self _ _)
    have hrec := ih (some c) (fun b hb => hpre b (List.mem_cons_of_mem _ hb))
    have e : deallocScan pid prev ((c :: pre) ++ P :: post) =
        match deallocScan pid (some c) (pre ++ P :: post) with
        | none => none
        | some (l, dh, sz) => some (prev.toList ++ l, dh, sz) := by
      simp only [List.cons_append, deallocScan, hc, if_false]
      rfl
    rw [e, hrec]
    have e1 : (some c).toList ++ pre = c :: pre := rfl
    have e2 : (prev.toList ++ c :: pre).dropLast = prev.toList ++ (c :: pre).dropLast :=
      List.dropLast_append_of_ne_nil _ (List.cons_ne_nil _ _)
    have e3 : (prev.toList ++ c :: pre).getLast? = (c :: pre).getLast? :=
      List.getLast?_append_of_ne_nil _ (List.cons_ne_nil _ _)
    simp only [e1, e2, e3, List.append_assoc]

theorem hole_false_iff (b : MemoryBlock) : hole b = false ↔ b.isHole = 0 := by
  simp [hole]

theorem deallocateMemory_split (mm : MemoryManager) (pid : Int) (pre : List MemoryBlock)
    (P : MemoryBlock) (post : List MemoryBlock) (hl : mm.head = pre ++ P :: post)
    (hP : hole P = false ∧ P.processID = pid)
    (hpre : ∀ b ∈ pre, ¬ (hole b = false ∧ b.processID = pid)) :
    deallocateMemory mm pid =
      (1, { mm with
              head := pre.dropLast ++ (freeBlock pre.getLast? P post).1
              numProcesses := mm.numProcesses - 1
              numHoles := mm.numHoles + (freeBlock pre.getLast? P post).2
              freeMemory := mm.freeMemory + P.size }) := by
  have h := deallocScan_split pid P post ⟨(hole_false_iff P).1 hP.1, hP.2⟩ pre none
    (fun b hb hq => hpre b hb ⟨(hole_false_iff b).2 hq.1, hq.2⟩)
  have e : (none : Option MemoryBlock).toList ++ pre = pre := rfl
  rw [e] at h
  simp only [deallocateMemory, hl, h]

theorem first_match_split (pid : Int) :
    ∀ l : List MemoryBlock, (∃ b ∈ l, hole b = false ∧ b.processID = pid) →
      ∃ pre P post, l = pre ++ P :: post ∧ (hole P = false ∧ P.processID = pid) ∧
        ∀ b ∈ pre, ¬ (hole b = false ∧ b.processID = pid) := by
  intro l
  induction l with
  | nil => rintro ⟨b, hb, _⟩; simp at hb
  | cons c rest ih =>
    intro hex
    by_cases hc : hole c = false ∧ c.processID = pid
    · exact ⟨[], c, rest, rfl, hc, by simp⟩
    · obtain ⟨b, hb, hq⟩ := hex
      rcases List.mem_cons.1 hb with rfl | hb
      · exact absurd hq hc
      · obtain ⟨pre, P, post, h1, h2, h3⟩ := ih ⟨b, hb, hq⟩
        refine ⟨c :: pre, P, post, by rw [h1]; rfl, h2, ?_⟩
        intro x hx
        rcases List.mem_cons.1 hx with rfl | hx
        · exact hc
        · exact h3 x hx

/-- The four shapes of the result of `freeBlock`, by the kind of the two neighbours. -/
theorem freeBlock_none_none (prev : Option MemoryBlock) (P : MemoryBlock)
    (rest : List MemoryBlock) (hp : isHoleAt prev = false) (hn : isHoleAt rest.head? = false) :
    freeBlock prev P rest =
      (prev.toList ++ { P with isHole := 1, processID := -1 } :: rest, 1) := by
  rcases prev with _ | p <;> rcases rest with _ | ⟨n, after⟩ <;>
    simp_all [freeBlock, mergeNext, mergePrev, isHoleAt, hole]

theorem freeBlock_none_next (prev : Option MemoryBlock) (P n : MemoryBlock)
    (after : List MemoryBlock) (hp : isHoleAt prev = false) (hn : hole n = true) :
    freeBlock prev P (n :: after) =
      (prev.toList ++
        { isHole := 1, startAddress := P.startAddress, endAddress := n.endAddress,
          size := n.endAddress - P.startAddress + 1, processID := -1 } :: after, 0) := by
  rcases prev with _ | p <;> simp_all [freeBlock, mergeNext, mergePrev, isHoleAt, hole]

theorem freeBlock_prev_none (p P : MemoryBlock) (rest : List MemoryBlock)
    (hp : hole p = true) (hn : isHoleAt rest.head? = false) :
    freeBlock (some p) P rest =
      ({ isHole := p.isHole, startAddress := p.startAddress, endAddress := P.endAddress,
         size := P.endAddress - p.startAddress + 1, processID := p.processID } :: rest, 0) := by
  rcases rest with _ | ⟨n, after⟩ <;>
    simp_all [freeBlock, mergeNext, mergePrev, isHoleAt, hole]

theorem freeBlock_prev_next (p P n : MemoryBlock) (after : List MemoryBlock)
    (hp : hole p = true) (hn : hole n = true) :
    freeBlock (some p) P (n :: after) =
      ({ isHole := p.isHole, startAddress := p.startAddress, endAddress := n.endAddress,
         size := n.endAddress - p.startAddress + 1, processID := p.processID } :: after,
        -1) := by
  simp_all [freeBlock, mergeNext, mergePrev, hole]

theorem prev_cases (pre : List MemoryBlock) :
    isHoleAt pre.getLast? = false ∨ ∃ pre2 q, pre = pre2 ++ [q] ∧ hole q = true := by
  rcases List.eq_nil_or_concat pre with rfl | ⟨pre2, q, rfl⟩
  · left; rfl
  · rw [List.concat_eq_append]
    by_cases hq : hole q = true
    · right; exact ⟨pre2, q, rfl, hq⟩
    · left
      rw [List.getLast?_concat]
      simpa [isHoleAt] using hq

theorem next_cases (post : List MemoryBlock) :
    isHoleAt post.head? = false ∨ ∃ n after, post = n :: after ∧ hole n = true := by
  rcases post with _ | ⟨n, after⟩
  · left; rfl
  · by_cases hn : hole n = true
    · right; exact ⟨n, after, rfl, hn⟩
    · left
      simpa [isHoleAt] using hn

theorem dropLast_append_toList (pre : List MemoryBlock) :
    pre.dropLast ++ pre.getLast?.toList = pre := by
  rcases List.eq_nil_or_concat pre with rfl | ⟨pre2, q, rfl⟩
  · rfl
  · rw [List.concat_eq_append, List.getLast?_concat, List.dropLast_concat]
    rfl

theorem run_induction (Q : MemoryManager → Prop)
    (hstep : ∀ (mm : MemoryManager) (op : Op), Q mm → Q (step mm op)) :
    ∀ (ops : List Op) (mm : MemoryManager), Q mm → Q (run mm ops) := by
  intro ops
  induction ops with
  | nil => intro mm h; exact h
  | cons op ops ih =>
    intro mm h
    exact ih (step mm op) (hstep mm op h)

theorem allocBlock_clean (h : MemoryBlock) (pid size : Int) :
    ∀ b ∈ allocBlock h pid size, hole b = true → b.processID = -1 := by
  intro b hb hh
  unfold allocBlock at hb
  by_cases hex : h.size = size
  · rw [if_pos hex, List.mem_singleton] at hb
    subst hb
    simp [hole] at hh
  · rw [if_neg hex] at hb
    simp only [List.mem_cons, List.mem_singleton, List.not_mem_nil, or_false] at hb
    rcases hb with rfl | rfl
    · simp [hole] at hh
    · rfl

theorem freeBlock_clean (prev : Option MemoryBlock) (P : MemoryBlock)
    (rest : List MemoryBlock)
    (hprev : ∀ p, prev = some p → hole p = true → p.processID = -1)
    (hrest : ∀ b ∈ rest, hole b = true → b.processID = -1) :
    ∀ b ∈ (freeBlock prev P rest).1, hole b = true → b.processID = -1 := by
  have hpl : ∀ b ∈ prev.toList, hole b = true → b.processID = -1 := by
    intro b hb
    rcases prev with _ | p
    · simp at hb
    · have : b = p := by simpa using hb
      subst this
      exact hprev b rfl
  rcases next_cases rest with hn | ⟨n, after, rfl, hn⟩
  · by_cases hp : isHoleAt prev = false
    · rw [freeBlock_none_none prev P rest hp hn]
      intro b hb hh
      rcases List.mem_append.1 hb with hb | hb
      · exact hpl b hb hh
      · rcases List.mem_cons.1 hb with rfl | hb
        · rfl
        · exact hrest b hb hh
    · rcases prev with _ | p
      · exact absurd rfl hp
      · have hph : hole p = true := by simpa [isHoleAt] using hp
        rw [freeBlock_prev_none p P rest hph hn]
        intro b hb hh
        rcases List.mem_cons.1 hb with rfl | hb
        · exact hprev p rfl hph
        · exact hrest b hb hh
  · have hafter : ∀ b ∈ after, hole b = true → b.processID = -1 := fun b hb =>
      hrest b (List.mem_cons_of_mem _ hb)
    by_cases hp : isHoleAt prev = false
    · rw [freeBlock_none_next prev P n after hp hn]
      intro b hb hh
      rcases List.mem_append.1 hb with hb | hb
      · exact hpl b hb hh
      · rcases List.mem_cons.1 hb with rfl | hb
        · rfl
        · exact hafter b hb hh
    · rcases prev with _ | p
      · exact absurd rfl hp
      · have hph : hole p = true := by simpa [isHoleAt] using hp
        rw [freeBlock_prev_next p P n after hph hn]
        intro b hb hh
        rcases List.mem_cons.1 hb with rfl | hb
        · exact hprev p rfl hph
        · exact hafter b hb hh

theorem clean_allocateMemory (mm : MemoryManager) (pid size algo : Int)
    (hc : ∀ b ∈ mm.head, hole b = true → b.processID = -1) :
    ∀ b ∈ (allocateMemory mm pid size algo).2.head, hole b = true → b.processID = -1 := by
  rcases allocateMemory_cases mm pid size algo with h | ⟨_, _, pre, cur, post, h1, _, h3⟩
  · rw [h]; exact hc
  · rw [h3, allocateAt_split mm pid size pre cur post h1]
    intro b hb hh
    have hb2 : b ∈ pre ++ allocBlock cur pid size ++ post := hb
    rcases List.mem_append.1 hb2 with hb3 | hb3
    · rcases List.mem_append.1 hb3 with hb4 | hb4
      · exact hc b (by rw [h1]; exact List.mem_append_left _ hb4) hh
      · exact allocBlock_clean cur pid size b hb4 hh
    · exact hc b (by rw [h1]; exact List.mem_append_right _ (List.mem_cons_of_mem _ hb3)) hh

theorem clean_deallocateMemory (mm : MemoryManager) (pid : Int)
    (hc : ∀ b ∈ mm.head, hole b = true → b.processID = -1) :
    ∀ b ∈ (deallocateMemory mm pid).2.head, hole b = true → b.processID = -1 := by
  rcases deallocateMemory_result mm pid with ⟨_, h⟩ | ⟨hex, _⟩
  · rw [h]; exact hc
  · obtain ⟨pre, P, post, hl, hP, hfirst⟩ := first_match_split pid mm.head hex
    rw [deallocateMemory_split mm pid pre P post hl hP hfirst]
    intro b hb hh
    have hb2 : b ∈ pre.dropLast ++ (freeBlock pre.getLast? P post).1 := hb
    have hpre : ∀ x ∈ pre, hole x = true → x.processID = -1 := fun x hx =>
      hc x (by rw [hl]; exact List.mem_append_left _ hx)
    rcases List.mem_append.1 hb2 with hb3 | hb3
    · exact hpre b (List.mem_of_mem_dropLast hb3) hh
    · refine freeBlock_clean pre.getLast? P post ?_ ?_ b hb3 hh
      · intro p hp
        exact hpre p (List.mem_of_getLast?_eq_some hp)
      · intro x hx
        exact hc x (by rw [hl]; exact List.mem_append_right _ (List.mem_cons_of_mem _ hx))

theorem reachable_clean (total os : Int) (mm : MemoryManager) (hr : Reachable total os mm) :
    ∀ b ∈ mm.head, hole b = true → b.processID = -1 := by
  obtain ⟨ops, rfl⟩ := hr
  refine run_induction (fun m => ∀ b ∈ m.head, hole b = true → b.processID = -1) ?_ ops _ ?_
  · intro m op hm
    cases op with
    | alloc pid size algo => exact clean_allocateMemory m pid size algo hm
    | dealloc pid => exact clean_deallocateMemory m pid hm
  · intro b hb _
    have : b = createBlock 1 os (total - 1) (-1) := by
      simpa [initializeMemory] using hb
    rw [this]
    rfl

/-! ## C15 and C16: the effect of a successful deallocation -/

/-- C15 (coalescing result of deallocate).  In every reachable state whose first occupied
block with `processID == id` is `P` (the list is `pre ++ P :: post`), `deallocateMemory(id)`
replaces the run `L ++ P :: R`, where `L` is the block just before `P` when that block is a
hole (else empty) and `R` is the block just after `P` when that block is a hole (else
empty), by exactly one hole `merged` with `processID == -1` that starts where the leftmost
replaced block starts, ends where the rightmost replaced block ends and has
`size == end - start + 1`; the blocks before and after the run are kept as they are, in
the same order. -/
theorem C15_coalescing (total os : Int) (h0 : 0 ≤ os) (h1 : os < total) (mm : MemoryManager)
    (hr : Reachable total os mm) (pid : Int) (pre : List MemoryBlock) (P : MemoryBlock)
    (post : List MemoryBlock) (hl : mm.head = pre ++ P :: post)
    (hP : hole P = false ∧ P.processID = pid)
    (hfirst : ∀ b ∈ pre, ¬ (hole b = false ∧ b.processID = pid)) :
    ∃ (keptPre L R keptPost : List MemoryBlock) (merged : MemoryBlock),
      pre = keptPre ++ L ∧ post = R ++ keptPost ∧
      ((L = [] ∧ isHoleAt pre.getLast? = false) ∨ ∃ q, L = [q] ∧ hole q = true) ∧
      ((R = [] ∧ isHoleAt post.head? = false) ∨ ∃ n, R = [n] ∧ hole n = true) ∧
      (deallocateMemory mm pid).2.head = keptPre ++ merged :: keptPost ∧
      hole merged = true ∧ merged.processID = -1 ∧
      (L ++ P :: R).head?.map (fun b => b.startAddress) = some merged.startAddress ∧
      (L ++ P :: R).getLast?.map (fun b => b.endAddress) = some merged.endAddress ∧
      merged.size = merged.endAddress - merged.startAddress + 1 := by
  have _ := h0
  have hwf : WellFormed P :=
    (inv_reachable total os h1 mm hr).2.2.2.1.2.2 P (by rw [hl]; simp)
  have hclean := reachable_clean total os mm hr
  rw [deallocateMemory_split mm pid pre P post hl hP hfirst]
  rcases prev_cases pre with hp | ⟨pre2, q, rfl, hq⟩
  · rcases next_cases post with hn | ⟨n, after, rfl, hn⟩
    · refine ⟨pre, [], [], post, { P with isHole := 1, processID := -1 }, by simp, by simp,
        Or.inl ⟨rfl, hp⟩, Or.inl ⟨rfl, hn⟩, ?_, by simp [hole], rfl, rfl, rfl, hwf.2⟩
      show pre.dropLast ++ (freeBlock pre.getLast? P post).1 = _
      rw [freeBlock_none_none _ P post hp hn, ← List.append_assoc, dropLast_append_toList]
    · refine ⟨pre, [], [n], after,
        { isHole := 1, startAddress := P.startAddress, endAddress := n.endAddress,
          size := n.endAddress - P.startAddress + 1, processID := -1 }, by simp, by simp,
        Or.inl ⟨rfl, hp⟩, Or.inr ⟨n, rfl, hn⟩, ?_, by simp [hole], rfl, rfl, rfl, rfl⟩
      show pre.dropLast ++ (freeBlock pre.getLast? P (n :: after)).1 = _
      rw [freeBlock_none_next _ P n after hp hn, ← List.append_assoc, dropLast_append_toList]
  · have hqpid : q.processID = -1 := hclean q (by rw [hl]; simp) hq
    have e1 : (pre2 ++ [q]).getLast? = some q := List.getLast?_concat _
    have e2 : (pre2 ++ [q]).dropLast = pre2 := List.dropLast_concat
    rcases next_cases post with hn | ⟨n, after, rfl, hn⟩
    · refine ⟨pre2, [q], [], post,
        { isHole := q.isHole, startAddress := q.startAddress, endAddress := P.endAddress,
          size := P.endAddress - q.startAddress + 1, processID := q.processID }, rfl,
        by simp, Or.inr ⟨q, rfl, hq⟩, Or.inl ⟨rfl, hn⟩, ?_, hq, hqpid, rfl, rfl, rfl⟩
      show (pre2 ++ [q]).dropLast ++ (freeBlock (pre2 ++ [q]).getLast? P post).1 = _
      rw [e1, e2, freeBlock_prev_none q P post hq hn]
    · refine ⟨pre2, [q], [n], after,
        { isHole := q.isHole, startAddress := q.startAddress, endAddress := n.endAddress,
          size := n.endAddress - q.startAddress + 1, processID := q.processID }, rfl,
        by simp, Or.inr ⟨q, rfl, hq⟩, Or.inr ⟨n, rfl, hn⟩, ?_, hq, hqpid, rfl, rfl, rfl⟩
      show (pre2 ++ [q]).dropLast ++ (freeBlock (pre2 ++ [q]).getLast? P (n :: after)).1 = _
      rw [e1, e2, freeBlock_prev_next q P n after hq hn]

theorem C15_coalescing_witness :
    Reachable 1024 0 mergeState ∧
    mergeState.head =
      [{ isHole := 0, startAddress := 0, endAddress := 255, size := 256, processID := 1 },
       { isHole := 0, startAddress := 256, endAddress := 355, size := 100, processID := 2 },
       { isHole := 1, startAddress := 356, endAddress := 455, size := 100, processID := -1 },
       { isHole := 0, startAddress := 456, endAddress := 1023, size := 568,
         processID := 3 }] ∧
    (deallocateMemory mergeState 2).2.head =
      [{ isHole := 0, startAddress := 0, endAddress := 255, size := 256, processID := 1 },
       { isHole := 1, startAddress := 256, endAddress := 455, size := 200, processID := -1 },
       { isHole := 0, startAddress := 456, endAddress := 1023, size := 568,
         processID := 3 }] ∧
    ∃ (keptPre L R keptPost : List MemoryBlock) (merged : MemoryBlock),
      mergeState.head.take 1 = keptPre ++ L ∧ mergeState.head.drop 2 = R ++ keptPost ∧
      ((L = [] ∧ isHoleAt (mergeState.head.take 1).getLast? = false) ∨
        ∃ q, L = [q] ∧ hole q = true) ∧
      ((R = [] ∧ isHoleAt (mergeState.head.drop 2).head? = false) ∨
        ∃ n, R = [n] ∧ hole n = true) ∧
      (deallocateMemory mergeState 2).2.head = keptPre ++ merged :: keptPost ∧
      hole merged = true ∧ merged.processID = -1 ∧
      (L ++ { isHole := 0, startAddress := 256, endAddress := 355, size := 100,
              processID := 2 } :: R).head?.map (fun b => b.startAddress) =
        some merged.startAddress ∧
      (L ++ { isHole := 0, startAddress := 256, endAddress := 355, size := 100,
              processID := 2 } :: R).getLast?.map (fun b => b.endAddress) =
        some merged.endAddress ∧
      merged.size = merged.endAddress - merged.startAddress + 1 :=
  ⟨reachable_merge, by decide, by decide,
    C15_coalescing 1024 0 (by decide) (by decide) mergeState reachable_merge 2
      (mergeState.head.take 1)
      { isHole := 0, startAddress := 256, endAddress := 355, size := 100, processID := 2 }
      (mergeState.head.drop 2) (by decide) (by decide) (by decide)⟩

theorem freeBlock_delta (prev : Option MemoryBlock) (P : MemoryBlock)
    (rest : List MemoryBlock) :
    (freeBlock prev P rest).2 =
      1 - ((if isHoleAt prev = true then 1 else 0) +
            (if isHoleAt rest.head? = true then 1 else 0)) ∧
    (((freeBlock prev P rest).1.length : Int) =
      (prev.toList.length : Int) + 1 + (rest.length : Int) -
        ((if isHoleAt prev = true then 1 else 0) +
          (if isHoleAt rest.head? = true then 1 else 0))) := by
  rcases next_cases rest with hn | ⟨n, after, rfl, hn⟩
  · by_cases hp : isHoleAt prev = false
    · rw [freeBlock_none_none prev P rest hp hn, hp, hn]
      simp
      omega
    · rcases prev with _ | p
      · exact absurd rfl hp
      · have hph : hole p = true := by simpa [isHoleAt] using hp
        have hp2 : isHoleAt (some p) = true := hph
        rw [freeBlock_prev_none p P rest hph hn, hp2, hn]
        simp
        omega
  · have hn2 : isHoleAt (n :: after).head? = true := hn
    by_cases hp : isHoleAt prev = false
    · rw [freeBlock_none_next prev P n after hp hn, hp, hn2]
      simp
      omega
    · rcases prev with _ | p
      · exact absurd rfl hp
      · have hph : hole p = true := by simpa [isHoleAt] using hp
        have hp2 : isHoleAt (some p) = true := hph
        rw [freeBlock_prev_next p P n after hph hn, hp2, hn2]
        simp

/-- C16 (counter updates of deallocate).  In every state in which the first occupied block
with `processID == id` is `P` (the list is `pre ++ P :: post`), with `k` the number of
holes among the block just before `P` and the block just after `P`, `deallocateMemory(id)`
returns `1`, decreases `numProcesses` by 1, increases `freeMemory` by exactly `P.size`,
changes `numHoles` by `1 - k`, and shortens the list by `k` blocks: each merged neighbour
is counted exactly once. -/
theorem C16_dealloc_counters (mm : MemoryManager) (pid : Int) (pre : List MemoryBlock)
    (P : MemoryBlock) (post : List MemoryBlock) (hl : mm.head = pre ++ P :: post)
    (hP : hole P = false ∧ P.processID = pid)
    (hfirst : ∀ b ∈ pre, ¬ (hole b = false ∧ b.processID = pid)) :
    (deallocateMemory mm pid).1 = 1 ∧
    (deallocateMemory mm pid).2.numProcesses = mm.numProcesses - 1 ∧
    (deallocateMemory mm pid).2.freeMemory = mm.freeMemory + P.size ∧
    (deallocateMemory mm pid).2.numHoles =
      mm.numHoles + 1 - ((if isHoleAt pre.getLast? = true then 1 else 0) +
        (if isHoleAt post.head? = true then 1 else 0)) ∧
    ((deallocateMemory mm pid).2.head.length : Int) =
      (mm.head.length : Int) - ((if isHoleAt pre.getLast? = true then 1 else 0) +
        (if isHoleAt post.head? = true then 1 else 0)) := by
  rw [deallocateMemory_split mm pid pre P post hl hP hfirst]
  obtain ⟨d1, d2⟩ := freeBlock_delta pre.getLast? P post
  refine ⟨rfl, rfl, rfl, ?_, ?_⟩
  · show mm.numHoles + (freeBlock pre.getLast? P post).2 = _
    rw [d1]
    omega
  · show ((pre.dropLast ++ (freeBlock pre.getLast? P post).1).length : Int) = _
    have e : (pre.length : Int) = (pre.dropLast.length : Int) + (pre.getLast?.toList.length : Int) := by
      conv_lhs => rw [← dropLast_append_toList pre]
      rw [List.length_append]
      push_cast
      rfl
    rw [List.length_append, hl, List.length_append, List.length_cons]
    push_cast
    rw [d2]
    omega

theorem C16_dealloc_counters_witness :
    (deallocateMemory holesState 4).1 = 1 ∧
    (deallocateMemory holesState 4).2.numProcesses = holesState.numProcesses - 1 ∧
    (deallocateMemory holesState 4).2.freeMemory = holesState.freeMemory + 10 ∧
    (deallocateMemory holesState 4).2.numHoles = holesState.numHoles + 1 - 2 ∧
    (deallocateMemory mergeState 2).2.numHoles = mergeState.numHoles + 1 - 1 ∧
    (deallocateMemory mergeState 1).2.numHoles = mergeState.numHoles + 1 - 0 :=
  have h := C16_dealloc_counters holesState 4 (holesState.head.take 3)
    { isHole := 0, startAddress := 260, endAddress := 269, size := 10, processID := 4 }
    (holesState.head.drop 4) (by decide) (by decide) (by decide)
  ⟨h.1, h.2.1, h.2.2.1, h.2.2.2.1, by decide, by decide⟩

/-! ## C17 to C20: the fragmentation metric and the initial state -/

theorem largestHoleScan_spec :
    ∀ (l : List MemoryBlock) (a : Int),
      a ≤ largestHoleScan l a ∧
      (∀ b ∈ l, hole b = true → b.size ≤ largestHoleScan l a) ∧
      (largestHoleScan l a = a ∨ ∃ b ∈ l, hole b = true ∧ b.size = largestHoleScan l a) := by
  intro l
  induction l with
  | nil => intro a; exact ⟨le_refl _, by simp, Or.inl rfl⟩
  | cons c rest ih =>
    intro a
    by_cases hc : c.isHole ≠ 0 ∧ c.size > a
    · have e : largestHoleScan (c :: rest) a = largestHoleScan rest c.size := by
        show (if c.isHole ≠ 0 ∧ c.size > a then largestHoleScan rest c.size
          else largestHoleScan rest a) = _
        rw [if_pos hc]
      rw [e]
      obtain ⟨i1, i2, i3⟩ := ih c.size
      refine ⟨by omega, ?_, ?_⟩
      · intro b hb hh
        rcases List.mem_cons.1 hb with rfl | hb
        · exact i1
        · exact i2 b hb hh
      · right
        rcases i3 with h | ⟨b, hb, hh, hs⟩
        · exact ⟨c, List.mem_cons_self _ _, (hole_iff c).2 hc.1, h.symm⟩
        · exact ⟨b, List.mem_cons_of_mem _ hb, hh, hs⟩
    · have e : largestHoleScan (c :: rest) a = largestHoleScan rest a := by
        show (if c.isHole ≠ 0 ∧ c.size > a then largestHoleScan rest c.size
          else largestHoleScan rest a) = _
        rw [if_neg hc]
      rw [e]
      obtain ⟨i1, i2, i3⟩ := ih a
      refine ⟨i1, ?_, ?_⟩
      · intro b hb hh
        rcases List.mem_cons.1 hb with rfl | hb
        · by_contra hlt
          exact hc ⟨(hole_iff b).1 hh, by omega⟩
        · exact i2 b hb hh
      · rcases i3 with h | ⟨b, hb, hh, hs⟩
        · exact Or.inl h
        · exact Or.inr ⟨b, List.mem_cons_of_mem _ hb, hh, hs⟩

theorem calculateFragmentation_eq (mm : MemoryManager) (hfree : mm.freeMemory ≠ 0)
    (huser : mm.userMemory ≠ 0) :
    calculateFragmentation mm =
      some (((mm.freeMemory - largestHoleScan mm.head 0 : Int) : ℚ) /
        (mm.userMemory : ℚ) * 100) := by
  unfold calculateFragmentation
  rw [if_neg hfree]
  simp only
  rw [if_neg huser]

theorem holeBytes_nonneg :
    ∀ l : List MemoryBlock, (∀ b ∈ l, WellFormed b) → 0 ≤ holeBytes l := by
  intro l
  induction l with
  | nil => intro _; exact le_refl _
  | cons c rest ih =>
    intro hw
    have h1 := ih (fun b hb => hw b (List.mem_cons_of_mem _ hb))
    obtain ⟨w1, w2⟩ := hw c (List.mem_cons_self _ _)
    rw [holeBytes_cons]
    by_cases hh : hole c = true
    · rw [if_pos hh]; omega
    · rw [if_neg hh]; omega

theorem procBytes_nonneg :
    ∀ l : List MemoryBlock, (∀ b ∈ l, WellFormed b) → 0 ≤ procBytes l := by
  intro l
  induction l with
  | nil => intro _; exact le_refl _
  | cons c rest ih =>
    intro hw
    have h1 := ih (fun b hb => hw b (List.mem_cons_of_mem _ hb))
    obtain ⟨w1, w2⟩ := hw c (List.mem_cons_self _ _)
    rw [procBytes_cons]
    by_cases hh : hole c = true
    · rw [if_pos hh]; omega
    · rw [if_neg hh]; omega

theorem hole_le_holeBytes :
    ∀ l : List MemoryBlock, (∀ b ∈ l, WellFormed b) →
      ∀ b ∈ l, hole b = true → b.size ≤ holeBytes l := by
  intro l
  induction l with
  | nil => intro _ b hb; simp at hb
  | cons c rest ih =>
    intro hw b hb hh
    have hwr : ∀ x ∈ rest, WellFormed x := fun x hx => hw x (List.mem_cons_of_mem _ hx)
    have h1 := holeBytes_nonneg rest hwr
    obtain ⟨w1, w2⟩ := hw c (List.mem_cons_self _ _)
    rw [holeBytes_cons]
    rcases List.mem_cons.1 hb with rfl | hb
    · rw [if_pos hh]; omega
    · have := ih hwr b hb hh
      by_cases hc : hole c = true
      · rw [if_pos hc]; omega
      · rw [if_neg hc]; omega

theorem holeBytes_no_holes :
    ∀ l : List MemoryBlock, (∀ b ∈ l, hole b = false) → holeBytes l = 0 := by
  intro l
  induction l with
  | nil => intro _; rfl
  | cons c rest ih =>
    intro h
    have hc : ¬ hole c = true := by rw [h c (List.mem_cons_self _ _)]; simp
    rw [holeBytes_cons, if_neg hc, ih (fun b hb => h b (List.mem_cons_of_mem _ hb))]
    rfl

theorem one_hole_bytes :
    ∀ l : List MemoryBlock, l.countP hole = 1 →
      ∃ b ∈ l, hole b = true ∧ holeBytes l = b.size := by
  intro l
  induction l with
  | nil => intro h; simp at h
  | cons c rest ih =>
    intro h
    rw [List.countP_cons] at h
    by_cases hc : hole c = true
    · rw [if_pos hc] at h
      have h0 : rest.countP hole = 0 := by omega
      have hno : ∀ b ∈ rest, hole b = false := by
        intro b hb
        have := (List.countP_eq_zero.1 h0) b hb
        simpa using this
      refine ⟨c, List.mem_cons_self _ _, hc, ?_⟩
      rw [holeBytes_cons, if_pos hc, holeBytes_no_holes rest hno]
      omega
    · rw [if_neg hc] at h
      obtain ⟨b, hb, hh, hs⟩ := ih (by omega)
      refine ⟨b, List.mem_cons_of_mem _ hb, hh, ?_⟩
      rw [holeBytes_cons, if_neg hc, hs]
      omega

theorem reachable_fragment_bounds (total os : Int) (h1 : os < total) (mm : MemoryManager)
    (hr : Reachable total os mm) :
    0 < mm.userMemory ∧ (∀ b ∈ mm.head, hole b = true → 1 ≤ b.size) ∧
    0 ≤ largestHoleScan mm.head 0 ∧ largestHoleScan mm.head 0 ≤ mm.freeMemory ∧
    mm.freeMemory ≤ mm.userMemory ∧
    (mm.freeMemory ≠ 0 → 1 ≤ largestHoleScan mm.head 0) := by
  obtain ⟨_, _, hu, ⟨ht, _, hw⟩, _, _, hf⟩ := inv_reachable total os h1 mm hr
  obtain ⟨s1, s2, s3⟩ := largestHoleScan_spec mm.head 0
  have hb := bytes_total mm.head os (total - 1) ht hw
  have hp := procBytes_nonneg mm.head hw
  have hh := holeBytes_nonneg mm.head hw
  have hsz : ∀ b ∈ mm.head, hole b = true → 1 ≤ b.size := by
    intro b hb _
    obtain ⟨w1, w2⟩ := hw b hb
    omega
  have hL : largestHoleScan mm.head 0 ≤ mm.freeMemory := by
    rcases s3 with h | ⟨b, hb, hbh, hbs⟩
    · rw [h, hf]; exact hh
    · rw [← hbs, hf]; exact hole_le_holeBytes mm.head hw b hb hbh
  refine ⟨by omega, hsz, s1, hL, by omega, ?_⟩
  intro hne
  by_contra hlt
  have hno : ∀ b ∈ mm.head, hole b = false := by
    intro b hb
    by_contra hbh
    have hbh2 : hole b = true := by simpa using hbh
    have := s2 b hb hbh2
    have := hsz b hb hbh2
    omega
  rw [hf, holeBytes_no_holes mm.head hno] at hne
  exact hne rfl

theorem reachable_full : Reachable 1024 0 fullState := ⟨[Op.alloc 1 1024 0], rfl⟩

theorem twoHolesState_value :
    calculateFragmentation twoHolesState = some (50 * 200 / 1000) := by
  rw [calculateFragmentation_eq _ (by decide) (by decide)]
  have h0 : largestHoleScan twoHolesState.head 0 = 100 := by decide
  have h1 : twoHolesState.freeMemory = 200 := by decide
  have h2 : twoHolesState.userMemory = 1000 := by decide
  rw [h0, h1, h2]
  norm_num

theorem invertedState_value : calculateFragmentation invertedState = some 100 := by
  rw [calculateFragmentation_eq _ (by decide) (by decide)]
  have h0 : largestHoleScan invertedState.head 0 = 0 := by decide
  have h1 : invertedState.freeMemory = -2 := by decide
  have h2 : invertedState.userMemory = -2 := by decide
  rw [h0, h1, h2]
  norm_num

/-- C20 (initial state).  For all `total` and `os` with `0 ≤ os < total`,
`initializeMemory(total, os)` yields `totalMemory == total`, `osMemory == os`,
`userMemory == total - os`, `freeMemory == total - os`, `numProcesses == 0`, `numHoles == 1`
and a list of exactly one block: a hole with `startAddress == os`,
`endAddress == total - 1`, `size == total - os` and `processID == -1`. -/
theorem C20_initial_state (total os : Int) (h0 : 0 ≤ os) (h1 : os < total) :
    initializeMemory total os =
      { head := [{ isHole := 1, startAddress := os, endAddress := total - 1,
                   size := total - os, processID := -1 }]
        totalMemory := total
        osMemory := os
        userMemory := total - os
        freeMemory := total - os
        numProcesses := 0
        numHoles := 1 } := by
  have _ := h0
  have _ := h1
  have hsz : total - 1 - os + 1 = total - os := by omega
  unfold initializeMemory createBlock
  rw [hsz]

theorem C20_initial_state_witness :
    (0 : Int) ≤ 256 ∧ (256 : Int) < 1024 ∧
    initializeMemory 1024 256 =
      { head := [{ isHole := 1, startAddress := 256, endAddress := 1023, size := 768,
                   processID := -1 }]
        totalMemory := 1024
        osMemory := 256
        userMemory := 768
        freeMemory := 768
        numProcesses := 0
        numHoles := 1 } :=
  ⟨by decide, by decide, C20_initial_state 1024 256 (by decide) (by decide)⟩

/-! ## Owners of the occupied blocks -/

theorem reachable_duplicate : Reachable 1024 0 duplicateState := ⟨duplicateOps, rfl⟩

theorem reachable_sentinel : Reachable 1024 0 sentinelState := ⟨[Op.alloc (-1) 10 0], rfl⟩

theorem reachable_scenario : Reachable 1024 0 scenarioState := ⟨scenarioOps, rfl⟩

theorem deallocateMemory_shape (mm : MemoryManager) (pid : Int) (pre : List MemoryBlock)
    (P : MemoryBlock) (post : List MemoryBlock) (hl : mm.head = pre ++ P :: post)
    (hP : hole P = false ∧ P.processID = pid)
    (hfirst : ∀ b ∈ pre, ¬ (hole b = false ∧ b.processID = pid)) :
    ∃ (keptPre L R keptPost : List MemoryBlock) (merged : MemoryBlock),
      pre = keptPre ++ L ∧ post = R ++ keptPost ∧
      (∀ b ∈ L, hole b = true) ∧ (∀ b ∈ R, hole b = true) ∧ hole merged = true ∧
      (deallocateMemory mm pid).2.head = keptPre ++ merged :: keptPost := by
  rw [deallocateMemory_split mm pid pre P post hl hP hfirst]
  rcases prev_cases pre with hp | ⟨pre2, q, rfl, hq⟩
  · rcases next_cases post with hn | ⟨n, after, rfl, hn⟩
    · refine ⟨pre, [], [], post, { P with isHole := 1, processID := -1 }, by simp, by simp,
        by simp, by simp, by simp [hole], ?_⟩
      show pre.dropLast ++ (freeBlock pre.getLast? P post).1 = _
      rw [freeBlock_none_none _ P post hp hn, ← List.append_assoc, dropLast_append_toList]
    · refine ⟨pre, [], [n], after,
        { isHole := 1, startAddress := P.startAddress, endAddress := n.endAddress,
          size := n.endAddress - P.startAddress + 1, processID := -1 }, by simp, by simp,
        by simp, by simpa using hn, by simp [hole], ?_⟩
      show pre.dropLast ++ (freeBlock pre.getLast? P (n :: after)).1 = _
      rw [freeBlock_none_next _ P n after hp hn, ← List.append_assoc, dropLast_append_toList]
  · have e1 : (pre2 ++ [q]).getLast? = some q := List.getLast?_concat _
    have e2 : (pre2 ++ [q]).dropLast = pre2 := List.dropLast_concat
    rcases next_cases post with hn | ⟨n, after, rfl, hn⟩
    · refine ⟨pre2, [q], [], post,
        { isHole := q.isHole, startAddress := q.startAddress, endAddress := P.endAddress,
          size := P.endAddress - q.startAddress + 1, processID := q.processID }, rfl,
        by simp, by simpa using hq, by simp, hq, ?_⟩
      show (pre2 ++ [q]).dropLast ++ (freeBlock (pre2 ++ [q]).getLast? P post).1 = _
      rw [e1, e2, freeBlock_prev_none q P post hq hn]
    · refine ⟨pre2, [q], [n], after,
        { isHole := q.isHole, startAddress := q.startAddress, endAddress := n.endAddress,
          size := n.endAddress - q.startAddress + 1, processID := q.processID }, rfl,
        by simp, by simpa using hq, by simpa using hn, hq, ?_⟩
      show (pre2 ++ [q]).dropLast ++ (freeBlock (pre2 ++ [q]).getLast? P (n :: after)).1 = _
      rw [e1, e2, freeBlock_prev_next q P n after hq hn]

theorem occupiedIds_append (a b : List MemoryBlock) :
    occupiedIds (a ++ b) = occupiedIds a ++ occupiedIds b := by
  simp [occupiedIds]

theorem occupiedIds_cons_hole (b : MemoryBlock) (l : List MemoryBlock) (h : hole b = true) :
    occupiedIds (b :: l) = occupiedIds l := by
  simp [occupiedIds, h]

theorem occupiedIds_cons_proc (b : MemoryBlock) (l : List MemoryBlock) (h : hole b = false) :
    occupiedIds (b :: l) = b.processID :: occupiedIds l := by
  simp [occupiedIds, h]

theorem occupiedIds_holes :
    ∀ l : List MemoryBlock, (∀ b ∈ l, hole b = true) → occupiedIds l = [] := by
  intro l
  induction l with
  | nil => intro _; rfl
  | cons c rest ih =>
    intro h
    rw [occupiedIds_cons_hole c rest (h c (List.mem_cons_self _ _))]
    exact ih (fun b hb => h b (List.mem_cons_of_mem _ hb))

theorem occupiedIds_allocBlock (h : MemoryBlock) (pid size : Int) :
    occupiedIds (allocBlock h pid size) = [pid] := by
  unfold allocBlock
  by_cases hex : h.size = size
  · rw [if_pos hex]
    simp [occupiedIds, hole]
  · rw [if_neg hex]
    simp [occupiedIds, hole, createBlock]

theorem mem_occupiedIds (l : List MemoryBlock) (pid : Int) :
    pid ∈ occupiedIds l ↔ ∃ b ∈ l, hole b = false ∧ b.processID = pid := by
  simp [occupiedIds, and_assoc]

theorem allocateMemory_ids (mm : MemoryManager) (pid size algo : Int) :
    allocateMemory mm pid size algo = (-1, mm) ∨
    ∃ l1 l2 : List Int, occupiedIds mm.head = l1 ++ l2 ∧
      occupiedIds (allocateMemory mm pid size algo).2.head = l1 ++ pid :: l2 := by
  rcases allocateMemory_cases mm pid size algo with h | ⟨_, _, pre, cur, post, h1, h2, h3⟩
  · exact Or.inl h
  · right
    have hh := ((fits_iff size cur).1 h2).1
    refine ⟨occupiedIds pre, occupiedIds post, ?_, ?_⟩
    · rw [h1, occupiedIds_append, occupiedIds_cons_hole cur post hh]
    · rw [h3, allocateAt_split mm pid size pre cur post h1]
      show occupiedIds (pre ++ allocBlock cur pid size ++ post) = _
      rw [occupiedIds_append, occupiedIds_append, occupiedIds_allocBlock]
      simp

theorem deallocateMemory_ids (mm : MemoryManager) (pid : Int) :
    (pid ∉ occupiedIds mm.head ∧ deallocateMemory mm pid = (0, mm)) ∨
    ∃ l1 l2 : List Int, occupiedIds mm.head = l1 ++ pid :: l2 ∧ pid ∉ l1 ∧
      occupiedIds (deallocateMemory mm pid).2.head = l1 ++ l2 := by
  rcases deallocateMemory_result mm pid with ⟨hno, h⟩ | ⟨hex, _⟩
  · left
    refine ⟨?_, h⟩
    rw [mem_occupiedIds]
    rintro ⟨b, hb, hq⟩
    exact hno b hb hq
  · right
    obtain ⟨pre, P, post, hl, hP, hfirst⟩ := first_match_split pid mm.head hex
    obtain ⟨keptPre, L, R, keptPost, merged, e1, e2, hL, hR, hm, hres⟩ :=
      deallocateMemory_shape mm pid pre P post hl hP hfirst
    refine ⟨occupiedIds keptPre, occupiedIds keptPost, ?_, ?_, ?_⟩
    · rw [hl, e1, e2, occupiedIds_append, occupiedIds_append, occupiedIds_holes L hL,
        occupiedIds_cons_proc P _ hP.1, occupiedIds_append, occupiedIds_holes R hR, hP.2]
      simp
    · rw [mem_occupiedIds]
      rintro ⟨b, hb, hq⟩
      exact hfirst b (by rw [e1]; exact List.mem_append_left _ hb) hq
    · rw [hres, occupiedIds_append, occupiedIds_cons_hole merged keptPost hm]

/-! ## C21 and C22: owner ids -/

theorem fresh_run_nodup :
    ∀ (ops : List Op) (mm : MemoryManager), (occupiedIds mm.head).Nodup →
      freshIds mm ops = true → (occupiedIds (run mm ops).head).Nodup := by
  intro ops
  induction ops with
  | nil => intro mm h _; exact h
  | cons op ops ih =>
    intro mm hnd hfresh
    cases op with
    | alloc pid size algo =>
      have hf : pid ∉ occupiedIds mm.head ∧
          freshIds (step mm (Op.alloc pid size algo)) ops = true := by
        simpa [freshIds] using hfresh
      refine ih (step mm (Op.alloc pid size algo)) ?_ hf.2
      show (occupiedIds (allocateMemory mm pid size algo).2.head).Nodup
      rcases allocateMemory_ids mm pid size algo with h | ⟨l1, l2, e1, e2⟩
      · rw [h]; exact hnd
      · rw [e2]
        rw [e1] at hnd
        have hnot : pid ∉ l1 ++ l2 := by rw [← e1]; exact hf.1
        exact List.nodup_middle.2 (List.nodup_cons.2 ⟨hnot, hnd⟩)
    | dealloc pid =>
      have hf : freshIds (step mm (Op.dealloc pid)) ops = true := by
        simpa [freshIds] using hfresh
      refine ih (step mm (Op.dealloc pid)) ?_ hf
      show (occupiedIds (deallocateMemory mm pid).2.head).Nodup
      rcases deallocateMemory_ids mm pid with ⟨_, h⟩ | ⟨l1, l2, e1, _, e2⟩
      · rw [h]; exact hnd
      · rw [e2]
        rw [e1] at hnd
        exact (List.nodup_cons.1 (List.nodup_middle.1 hnd)).2

/-- C21, as stated, fails: `allocateMemory` accepts a process id that an occupied block
already carries, so after two allocations with id 1 the first two blocks of the list are
both occupied with `processID == 1`. -/
theorem C21_counterexample :
    Reachable 1024 0 duplicateState ∧
    duplicateState.head.get? 0 =
      some { isHole := 0, startAddress := 0, endAddress := 9, size := 10, processID := 1 } ∧
    duplicateState.head.get? 1 =
      some { isHole := 0, startAddress := 10, endAddress := 29, size := 20, processID := 1 } ∧
    ¬ (occupiedIds duplicateState.head).Nodup :=
  ⟨reachable_duplicate, by decide, by decide, by decide⟩

/-- C21 (owner uniqueness, amended).  In every state reached from
`initializeMemory(total, os)`, for any `total` and `os`, by a sequence of `allocateMemory` /
`deallocateMemory` calls in which every `allocateMemory` call uses a process id that no
occupied block carries at the time of the call, no two occupied blocks of the list carry
the same `processID`. -/
theorem C21_owner_uniqueness (total os : Int) (ops : List Op)
    (hfresh : freshIds (initializeMemory total os) ops = true) :
    (occupiedIds (run (initializeMemory total os) ops).head).Nodup := by
  refine fresh_run_nodup ops (initializeMemory total os) ?_ hfresh
  have : occupiedIds (initializeMemory total os).head = [] := by
    simp [occupiedIds, initializeMemory, createBlock, hole]
  rw [this]
  exact List.nodup_nil

theorem C21_owner_uniqueness_witness :
    freshIds (initializeMemory 1024 0) holesOps = true ∧
    occupiedIds holesState.head = [2, 4, 6] ∧
    (occupiedIds (run (initializeMemory 1024 0) holesOps).head).Nodup :=
  ⟨by decide, by decide, C21_owner_uniqueness 1024 0 holesOps (by decide)⟩

theorem step_proc_ids (mm : MemoryManager) (op : Op) (hop : usesSentinelId op = false)
    (hinv : ∀ b ∈ mm.head, hole b = false → b.processID ≠ -1) :
    ∀ b ∈ (step mm op).head, hole b = false → b.processID ≠ -1 := by
  have hids : ∀ m : MemoryManager,
      ((∀ b ∈ m.head, hole b = false → b.processID ≠ -1) ↔ (-1 : Int) ∉ occupiedIds m.head) := by
    intro m
    rw [mem_occupiedIds]
    constructor
    · rintro h ⟨b, hb, hh, hp⟩
      exact h b hb hh hp
    · intro h b hb hh hp
      exact h ⟨b, hb, hh, hp⟩
  rw [hids] at hinv ⊢
  cases op with
  | alloc pid size algo =>
    have hpid : pid ≠ -1 := by simpa [usesSentinelId] using hop
    show (-1 : Int) ∉ occupiedIds (allocateMemory mm pid size algo).2.head
    rcases allocateMemory_ids mm pid size algo with h | ⟨l1, l2, e1, e2⟩
    · rw [h]; exact hinv
    · rw [e2]
      rw [e1] at hinv
      intro hmem
      rcases List.mem_append.1 hmem with h | h
      · exact hinv (List.mem_append_left _ h)
      · rcases List.mem_cons.1 h with h | h
        · exact hpid h.symm
        · exact hinv (List.mem_append_right _ h)
  | dealloc pid =>
    show (-1 : Int) ∉ occupiedIds (deallocateMemory mm pid).2.head
    rcases deallocateMemory_ids mm pid with ⟨_, h⟩ | ⟨l1, l2, e1, _, e2⟩
    · rw [h]; exact hinv
    · rw [e2]
      rw [e1] at hinv
      intro hmem
      rcases List.mem_append.1 hmem with h | h
      · exact hinv (List.mem_append_left _ h)
      · exact hinv (List.mem_append_right _ (List.mem_cons_of_mem _ h))

theorem run_proc_ids :
    ∀ (ops : List Op) (mm : MemoryManager), ops.any usesSentinelId = false →
      (∀ b ∈ mm.head, hole b = false → b.processID ≠ -1) →
      ∀ b ∈ (run mm ops).head, hole b = false → b.processID ≠ -1 := by
  intro ops
  induction ops with
  | nil => intro mm _ h; exact h
  | cons op ops ih =>
    intro mm hops hinv
    have h2 : usesSentinelId op = false ∧ ops.any usesSentinelId = false := by
      simpa using hops
    exact ih (step mm op) h2.2 (step_proc_ids mm op h2.1 hinv)

/-- C22, as stated, fails: `allocateMemory` accepts the process id `-1`, and the block it
allocates is occupied although its `processID` is the hole sentinel. -/
theorem C22_counterexample :
    Reachable 1024 0 sentinelState ∧
    sentinelState.head.get? 0 =
      some { isHole := 0, startAddress := 0, endAddress := 9, size := 10, processID := -1 } ∧
    ¬ (∀ b ∈ sentinelState.head, (b.processID = -1 ↔ hole b = true)) :=
  ⟨reachable_sentinel, by decide, by decide⟩

/-- C22 (owner sentinel, amended).  In every state reached from
`initializeMemory(total, os)`, for any `total` and `os`, by `allocateMemory` /
`deallocateMemory` calls with arbitrary process ids, every hole has `processID == -1`; and
when no `allocateMemory` call of the sequence used the process id `-1`, a block has
`processID == -1` if and only if it is a hole. -/
theorem C22_owner_sentinel (total os : Int) (ops : List Op) :
    (∀ b ∈ (run (initializeMemory total os) ops).head, hole b = true → b.processID = -1) ∧
    (ops.any usesSentinelId = false →
      ∀ b ∈ (run (initializeMemory total os) ops).head,
        (b.processID = -1 ↔ hole b = true)) := by
  have h1 : ∀ b ∈ (run (initializeMemory total os) ops).head,
      hole b = true → b.processID = -1 :=
    reachable_clean total os _ ⟨ops, rfl⟩
  refine ⟨h1, ?_⟩
  intro hops b hb
  have h2 := run_proc_ids ops (initializeMemory total os) hops (by
    intro c hc hh
    have : c = createBlock 1 os (total - 1) (-1) := by simpa [initializeMemory] using hc
    rw [this] at hh
    exact absurd hh (by simp [hole, createBlock])) b hb
  constructor
  · intro hp
    by_contra hh
    exact h2 (by simpa using hh) hp
  · exact h1 b hb

theorem C22_owner_sentinel_witness :
    holesOps.any usesSentinelId = false ∧
    (∀ b ∈ (run (initializeMemory 1024 0) holesOps).head,
      (b.processID = -1 ↔ hole b = true)) ∧
    (∀ b ∈ sentinelState.head, hole b = true → b.processID = -1) :=
  ⟨by decide, (C22_owner_sentinel 1024 0 holesOps).2 (by decide),
    (C22_owner_sentinel 1024 0 [Op.alloc (-1) 10 0]).1⟩

/-! ## C23 and C24: failure results and well-formed blocks -/

theorem allocateMemory_no_fit (mm : MemoryManager) (pid size algo : Int)
    (hno : ∀ b ∈ mm.head, hole b = true → b.size < size) :
    allocateMemory mm pid size algo = (-1, mm) := by
  rcases allocateMemory_cases mm pid size algo with h | ⟨_, _, pre, cur, post, h1, h2, _⟩
  · exact h
  · exfalso
    obtain ⟨hh, hle⟩ := (fits_iff size cur).1 h2
    have := hno cur (by rw [h1]; simp) hh
    omega

theorem allocateMemory_rejected (mm : MemoryManager) (pid size algo : Int)
    (hbad : size ≤ 0 ∨ size > mm.freeMemory) :
    allocateMemory mm pid size algo = (-1, mm) := by
  unfold allocateMemory
  by_cases h1 : size ≤ 0
  · rw [if_pos h1]
  · rw [if_neg h1, if_pos (by omega)]

/-- C23, as stated, fails: in the state with holes 50, 200, 100 (`freeMemory = 350`) the
request of 300 fits in no hole, the request of 351 exceeds `freeMemory` and the request of
0 is invalid, and `allocateMemory` gives the same result, `-1` with the state unchanged,
for all three. -/
theorem C23_counterexample :
    ((0 : Int) < 300 ∧ (300 : Int) ≤ holesState.freeMemory ∧
      ∀ b ∈ holesState.head, hole b = true → b.size < 300) ∧
    (351 : Int) > holesState.freeMemory ∧ (0 : Int) ≤ 0 ∧
    allocateMemory holesState 7 300 FIRST_FIT = (-1, holesState) ∧
    allocateMemory holesState 7 300 FIRST_FIT = allocateMemory holesState 7 351 FIRST_FIT ∧
    allocateMemory holesState 7 300 FIRST_FIT = allocateMemory holesState 7 0 FIRST_FIT := by
  decide

/-- C23 (failure kinds, amended).  In every state and for every policy value the three
failure kinds give the same result: a request with `0 < size ≤ freeMemory` that no hole can
hold, a request with `size > freeMemory` and a request with `size ≤ 0` all return `-1` and
leave the state unchanged, so the result of `allocateMemory` does not tell the caller which
failure occurred. -/
theorem C23_failure_kinds (mm : MemoryManager)
    (pid algo sizeNoRegion sizeTooBig sizeInvalid : Int)
    (h1 : 0 < sizeNoRegion ∧ sizeNoRegion ≤ mm.freeMemory)
    (h2 : ∀ b ∈ mm.head, hole b = true → b.size < sizeNoRegion)
    (h3 : sizeTooBig > mm.freeMemory) (h4 : sizeInvalid ≤ 0) :
    allocateMemory mm pid sizeNoRegion algo = (-1, mm) ∧
    allocateMemory mm pid sizeTooBig algo = (-1, mm) ∧
    allocateMemory mm pid sizeInvalid algo = (-1, mm) ∧
    allocateMemory mm pid sizeNoRegion algo = allocateMemory mm pid sizeTooBig algo ∧
    allocateMemory mm pid sizeNoRegion algo = allocateMemory mm pid sizeInvalid algo := by
  have _ := h1
  have e1 := allocateMemory_no_fit mm pid sizeNoRegion algo h2
  have e2 := allocateMemory_rejected mm pid sizeTooBig algo (Or.inr h3)
  have e3 := allocateMemory_rejected mm pid sizeInvalid algo (Or.inl h4)
  exact ⟨e1, e2, e3, by rw [e1, e2], by rw [e1, e3]⟩

theorem C23_failure_kinds_witness :
    allocateMemory holesState 7 300 BEST_FIT = (-1, holesState) ∧
    allocateMemory holesState 7 351 BEST_FIT = (-1, holesState) ∧
    allocateMemory holesState 7 0 BEST_FIT = (-1, holesState) ∧
    allocateMemory holesState 7 300 BEST_FIT = allocateMemory holesState 7 351 BEST_FIT ∧
    allocateMemory holesState 7 300 BEST_FIT = allocateMemory holesState 7 0 BEST_FIT :=
  C23_failure_kinds holesState 7 BEST_FIT 300 351 0 (by decide) (by decide) (by decide)
    (by decide)

/-- C24 (well-formed regions).  In every state reachable from `initializeMemory(total, os)`
with `0 ≤ os < total`, every block of the list satisfies `startAddress ≤ endAddress` and its
stored `size` equals `endAddress - startAddress + 1`. -/
theorem C24_well_formed_regions (total os : Int) (h0 : 0 ≤ os) (h1 : os < total)
    (mm : MemoryManager) (hr : Reachable total os mm) :
    ∀ b ∈ mm.head, b.startAddress ≤ b.endAddress ∧
      b.size = b.endAddress - b.startAddress + 1 := by
  have _ := h0
  intro b hb
  exact (inv_reachable total os h1 mm hr).2.2.2.1.2.2 b hb

theorem C24_well_formed_regions_witness :
    (0 : Int) ≤ 0 ∧ (0 : Int) < 1024 ∧ Reachable 1024 0 holesState ∧
    (allocateMemory holesState 7 80 WORST_FIT).2.head.get? 3 =
      some { isHole := 1, startAddress := 140, endAddress := 259, size := 120,
             processID := -1 } ∧
    (∀ b ∈ holesState.head, b.startAddress ≤ b.endAddress ∧
      b.size = b.endAddress - b.startAddress + 1) :=
  ⟨by decide, by decide, reachable_holes, by decide,
    C24_well_formed_regions 1024 0 (by decide) (by decide) holesState reachable_holes⟩

/-! ## C25: the merge scenario -/

theorem tiles_drop :
    ∀ (pre l : List MemoryBlock) (s e : Int), Tiles s e (pre ++ l) → ∃ m, Tiles m e l := by
  intro pre
  induction pre with
  | nil => intro l s e h; exact ⟨s, h⟩
  | cons c pre ih =>
    intro l s e h
    exact ih l (c.endAddress + 1) e h.2

/-- C25, as stated, fails: in the layout `[A 50][Free 50][B 30][Free 50][P5]` deallocating
`A` gives one hole of 100, and deallocating `B` afterwards gives one hole `0 .. 179` of size
180, which is `100 + sizeB + 50` and not `50 + sizeB + 50 = 130`. -/
theorem C25_counterexample :
    Reachable 1024 0 scenarioState ∧
    scenarioState.head =
      [{ isHole := 0, startAddress := 0, endAddress := 49, size := 50, processID := 1 },
       { isHole := 1, startAddress := 50, endAddress := 99, size := 50, processID := -1 },
       { isHole := 0, startAddress := 100, endAddress := 129, size := 30, processID := 3 },
       { isHole := 1, startAddress := 130, endAddress := 179, size := 50, processID := -1 },
       { isHole := 0, startAddress := 180, endAddress := 1023, size := 844,
         processID := 5 }] ∧
    (deallocateMemory scenarioState 1).2.head =
      [{ isHole := 1, startAddress := 0, endAddress := 99, size := 100, processID := -1 },
       { isHole := 0, startAddress := 100, endAddress := 129, size := 30, processID := 3 },
       { isHole := 1, startAddress := 130, endAddress := 179, size := 50, processID := -1 },
       { isHole := 0, startAddress := 180, endAddress := 1023, size := 844,
         processID := 5 }] ∧
    (deallocateMemory (deallocateMemory scenarioState 1).2 3).2.head =
      [{ isHole := 1, startAddress := 0, endAddress := 179, size := 180, processID := -1 },
       { isHole := 0, startAddress := 180, endAddress := 1023, size := 844,
         processID := 5 }] ∧
    (180 : Int) ≠ 50 + 30 + 50 :=
  ⟨reachable_scenario, by decide, by decide, by decide, by decide⟩

/-- C25 (merge scenario, second step, amended).  In a reachable state whose list holds the
run `[Occupied A][Free 50][Occupied B][Free 50]` with `A` of size 50 and no hole just before
`A`, deallocating `A` merges `A` with the following hole into one hole of size 100, and
deallocating `B` afterwards merges the three free spans into one hole, from the start of
`A` to the end of the last hole, whose size is `100 + sizeB + 50`. -/
theorem C25_merge_scenario (total os : Int) (h0 : 0 ≤ os) (h1 : os < total)
    (mm : MemoryManager) (hr : Reachable total os mm) (idA idB : Int)
    (pre : List MemoryBlock) (A H1 B H2 : MemoryBlock) (post : List MemoryBlock)
    (hl : mm.head = pre ++ A :: H1 :: B :: H2 :: post)
    (hA : hole A = false ∧ A.processID = idA) (hAsz : A.size = 50)
    (hH1 : hole H1 = true ∧ H1.size = 50)
    (hB : hole B = false ∧ B.processID = idB)
    (hH2 : hole H2 = true ∧ H2.size = 50)
    (hprev : isHoleAt pre.getLast? = false)
    (hfA : ∀ b ∈ pre, ¬ (hole b = false ∧ b.processID = idA))
    (hfB : ∀ b ∈ pre, ¬ (hole b = false ∧ b.processID = idB)) :
    (deallocateMemory mm idA).2.head =
      pre ++ { isHole := 1, startAddress := A.startAddress, endAddress := H1.endAddress,
               size := 100, processID := -1 } :: B :: H2 :: post ∧
    (deallocateMemory (deallocateMemory mm idA).2 idB).2.head =
      pre ++ { isHole := 1, startAddress := A.startAddress, endAddress := H2.endAddress,
               size := 100 + B.size + 50, processID := -1 } :: post := by
  have _ := h0
  obtain ⟨_, _, _, ⟨ht, _, hw⟩, _, _, _⟩ := inv_reachable total os h1 mm hr
  rw [hl] at ht hw
  obtain ⟨m, hm⟩ := tiles_drop pre _ os (total - 1) ht
  obtain ⟨_, t1, t2, t3, _⟩ := hm
  have wA := hw A (by simp)
  have wH1 := hw H1 (by simp)
  have wB := hw B (by simp)
  have wH2 := hw H2 (by simp)
  obtain ⟨_, a2⟩ := wA
  obtain ⟨_, b2⟩ := wH1
  obtain ⟨_, c2⟩ := wB
  obtain ⟨_, d2⟩ := wH2
  have hs1 : H1.endAddress - A.startAddress + 1 = 100 := by
    have := hH1.2
    omega
  have hs2 : H2.endAddress - A.startAddress + 1 = 100 + B.size + 50 := by
    have := hH1.2
    have := hH2.2
    omega
  have e1 : (deallocateMemory mm idA).2.head =
      pre ++ { isHole := 1, startAddress := A.startAddress, endAddress := H1.endAddress,
               size := 100, processID := -1 } :: B :: H2 :: post := by
    rw [deallocateMemory_split mm idA pre A (H1 :: B :: H2 :: post) hl hA hfA]
    show pre.dropLast ++ (freeBlock pre.getLast? A (H1 :: B :: H2 :: post)).1 = _
    rw [freeBlock_none_next _ A H1 _ hprev hH1.1, ← List.append_assoc,
      dropLast_append_toList, hs1]
  refine ⟨e1, ?_⟩
  obtain ⟨M, hM⟩ : ∃ M : MemoryBlock,
      M = { isHole := 1, startAddress := A.startAddress, endAddress := H1.endAddress,
            size := 100, processID := -1 } := ⟨_, rfl⟩
  rw [← hM] at e1
  have hMh : hole M = true := by rw [hM]; simp [hole]
  have hl2 : (deallocateMemory mm idA).2.head = (pre ++ [M]) ++ B :: (H2 :: post) := by
    rw [e1]
    simp
  have hfirst2 : ∀ b ∈ pre ++ [M], ¬ (hole b = false ∧ b.processID = idB) := by
    intro b hb
    rcases List.mem_append.1 hb with hb | hb
    · exact hfB b hb
    · rw [List.mem_singleton] at hb
      subst hb
      rw [hMh]
      simp
  rw [deallocateMemory_split _ idB _ B (H2 :: post) hl2 hB hfirst2]
  show (pre ++ [M]).dropLast ++ (freeBlock (pre ++ [M]).getLast? B (H2 :: post)).1 = _
  rw [List.getLast?_concat, List.dropLast_concat, freeBlock_prev_next M B H2 post hMh hH2.1]
  rw [hM]
  simp only [hs2]

theorem C25_merge_scenario_witness :
    Reachable 1024 0 scenarioState ∧
    (deallocateMemory scenarioState 1).2.head =
      [{ isHole := 1, startAddress := 0, endAddress := 99, size := 100, processID := -1 },
       { isHole := 0, startAddress := 100, endAddress := 129, size := 30, processID := 3 },
       { isHole := 1, startAddress := 130, endAddress := 179, size := 50, processID := -1 },
       { isHole := 0, startAddress := 180, endAddress := 1023, size := 844,
         processID := 5 }] ∧
    (deallocateMemory (deallocateMemory scenarioState 1).2 3).2.head =
      [{ isHole := 1, startAddress := 0, endAddress := 179, size := 100 + 30 + 50,
         processID := -1 },
       { isHole := 0, startAddress := 180, endAddress := 1023, size := 844,
         processID := 5 }] :=
  have h := C25_merge_scenario 1024 0 (by decide) (by decide) scenarioState
    reachable_scenario 1 3 []
    { isHole := 0, startAddress := 0, endAddress := 49, size := 50, processID := 1 }
    { isHole := 1, startAddress := 50, endAddress := 99, size := 50, processID := -1 }
    { isHole := 0, startAddress := 100, endAddress := 129, size := 30, processID := 3 }
    { isHole := 1, startAddress := 130, endAddress := 179, size := 50, processID := -1 }
    (scenarioState.head.drop 4) (by decide) (by decide) (by decide) (by decide)
    (by decide) (by decide) (by decide) (by decide) (by decide)
  ⟨reachable_scenario, h.1, h.2⟩

/-! ## C26 to C30: frame conditions, the return value and the free-bytes pre-check -/

theorem allocBlock_length (h : MemoryBlock) (pid size : Int) :
    1 ≤ (allocBlock h pid size).length ∧ (allocBlock h pid size).length ≤ 2 := by
  unfold allocBlock
  by_cases hex : h.size = size
  · rw [if_pos hex]; simp
  · rw [if_neg hex]; simp

/-- C26 (frame of allocate on the list).  In every reachable state and for every policy
value, a successful `allocateMemory` changes only the selected hole `h` (the block of the
list at whose start address the returned value lies): the new list is the blocks before
`h` unchanged, then the one or two blocks that replace `h`, then the blocks after `h`
unchanged, so every other block keeps its content and its place in the order and the list
grows by at most one block. -/
theorem C26_allocate_frame (total os : Int) (h0 : 0 ≤ os) (h1 : os < total)
    (mm : MemoryManager) (hr : Reachable total os mm) (pid size algo : Int)
    (hsucc : (allocateMemory mm pid size algo).1 ≠ -1)
    (pre : List MemoryBlock) (h : MemoryBlock) (post : List MemoryBlock)
    (hl : mm.head = pre ++ h :: post)
    (hsel : (allocateMemory mm pid size algo).1 = h.startAddress) :
    hole h = true ∧
    (allocateMemory mm pid size algo).2.head = pre ++ allocBlock h pid size ++ post ∧
    1 ≤ (allocBlock h pid size).length ∧ (allocBlock h pid size).length ≤ 2 ∧
    mm.head.length ≤ (allocateMemory mm pid size algo).2.head.length ∧
    (allocateMemory mm pid size algo).2.head.length ≤ mm.head.length + 1 := by
  have _ := h0
  obtain ⟨_, hh, _, hres⟩ :=
    allocateMemory_selected total os h1 mm hr pid size algo hsucc pre h post hl hsel
  obtain ⟨l1, l2⟩ := allocBlock_length h pid size
  rw [hres]
  refine ⟨hh, rfl, l1, l2, ?_, ?_⟩
  · show mm.head.length ≤ (pre ++ allocBlock h pid size ++ post).length
    rw [hl]
    simp only [List.length_append, List.length_cons]
    omega
  · show (pre ++ allocBlock h pid size ++ post).length ≤ mm.head.length + 1
    rw [hl]
    simp only [List.length_append, List.length_cons]
    omega

theorem C26_allocate_frame_witness :
    Reachable 1024 0 holesState ∧
    (holesState.head.filter hole).map (fun b => b.size) = [50, 200, 100] ∧
    (allocateMemory holesState 7 80 FIRST_FIT).2.head =
      holesState.head.take 2 ++
        allocBlock { isHole := 1, startAddress := 60, endAddress := 259, size := 200,
                     processID := -1 } 7 80 ++ holesState.head.drop 3 ∧
    (allocateMemory holesState 7 80 FIRST_FIT).2.head.get? 0 = holesState.head.get? 0 ∧
    (allocateMemory holesState 7 80 FIRST_FIT).2.head.get? 5 = holesState.head.get? 4 ∧
    holesState.head.get? 4 =
      some { isHole := 1, startAddress := 270, endAddress := 369, size := 100,
             processID := -1 } ∧
    (allocateMemory holesState 7 80 FIRST_FIT).2.head.length = holesState.head.length + 1 :=
  have h := C26_allocate_frame 1024 0 (by decide) (by decide) holesState reachable_holes 7 80
    FIRST_FIT (by decide) (holesState.head.take 2)
    { isHole := 1, startAddress := 60, endAddress := 259, size := 200, processID := -1 }
    (holesState.head.drop 3) (by decide) (by decide)
  ⟨reachable_holes, by decide, h.2.1, by decide, by decide, by decide, by decide⟩

theorem allocateMemory_config (mm : MemoryManager) (pid size algo : Int) :
    (allocateMemory mm pid size algo).2.totalMemory = mm.totalMemory ∧
    (allocateMemory mm pid size algo).2.osMemory = mm.osMemory ∧
    (allocateMemory mm pid size algo).2.userMemory = mm.userMemory := by
  rcases allocateMemory_cases mm pid size algo with h | ⟨_, _, pre, cur, post, h1, _, h3⟩
  · rw [h]; exact ⟨rfl, rfl, rfl⟩
  · rw [h3, allocateAt_split mm pid size pre cur post h1]
    exact ⟨rfl, rfl, rfl⟩

theorem deallocateMemory_config (mm : MemoryManager) (pid : Int) :
    (deallocateMemory mm pid).2.totalMemory = mm.totalMemory ∧
    (deallocateMemory mm pid).2.osMemory = mm.osMemory ∧
    (deallocateMemory mm pid).2.userMemory = mm.userMemory := by
  unfold deallocateMemory
  cases deallocScan pid none mm.head with
  | none => exact ⟨rfl, rfl, rfl⟩
  | some r => exact ⟨rfl, rfl, rfl⟩

theorem run_config :
    ∀ (ops : List Op) (mm : MemoryManager),
      (run mm ops).totalMemory = mm.totalMemory ∧ (run mm ops).osMemory = mm.osMemory ∧
      (run mm ops).userMemory = mm.userMemory := by
  intro ops
  induction ops with
  | nil => intro mm; exact ⟨rfl, rfl, rfl⟩
  | cons op ops ih =>
    intro mm
    obtain ⟨i1, i2, i3⟩ := ih (step mm op)
    have hs : (step mm op).totalMemory = mm.totalMemory ∧
        (step mm op).osMemory = mm.osMemory ∧ (step mm op).userMemory = mm.userMemory := by
      cases op with
      | alloc pid size algo => exact allocateMemory_config mm pid size algo
      | dealloc pid => exact deallocateMemory_config mm pid
    exact ⟨i1.trans hs.1, i2.trans hs.2.1, i3.trans hs.2.2⟩

/-- C27 (immutable configuration).  In every state and for every argument, `allocateMemory`
and `deallocateMemory`, whether they succeed or fail, leave `totalMemory`, `osMemory` and
`userMemory` unchanged; and in every state reachable from `initializeMemory(total, os)`, for
any `total` and `os`, `totalMemory == total`, `osMemory == os` and
`userMemory == totalMemory - osMemory`. -/
theorem C27_immutable_configuration (mm : MemoryManager) :
    (∀ pid size algo : Int,
      (allocateMemory mm pid size algo).2.totalMemory = mm.totalMemory ∧
      (allocateMemory mm pid size algo).2.osMemory = mm.osMemory ∧
      (allocateMemory mm pid size algo).2.userMemory = mm.userMemory) ∧
    (∀ pid : Int,
      (deallocateMemory mm pid).2.totalMemory = mm.totalMemory ∧
      (deallocateMemory mm pid).2.osMemory = mm.osMemory ∧
      (deallocateMemory mm pid).2.userMemory = mm.userMemory) ∧
    (∀ total os : Int, Reachable total os mm →
      mm.totalMemory = total ∧ mm.osMemory = os ∧
      mm.userMemory = mm.totalMemory - mm.osMemory) := by
  refine ⟨allocateMemory_config mm, deallocateMemory_config mm, ?_⟩
  rintro total os ⟨ops, rfl⟩
  obtain ⟨c1, c2, c3⟩ := run_config ops (initializeMemory total os)
  refine ⟨c1, c2, ?_⟩
  rw [c1, c2, c3]
  rfl

theorem C27_immutable_configuration_witness :
    Reachable 1024 0 holesState ∧
    (holesState.totalMemory = 1024 ∧ holesState.osMemory = 0 ∧
      holesState.userMemory = holesState.totalMemory - holesState.osMemory) ∧
    (allocateMemory holesState 7 80 BEST_FIT).2.userMemory = holesState.userMemory ∧
    (deallocateMemory holesState 4).2.userMemory = holesState.userMemory :=
  ⟨reachable_holes, (C27_immutable_configuration holesState).2.2 1024 0 reachable_holes,
    ((C27_immutable_configuration holesState).1 7 80 BEST_FIT).2.2,
    ((C27_immutable_configuration holesState).2.1 4).2.2⟩

/-- C28 (the return value separates success from failure).  In every state reachable from
`initializeMemory(total, os)` with `0 ≤ os < total`, `allocateMemory` returns `-1` if and only
if the allocation failed, that is, the state is unchanged; and a call of size `n` that
returns a value `a` other than `-1` has `n > 0`, `os ≤ a` and `a + n - 1 ≤ total - 1`, hence
`a ≥ 0`. -/
theorem C28_return_value (total os : Int) (h0 : 0 ≤ os) (h1 : os < total)
    (mm : MemoryManager) (hr : Reachable total os mm) (pid n algo : Int) :
    ((allocateMemory mm pid n algo).1 = -1 ↔ (allocateMemory mm pid n algo).2 = mm) ∧
    ((allocateMemory mm pid n algo).1 ≠ -1 →
      0 < n ∧ os ≤ (allocateMemory mm pid n algo).1 ∧
      (allocateMemory mm pid n algo).1 + n - 1 ≤ total - 1 ∧
      0 ≤ (allocateMemory mm pid n algo).1) := by
  obtain ⟨_, _, _, ⟨ht, _, hw⟩, _, _, _⟩ := inv_reachable total os h1 mm hr
  rcases allocateMemory_cases mm pid n algo with h | ⟨hs, _, pre, cur, post, e1, e2, e3⟩
  · rw [h]
    exact ⟨⟨fun _ => rfl, fun _ => rfl⟩, fun hne => absurd rfl hne⟩
  · have hmem : cur ∈ mm.head := by rw [e1]; simp
    obtain ⟨b1, b2⟩ := (tiles_bounds mm.head os (total - 1) ht hw).2 cur hmem
    obtain ⟨_, w2⟩ := hw cur hmem
    obtain ⟨_, hle⟩ := (fits_iff n cur).1 e2
    rw [e3, allocateAt_split mm pid n pre cur post e1]
    refine ⟨⟨fun h => ?_, fun h => ?_⟩, fun _ => ⟨hs, b1, ?_, ?_⟩⟩
    · have : cur.startAddress = -1 := h
      omega
    · have : mm.numProcesses + 1 = mm.numProcesses := congrArg MemoryManager.numProcesses h
      omega
    · show cur.startAddress + n - 1 ≤ total - 1
      omega
    · show 0 ≤ cur.startAddress
      omega

theorem C28_return_value_witness :
    (0 : Int) ≤ 0 ∧ (0 : Int) < 1024 ∧ Reachable 1024 0 holesState ∧
    (allocateMemory holesState 7 80 BEST_FIT).1 = 270 ∧
    ((0 : Int) < 80 ∧ 0 ≤ (allocateMemory holesState 7 80 BEST_FIT).1 ∧
      (allocateMemory holesState 7 80 BEST_FIT).1 + 80 - 1 ≤ 1024 - 1 ∧
      0 ≤ (allocateMemory holesState 7 80 BEST_FIT).1) ∧
    ((allocateMemory holesState 7 300 BEST_FIT).1 = -1 ↔
      (allocateMemory holesState 7 300 BEST_FIT).2 = holesState) :=
  ⟨by decide, by decide, reachable_holes, by decide,
    (C28_return_value 1024 0 (by decide) (by decide) holesState reachable_holes 7 80
      BEST_FIT).2 (by decide),
    (C28_return_value 1024 0 (by decide) (by decide) holesState reachable_holes 7 300
      BEST_FIT).1⟩

theorem policies_no_fit (mm : MemoryManager) (pid size : Int)
    (hno : ∀ b ∈ mm.head, hole b = true → b.size < size) :
    firstFit mm pid size = (-1, mm) ∧ bestFit mm pid size = (-1, mm) ∧
    worstFit mm pid size = (-1, mm) := by
  have hnf : ∀ b ∈ mm.head, fits size b = true → False := by
    intro b hb hfb
    obtain ⟨hh, hle⟩ := (fits_iff size b).1 hfb
    have := hno b hb hh
    omega
  refine ⟨?_, ?_, ?_⟩
  · rcases firstFit_cases mm pid size with ⟨_, h⟩ | ⟨pre, cur, post, hl, hfit, _, _⟩
    · exact h
    · exact absurd hfit (fun hc => hnf cur (by rw [hl]; simp) hc)
  · rcases bestFit_cases mm pid size with ⟨_, h⟩ | ⟨pre, cur, post, hl, hfit, _, _, _⟩
    · exact h
    · exact absurd hfit (fun hc => hnf cur (by rw [hl]; simp) hc)
  · rcases worstFit_cases mm pid size with ⟨_, h⟩ | ⟨pre, cur, post, hl, hfit, _, _, _⟩
    · exact h
    · exact absurd hfit (fun hc => hnf cur (by rw [hl]; simp) hc)

theorem reachable_hole_le_free (total os : Int) (h1 : os < total) (mm : MemoryManager)
    (hr : Reachable total os mm) : ∀ b ∈ mm.head, hole b = true → b.size ≤ mm.freeMemory := by
  obtain ⟨_, _, _, ⟨_, _, hw⟩, _, _, hf⟩ := inv_reachable total os h1 mm hr
  intro b hb hh
  rw [hf]
  exact hole_le_holeBytes mm.head hw b hb hh

/-- C29 (the free-bytes pre-check is necessary).  In every reachable state, if
`size > freeMemory` then no hole of the list has `size ≥ size`, so `firstFit`, `bestFit` and
`worstFit` each return `-1` without changing the state; hence `allocateMemory` gives, for
every size and policy value, the same returned value and the same state as
`allocateMemory` without the pre-check, and for `size > 0` the same as the bare policy
function. -/
theorem C29_precheck_necessary (total os : Int) (h0 : 0 ≤ os) (h1 : os < total)
    (mm : MemoryManager) (hr : Reachable total os mm) (pid size : Int) :
    (size > mm.freeMemory → ∀ b ∈ mm.head, hole b = true → b.size < size) ∧
    (size > mm.freeMemory →
      firstFit mm pid size = (-1, mm) ∧ bestFit mm pid size = (-1, mm) ∧
      worstFit mm pid size = (-1, mm)) ∧
    (∀ algo : Int, allocateMemory mm pid size algo = allocateNoPrecheck mm pid size algo) ∧
    (0 < size →
      allocateMemory mm pid size FIRST_FIT = firstFit mm pid size ∧
      allocateMemory mm pid size BEST_FIT = bestFit mm pid size ∧
      allocateMemory mm pid size WORST_FIT = worstFit mm pid size) := by
  have _ := h0
  have hle := reachable_hole_le_free total os h1 mm hr
  have hno : size > mm.freeMemory → ∀ b ∈ mm.head, hole b = true → b.size < size := by
    intro hgt b hb hh
    have := hle b hb hh
    omega
  have hpol : size > mm.freeMemory →
      firstFit mm pid size = (-1, mm) ∧ bestFit mm pid size = (-1, mm) ∧
      worstFit mm pid size = (-1, mm) := fun hgt => policies_no_fit mm pid size (hno hgt)
  have hsame : ∀ algo : Int,
      allocateMemory mm pid size algo = allocateNoPrecheck mm pid size algo := by
    intro algo
    unfold allocateMemory allocateNoPrecheck
    by_cases hs : size ≤ 0
    · rw [if_pos hs, if_pos hs]
    · rw [if_neg hs, if_neg hs]
      by_cases hgt : size > mm.freeMemory
      · rw [if_pos hgt]
        obtain ⟨p1, p2, p3⟩ := hpol hgt
        rw [p1, p2, p3]
        simp
      · rw [if_neg hgt]
  refine ⟨hno, hpol, hsame, ?_⟩
  intro hs
  have hns : ¬ size ≤ 0 := by omega
  refine ⟨?_, ?_, ?_⟩
  · rw [hsame]
    unfold allocateNoPrecheck
    rw [if_neg hns, if_pos rfl]
  · rw [hsame]
    unfold allocateNoPrecheck
    rw [if_neg hns, if_neg (by decide), if_pos rfl]
  · rw [hsame]
    unfold allocateNoPrecheck
    rw [if_neg hns, if_neg (by decide), if_neg (by decide), if_pos rfl]

theorem C29_precheck_necessary_witness :
    (0 : Int) ≤ 0 ∧ (0 : Int) < 1024 ∧ Reachable 1024 0 holesState ∧
    (351 : Int) > holesState.freeMemory ∧
    (firstFit holesState 7 351 = (-1, holesState) ∧
      bestFit holesState 7 351 = (-1, holesState) ∧
      worstFit holesState 7 351 = (-1, holesState)) ∧
    allocateMemory holesState 7 351 BEST_FIT = bestFit holesState 7 351 ∧
    allocateMemory holesState 7 80 BEST_FIT = bestFit holesState 7 80 :=
  have h := C29_precheck_necessary 1024 0 (by decide) (by decide) holesState reachable_holes 7
    351
  have h2 := C29_precheck_necessary 1024 0 (by decide) (by decide) holesState reachable_holes
    7 80
  ⟨by decide, by decide, reachable_holes, by decide, h.2.1 (by decide),
    (h.2.2.2 (by decide)).2.1, (h2.2.2.2 (by decide)).2.1⟩

/-- C30 (the free-bytes pre-check is not sufficient).  There is a reachable state, the one
with holes of sizes 50, 200 and 100 and `freeMemory = 350`, and a size, 300, with
`0 < size ≤ freeMemory` for which no hole has `size ≥ size` and `allocateMemory` returns `-1`
with the state unchanged under `FIRST_FIT`, under `BEST_FIT` and under `WORST_FIT`. -/
theorem C30_precheck_not_sufficient :
    ∃ (total os : Int) (mm : MemoryManager) (size : Int),
      0 ≤ os ∧ os < total ∧ Reachable total os mm ∧ 0 < size ∧ size ≤ mm.freeMemory ∧
      (∀ b ∈ mm.head, hole b = true → b.size < size) ∧
      ∀ pid : Int,
        allocateMemory mm pid size FIRST_FIT = (-1, mm) ∧
        allocateMemory mm pid size BEST_FIT = (-1, mm) ∧
        allocateMemory mm pid size WORST_FIT = (-1, mm) := by
  refine ⟨1024, 0, holesState, 300, by decide, by decide, reachable_holes, by decide,
    by decide, by decide, ?_⟩
  intro pid
  have hno : ∀ b ∈ holesState.head, hole b = true → b.size < 300 := by decide
  exact ⟨allocateMemory_no_fit holesState pid 300 FIRST_FIT hno,
    allocateMemory_no_fit holesState pid 300 BEST_FIT hno,
    allocateMemory_no_fit holesState pid 300 WORST_FIT hno⟩

/-! ## Direct policy calls with size 0 -/

theorem initial_fits_zero (total os : Int) (h1 : os < total) :
    fits 0 (createBlock 1 os (total - 1) (-1)) = true := by
  rw [fits_iff]
  refine ⟨rfl, ?_⟩
  show 0 ≤ total - 1 - os + 1
  omega

theorem allocateAt_initial_zero (total os : Int) (h1 : os < total) (pid : Int) :
    allocateAt (initializeMemory total os) 0 pid 0 =
      (os, { initializeMemory total os with
              head := [{ isHole := 0, startAddress := os, endAddress := os - 1, size := 0,
                         processID := pid },
                       createBlock 1 os (total - 1) (-1)]
              numProcesses := 1 }) := by
  have hne : ¬ (total - 1 - os + 1 = 0) := by omega
  simp [allocateAt, initializeMemory, allocBlock, allocHoleDelta, replaceAt, createBlock, hne]

/-- C37 (the `size > 0` precondition of the policy functions is necessary).  In the initial
state of `initializeMemory(total, os)` with `0 ≤ os < total`, where every block is well
formed, a direct call of `firstFit`, `bestFit` or `worstFit` with `size = 0` does not fail:
it returns `os` and puts an occupied block of size 0 with `endAddress = startAddress - 1`
in front of the hole, so the list is no longer well formed (for `bestFit` when
`total ≤ 2^31 - 2`, below the overflow of `totalMemory + 1`); `allocateMemory` with
`size = 0` returns `-1` and leaves the state unchanged for every policy. -/
theorem C37_size_zero_direct_call (total os : Int) (h0 : 0 ≤ os) (h1 : os < total)
    (pid : Int) :
    Reachable total os (initializeMemory total os) ∧
    (∀ b ∈ (initializeMemory total os).head, WellFormed b) ∧
    (∃ bad : MemoryBlock, ∃ after : MemoryManager,
      firstFit (initializeMemory total os) pid 0 = (os, after) ∧
      (total ≤ 2147483646 → bestFit (initializeMemory total os) pid 0 = (os, after)) ∧
      worstFit (initializeMemory total os) pid 0 = (os, after) ∧
      os ≠ -1 ∧
      after.head = [bad, createBlock 1 os (total - 1) (-1)] ∧
      hole bad = false ∧ bad.processID = pid ∧ bad.size = 0 ∧ bad.startAddress = os ∧
      bad.endAddress = bad.startAddress - 1 ∧ ¬ WellFormed bad ∧
      ¬ (∀ b ∈ after.head, WellFormed b)) ∧
    (∀ algo : Int,
      allocateMemory (initializeMemory total os) pid 0 algo =
        (-1, initializeMemory total os)) := by
  have hf := initial_fits_zero total os h1
  have hat := allocateAt_initial_zero total os h1 pid
  have hsz : (createBlock 1 os (total - 1) (-1)).size = total - 1 - os + 1 := rfl
  refine ⟨⟨[], rfl⟩, ?_, ?_, ?_⟩
  · intro b hb
    have : b = createBlock 1 os (total - 1) (-1) := by simpa [initializeMemory] using hb
    subst this
    refine ⟨?_, rfl⟩
    show os ≤ total - 1
    omega
  · refine ⟨{ isHole := 0, startAddress := os, endAddress := os - 1, size := 0,
              processID := pid },
      { initializeMemory total os with
          head := [{ isHole := 0, startAddress := os, endAddress := os - 1, size := 0,
                     processID := pid },
                   createBlock 1 os (total - 1) (-1)]
          numProcesses := 1 }, ?_, ?_, ?_, by omega, rfl, rfl, rfl, rfl, rfl, rfl, ?_, ?_⟩
    · rw [← hat]
      show (match firstFitScan 0 [createBlock 1 os (total - 1) (-1)] 0 with
            | none => (-1, initializeMemory total os)
            | some i => allocateAt (initializeMemory total os) i pid 0) = _
      rw [firstFitScan, if_pos hf]
    · intro h2
      rw [← hat]
      show (match bestFitScan 0 [createBlock 1 os (total - 1) (-1)] 0 none
                    (wrap32 (total + 1)) with
            | none => (-1, initializeMemory total os)
            | some i => allocateAt (initializeMemory total os) i pid 0) = _
      rw [wrap32_eq _ (by omega) (by omega), bestFitScan, if_pos hf,
        if_pos (by rw [hsz]; omega), bestFitScan]
    · rw [← hat]
      show (match worstFitScan 0 [createBlock 1 os (total - 1) (-1)] 0 none (-1) with
            | none => (-1, initializeMemory total os)
            | some i => allocateAt (initializeMemory total os) i pid 0) = _
      rw [worstFitScan, if_pos hf, if_pos (by rw [hsz]; omega), worstFitScan]
    · intro hw
      have : os ≤ os - 1 := hw.1
      omega
    · intro hw
      have : os ≤ os - 1 := (hw _ (List.mem_cons_self _ _)).1
      omega
  · intro algo
    unfold allocateMemory
    rw [if_pos (le_refl _)]

/-- C37 at the example of the header file, `initializeMemory(1024, 256)` and process 7. -/
theorem C37_size_zero_direct_call_witness :
    Reachable 1024 256 (initializeMemory 1024 256) ∧
    (∀ b ∈ (initializeMemory 1024 256).head, WellFormed b) ∧
    (∃ bad : MemoryBlock, ∃ after : MemoryManager,
      firstFit (initializeMemory 1024 256) 7 0 = (256, after) ∧
      bestFit (initializeMemory 1024 256) 7 0 = (256, after) ∧
      worstFit (initializeMemory 1024 256) 7 0 = (256, after) ∧
      (256 : Int) ≠ -1 ∧
      after.head = [bad, createBlock 1 256 (1024 - 1) (-1)] ∧
      hole bad = false ∧ bad.processID = 7 ∧ bad.size = 0 ∧ bad.startAddress = 256 ∧
      bad.endAddress = bad.startAddress - 1 ∧ ¬ WellFormed bad ∧
      ¬ (∀ b ∈ after.head, WellFormed b)) ∧
    (∀ algo : Int,
      allocateMemory (initializeMemory 1024 256) 7 0 algo =
        (-1, initializeMemory 1024 256)) := by
  obtain ⟨a, b, ⟨bad, after, c1, c2, c3⟩, d⟩ :=
    C37_size_zero_direct_call 1024 256 (by decide) (by decide) 7
  exact ⟨a, b, ⟨bad, after, c1, c2 (by decide), c3⟩, d⟩

/-! ## Division guard of the fragmentation metric -/

theorem run_degenerate (os : Int) :
    ∀ ops : List Op, run (initializeMemory os os) ops = initializeMemory os os := by
  intro ops
  refine run_induction (fun m => m = initializeMemory os os) ?_ ops _ rfl
  intro m op hm
  subst hm
  have hfree : (initializeMemory os os).freeMemory = 0 := by
    show os - os = 0
    omega
  cases op with
  | alloc pid size algo =>
    show (allocateMemory (initializeMemory os os) pid size algo).2 = _
    unfold allocateMemory
    by_cases h1 : size ≤ 0
    · rw [if_pos h1]
    · rw [if_neg h1, if_pos (by rw [hfree]; omega)]
  | dealloc pid =>
    show (deallocateMemory (initializeMemory os os) pid).2 = _
    rcases deallocateMemory_result (initializeMemory os os) pid with ⟨_, h⟩ | ⟨⟨b, hb, hq, _⟩, _⟩
    · rw [h]
    · have : b = createBlock 1 os (os - 1) (-1) := by simpa [initializeMemory] using hb
      subst this
      exact absurd hq (by simp [hole, createBlock])

theorem reachable_user_ne_zero (total os : Int) (mm : MemoryManager)
    (hr : Reachable total os mm) (hfree : mm.freeMemory ≠ 0) : mm.userMemory ≠ 0 := by
  obtain ⟨ops, rfl⟩ := hr
  by_cases he : total = os
  · subst he
    rw [run_degenerate] at hfree
    exact absurd (show total - total = 0 by omega) hfree
  · rw [(run_config ops (initializeMemory total os)).2.2]
    show total - os ≠ 0
    omega

/-- C34 (division guard in the fragmentation metric).  In every state reachable from
`initializeMemory(total, os)` by `allocateMemory` / `deallocateMemory` calls, for arbitrary
integers `total` and `os`, `freeMemory ≠ 0` implies `userMemory ≠ 0`: once
`calculateFragmentation` gets past its `freeMemory == 0` check the divisor is not zero, so
the function always yields a number, the quotient computed by the code. -/
theorem C34_division_guard (total os : Int) (mm : MemoryManager)
    (hr : Reachable total os mm) :
    (mm.freeMemory ≠ 0 → mm.userMemory ≠ 0) ∧
    calculateFragmentation mm ≠ none ∧
    (mm.freeMemory ≠ 0 →
      calculateFragmentation mm =
        some (((mm.freeMemory - largestHoleScan mm.head 0 : Int) : ℚ) /
              (mm.userMemory : ℚ) * 100)) := by
  have h := reachable_user_ne_zero total os mm hr
  refine ⟨h, ?_, ?_⟩
  · unfold calculateFragmentation
    by_cases hf : mm.freeMemory = 0
    · rw [if_pos hf]; simp
    · rw [if_neg hf]
      simp only []
      rw [if_neg (h hf)]
      simp
  · intro hf
    unfold calculateFragmentation
    rw [if_neg hf]
    simp only []
    rw [if_neg (h hf)]

/-- C34 at two initial states outside the documented precondition, `initializeMemory(5, 5)`
(no user memory) after a rejected request and `initializeMemory(3, 5)` (negative user
memory). -/
theorem C34_division_guard_witness :
    ((run (initializeMemory 5 5) [Op.alloc 1 1 0, Op.dealloc 1]).freeMemory ≠ 0 →
      (run (initializeMemory 5 5) [Op.alloc 1 1 0, Op.dealloc 1]).userMemory ≠ 0) ∧
    calculateFragmentation (run (initializeMemory 5 5) [Op.alloc 1 1 0, Op.dealloc 1]) ≠ none ∧
    (invertedState.freeMemory ≠ 0 → invertedState.userMemory ≠ 0) ∧
    invertedState.freeMemory ≠ 0 :=
  ⟨(C34_division_guard 5 5 _ ⟨_, rfl⟩).1, (C34_division_guard 5 5 _ ⟨_, rfl⟩).2.1,
   (C34_division_guard 3 5 invertedState ⟨[], rfl⟩).1, by decide⟩

/-! ## Duplicate owner ids -/

theorem allocateAt_fst (mm : MemoryManager) (i : Nat) (pid pid2 size : Int) :
    (allocateAt mm i pid size).1 = (allocateAt mm i pid2 size).1 := by
  unfold allocateAt
  cases mm.head.get? i <;> rfl

theorem allocateMemory_fst (mm : MemoryManager) (pid pid2 size algo : Int) :
    (allocateMemory mm pid size algo).1 = (allocateMemory mm pid2 size algo).1 := by
  unfold allocateMemory firstFit bestFit worstFit
  split_ifs
  · rfl
  · rfl
  · cases firstFitScan size mm.head 0 with
    | none => rfl
    | some i => exact allocateAt_fst mm i pid pid2 size
  · cases bestFitScan size mm.head 0 none (wrap32 (mm.totalMemory + 1)) with
    | none => rfl
    | some i => exact allocateAt_fst mm i pid pid2 size
  · cases worstFitScan size mm.head 0 none (-1) with
    | none => rfl
    | some i => exact allocateAt_fst mm i pid pid2 size
  · rfl

theorem filter_holes (l : List MemoryBlock) (hl : ∀ b ∈ l, hole b = true) :
    l.filter (fun b => !hole b) = [] := by
  rw [List.filter_eq_nil_iff]
  intro b hb
  simp [hl b hb]

theorem deallocateMemory_occupied (mm : MemoryManager) (pid : Int) (pre : List MemoryBlock)
    (P : MemoryBlock) (post : List MemoryBlock) (hl : mm.head = pre ++ P :: post)
    (hP : hole P = false ∧ P.processID = pid)
    (hfirst : ∀ b ∈ pre, ¬ (hole b = false ∧ b.processID = pid)) :
    (deallocateMemory mm pid).2.head.filter (fun b => !hole b) =
      pre.filter (fun b => !hole b) ++ post.filter (fun b => !hole b) := by
  obtain ⟨keptPre, L, R, keptPost, merged, e1, e2, hL, hR, hm, hres⟩ :=
    deallocateMemory_shape mm pid pre P post hl hP hfirst
  rw [hres, e1, e2]
  simp [List.filter_append, List.filter_cons, hm, filter_holes L hL, filter_holes R hR]

/-- C35 (duplicate owner ids).  The value returned by `allocateMemory` does not depend on the
process id, so an id that an occupied block already carries is not rejected.  In a reachable
state where two occupied blocks `P1` (the first block of the list with that id) and `P2`
carry the same id, `P1` has the lower address, `deallocateMemory(id)` returns 1 and takes
only `P1` out of the occupied blocks: `P2` is still in the list, occupied with the same id,
and a second `deallocateMemory(id)` finds it and returns 1. -/
theorem C35_duplicate_ids (total os : Int) (h1 : os < total) (mm : MemoryManager)
    (hr : Reachable total os mm) (pid : Int) (pre : List MemoryBlock) (P1 : MemoryBlock)
    (mid : List MemoryBlock) (P2 : MemoryBlock) (post : List MemoryBlock)
    (hl : mm.head = pre ++ P1 :: (mid ++ P2 :: post))
    (hP1 : hole P1 = false ∧ P1.processID = pid)
    (hP2 : hole P2 = false ∧ P2.processID = pid)
    (hfirst : ∀ b ∈ pre, ¬ (hole b = false ∧ b.processID = pid)) :
    (∀ pid2 size algo : Int,
      (allocateMemory mm pid size algo).1 = (allocateMemory mm pid2 size algo).1) ∧
    P1.startAddress < P2.startAddress ∧
    (deallocateMemory mm pid).1 = 1 ∧
    (deallocateMemory mm pid).2.head.filter (fun b => !hole b) =
      pre.filter (fun b => !hole b) ++ (mid ++ P2 :: post).filter (fun b => !hole b) ∧
    P2 ∈ (deallocateMemory mm pid).2.head ∧
    pid ∈ occupiedIds (deallocateMemory mm pid).2.head ∧
    (deallocateMemory (deallocateMemory mm pid).2 pid).1 = 1 := by
  have hocc := deallocateMemory_occupied mm pid pre P1 (mid ++ P2 :: post) hl hP1 hfirst
  have hmem : P2 ∈ (deallocateMemory mm pid).2.head.filter (fun b => !hole b) := by
    rw [hocc]
    apply List.mem_append_right
    rw [List.mem_filter]
    exact ⟨by simp, by simp [hP2.1]⟩
  have hP2in : P2 ∈ (deallocateMemory mm pid).2.head := (List.mem_filter.1 hmem).1
  refine ⟨fun pid2 size algo => allocateMemory_fst mm pid pid2 size algo, ?_, ?_, hocc, hP2in,
    ?_, ?_⟩
  · have hs := reachable_sorted total os h1 mm hr
    rw [hl] at hs
    have h2 := (List.pairwise_append.1 hs).2.1
    exact (List.pairwise_cons.1 h2).1 P2 (by simp)
  · rw [deallocateMemory_split mm pid pre P1 _ hl hP1 hfirst]
  · rw [mem_occupiedIds]
    exact ⟨P2, hP2in, hP2⟩
  · rcases deallocateMemory_result (deallocateMemory mm pid).2 pid with ⟨hno, _⟩ | ⟨_, h⟩
    · exact absurd hP2 (hno P2 hP2in)
    · exact h

/-- C35 on `duplicateState`, two allocations with process id 1: blocks `0 .. 9` and
`10 .. 29` both carry id 1. -/
theorem C35_duplicate_ids_witness :
    (∀ pid2 size algo : Int,
      (allocateMemory duplicateState 1 size algo).1 =
        (allocateMemory duplicateState pid2 size algo).1) ∧
    (0 : Int) < 10 ∧
    (deallocateMemory duplicateState 1).1 = 1 ∧
    (deallocateMemory duplicateState 1).2.head.filter (fun b => !hole b) =
      [{ isHole := 0, startAddress := 10, endAddress := 29, size := 20, processID := 1 }] ∧
    ({ isHole := 0, startAddress := 10, endAddress := 29, size := 20, processID := 1 } :
        MemoryBlock) ∈ (deallocateMemory duplicateState 1).2.head ∧
    (1 : Int) ∈ occupiedIds (deallocateMemory duplicateState 1).2.head ∧
    (deallocateMemory (deallocateMemory duplicateState 1).2 1).1 = 1 :=
  C35_duplicate_ids 1024 0 (by decide) duplicateState reachable_duplicate 1 []
    { isHole := 0, startAddress := 0, endAddress := 9, size := 10, processID := 1 } []
    { isHole := 0, startAddress := 10, endAddress := 29, size := 20, processID := 1 }
    [createBlock 1 30 1023 (-1)] (by decide) (by decide) (by decide) (by simp)

/-! ## The policies succeed together -/

theorem reachable_start_nonneg (total os : Int) (h0 : 0 ≤ os) (h1 : os < total)
    (mm : MemoryManager) (hr : Reachable total os mm) :
    ∀ b ∈ mm.head, 0 ≤ b.startAddress ∧ 1 ≤ b.size ∧ b.size ≤ mm.totalMemory := by
  obtain ⟨ht0, _, _, ⟨ht, _, hw⟩, _, _, _⟩ := inv_reachable total os h1 mm hr
  intro b hb
  have hb1 := (tiles_bounds mm.head os (total - 1) ht hw).2 b hb
  obtain ⟨w1, w2⟩ := hw b hb
  refine ⟨by omega, by omega, by omega⟩

theorem policies_fit (total os : Int) (h0 : 0 ≤ os) (h1 : os < total)
    (h2 : total ≤ 2147483646) (mm : MemoryManager) (hr : Reachable total os mm)
    (pid size : Int)
    (hex : ∃ b ∈ mm.head, hole b = true ∧ size ≤ b.size) :
    (firstFit mm pid size).1 ≠ -1 ∧ (bestFit mm pid size).1 ≠ -1 ∧
    (worstFit mm pid size).1 ≠ -1 := by
  have hb := reachable_start_nonneg total os h0 h1 mm hr
  obtain ⟨b, hbm, hh, hle⟩ := hex
  have hfit : fits size b = true := (fits_iff size b).2 ⟨hh, hle⟩
  have hat : ∀ (pre : List MemoryBlock) (cur : MemoryBlock) (post : List MemoryBlock),
      mm.head = pre ++ cur :: post → (allocateAt mm pre.length pid size).1 ≠ -1 := by
    intro pre cur post hl
    rw [allocateAt_split mm pid size pre cur post hl]
    have := (hb cur (by rw [hl]; simp)).1
    show cur.startAddress ≠ -1
    omega
  refine ⟨?_, ?_, ?_⟩
  · rcases firstFit_cases mm pid size with ⟨hn, _⟩ | ⟨pre, cur, post, hl, _, _, he⟩
    · rw [hn b hbm] at hfit
      exact absurd hfit (by decide)
    · rw [he]; exact hat pre cur post hl
  · rcases bestFit_cases mm pid size with ⟨hn, _⟩ | ⟨pre, cur, post, hl, _, _, _, he⟩
    · have h4 := hn b hbm hfit
      have := (hb b hbm).2.2
      have ht := (inv_reachable total os h1 mm hr).1
      rw [wrap32_eq _ (by omega) (by omega)] at h4
      omega
    · rw [he]; exact hat pre cur post hl
  · rcases worstFit_cases mm pid size with ⟨hn, _⟩ | ⟨pre, cur, post, hl, _, _, _, he⟩
    · have := hn b hbm hfit
      have := (hb b hbm).2.1
      omega
    · rw [he]; exact hat pre cur post hl

/-- The policies succeed together below the overflow: in every state reachable from
`initializeMemory(total, os)` with `0 ≤ os < total ≤ 2^31 - 2` and for every `size`, every
block size lies strictly between `worstFit`'s initial bound `-1` and `bestFit`'s initial
bound, the 32-bit value of `totalMemory + 1`; if some hole has `size ≥ size` then
`firstFit`, `bestFit` and `worstFit` each return a value other than `-1`; if no hole has,
each returns `-1` and leaves the state unchanged; so the three policies succeed or fail
together. -/
theorem policies_succeed_together (total os : Int) (h0 : 0 ≤ os) (h1 : os < total)
    (h2 : total ≤ 2147483646) (mm : MemoryManager) (hr : Reachable total os mm)
    (pid size : Int) :
    (∀ b ∈ mm.head, -1 < b.size ∧ b.size < wrap32 (mm.totalMemory + 1)) ∧
    ((∃ b ∈ mm.head, hole b = true ∧ size ≤ b.size) →
      (firstFit mm pid size).1 ≠ -1 ∧ (bestFit mm pid size).1 ≠ -1 ∧
      (worstFit mm pid size).1 ≠ -1) ∧
    ((¬ ∃ b ∈ mm.head, hole b = true ∧ size ≤ b.size) →
      firstFit mm pid size = (-1, mm) ∧ bestFit mm pid size = (-1, mm) ∧
      worstFit mm pid size = (-1, mm)) ∧
    ((firstFit mm pid size).1 = -1 ↔ (bestFit mm pid size).1 = -1) ∧
    ((firstFit mm pid size).1 = -1 ↔ (worstFit mm pid size).1 = -1) := by
  have hb := reachable_start_nonneg total os h0 h1 mm hr
  have hyes := policies_fit total os h0 h1 h2 mm hr pid size
  have hno : (¬ ∃ b ∈ mm.head, hole b = true ∧ size ≤ b.size) →
      firstFit mm pid size = (-1, mm) ∧ bestFit mm pid size = (-1, mm) ∧
      worstFit mm pid size = (-1, mm) := by
    intro hne
    apply policies_no_fit
    intro b hbm hh
    by_contra hc
    exact hne ⟨b, hbm, hh, by omega⟩
  refine ⟨?_, hyes, hno, ?_, ?_⟩
  · intro b hbm
    have := hb b hbm
    have ht := (inv_reachable total os h1 mm hr).1
    rw [wrap32_eq _ (by omega) (by omega)]
    omega
  · by_cases hex : ∃ b ∈ mm.head, hole b = true ∧ size ≤ b.size
    · obtain ⟨a1, a2, _⟩ := hyes hex
      exact ⟨fun h => absurd h a1, fun h => absurd h a2⟩
    · obtain ⟨a1, a2, _⟩ := hno hex
      rw [a1, a2]
  · by_cases hex : ∃ b ∈ mm.head, hole b = true ∧ size ≤ b.size
    · obtain ⟨a1, _, a3⟩ := hyes hex
      exact ⟨fun h => absurd h a1, fun h => absurd h a3⟩
    · obtain ⟨a1, _, a3⟩ := hno hex
      rw [a1, a3]

/-- The three policies on `holesState` (holes of 50, 200 and 100) with a request of 80. -/
theorem policies_succeed_together_holes :
    (∃ b ∈ holesState.head, hole b = true ∧ (80 : Int) ≤ b.size) ∧
    (firstFit holesState 7 80).1 ≠ -1 ∧ (bestFit holesState 7 80).1 ≠ -1 ∧
    (worstFit holesState 7 80).1 ≠ -1 :=
  ⟨by decide,
   (policies_succeed_together 1024 0 (by decide) (by decide) (by decide) holesState
      reachable_holes 7 80).2.1 (by decide)⟩

/-! ## Holes carry `isHole = 1` -/

theorem allocBlock_flag (h : MemoryBlock) (pid size : Int) :
    ∀ b ∈ allocBlock h pid size, hole b = true → b.isHole = 1 := by
  intro b hb hh
  unfold allocBlock at hb
  by_cases hex : h.size = size
  · rw [if_pos hex, List.mem_singleton] at hb
    subst hb
    simp [hole] at hh
  · rw [if_neg hex] at hb
    simp only [List.mem_cons, List.mem_singleton, List.not_mem_nil, or_false] at hb
    rcases hb with rfl | rfl
    · simp [hole] at hh
    · rfl

theorem freeBlock_flag (prev : Option MemoryBlock) (P : MemoryBlock)
    (rest : List MemoryBlock)
    (hprev : ∀ p, prev = some p → hole p = true → p.isHole = 1)
    (hrest : ∀ b ∈ rest, hole b = true → b.isHole = 1) :
    ∀ b ∈ (freeBlock prev P rest).1, hole b = true → b.isHole = 1 := by
  have hpl : ∀ b ∈ prev.toList, hole b = true → b.isHole = 1 := by
    intro b hb
    rcases prev with _ | p
    · simp at hb
    · have : b = p := by simpa using hb
      subst this
      exact hprev b rfl
  rcases next_cases rest with hn | ⟨n, after, rfl, hn⟩
  · by_cases hp : isHoleAt prev = false
    · rw [freeBlock_none_none prev P rest hp hn]
      intro b hb hh
      rcases List.mem_append.1 hb with hb | hb
      · exact hpl b hb hh
      · rcases List.mem_cons.1 hb with rfl | hb
        · rfl
        · exact hrest b hb hh
    · rcases prev with _ | p
      · exact absurd rfl hp
      · have hph : hole p = true := by simpa [isHoleAt] using hp
        rw [freeBlock_prev_none p P rest hph hn]
        intro b hb hh
        rcases List.mem_cons.1 hb with rfl | hb
        · exact hprev p rfl hph
        · exact hrest b hb hh
  · have hafter : ∀ b ∈ after, hole b = true → b.isHole = 1 := fun b hb =>
      hrest b (List.mem_cons_of_mem _ hb)
    by_cases hp : isHoleAt prev = false
    · rw [freeBlock_none_next prev P n after hp hn]
      intro b hb hh
      rcases List.mem_append.1 hb with hb | hb
      · exact hpl b hb hh
      · rcases List.mem_cons.1 hb with rfl | hb
        · rfl
        · exact hafter b hb hh
    · rcases prev with _ | p
      · exact absurd rfl hp
      · have hph : hole p = true := by simpa [isHoleAt] using hp
        rw [freeBlock_prev_next p P n after hph hn]
        intro b hb hh
        rcases List.mem_cons.1 hb with rfl | hb
        · exact hprev p rfl hph
        · exact hafter b hb hh

theorem flag_allocateMemory (mm : MemoryManager) (pid size algo : Int)
    (hc : ∀ b ∈ mm.head, hole b = true → b.isHole = 1) :
    ∀ b ∈ (allocateMemory mm pid size algo).2.head, hole b = true → b.isHole = 1 := by
  rcases allocateMemory_cases mm pid size algo with h | ⟨_, _, pre, cur, post, h1, _, h3⟩
  · rw [h]; exact hc
  · rw [h3, allocateAt_split mm pid size pre cur post h1]
    intro b hb hh
    have hb2 : b ∈ pre ++ allocBlock cur pid size ++ post := hb
    rcases List.mem_append.1 hb2 with hb3 | hb3
    · rcases List.mem_append.1 hb3 with hb4 | hb4
      · exact hc b (by rw [h1]; exact List.mem_append_left _ hb4) hh
      · exact allocBlock_flag cur pid size b hb4 hh
    · exact hc b (by rw [h1]; exact List.mem_append_right _ (List.mem_cons_of_mem _ hb3)) hh

theorem flag_deallocateMemory (mm : MemoryManager) (pid : Int)
    (hc : ∀ b ∈ mm.head, hole b = true → b.isHole = 1) :
    ∀ b ∈ (deallocateMemory mm pid).2.head, hole b = true → b.isHole = 1 := by
  rcases deallocateMemory_result mm pid with ⟨_, h⟩ | ⟨hex, _⟩
  · rw [h]; exact hc
  · obtain ⟨pre, P, post, hl, hP, hfirst⟩ := first_match_split pid mm.head hex
    rw [deallocateMemory_split mm pid pre P post hl hP hfirst]
    intro b hb hh
    have hb2 : b ∈ pre.dropLast ++ (freeBlock pre.getLast? P post).1 := hb
    have hpre : ∀ x ∈ pre, hole x = true → x.isHole = 1 := fun x hx =>
      hc x (by rw [hl]; exact List.mem_append_left _ hx)
    rcases List.mem_append.1 hb2 with hb3 | hb3
    · exact hpre b (List.mem_of_mem_dropLast hb3) hh
    · refine freeBlock_flag pre.getLast? P post ?_ ?_ b hb3 hh
      · intro p hp
        exact hpre p (List.mem_of_getLast?_eq_some hp)
      · intro x hx
        exact hc x (by rw [hl]; exact List.mem_append_right _ (List.mem_cons_of_mem _ hx))

theorem reachable_flag (total os : Int) (mm : MemoryManager) (hr : Reachable total os mm) :
    ∀ b ∈ mm.head, hole b = true → b.isHole = 1 := by
  obtain ⟨ops, rfl⟩ := hr
  refine run_induction (fun m => ∀ b ∈ m.head, hole b = true → b.isHole = 1) ?_ ops _ ?_
  · intro m op hm
    cases op with
    | alloc pid size algo => exact flag_allocateMemory m pid size algo hm
    | dealloc pid => exact flag_deallocateMemory m pid hm
  · intro b hb _
    have : b = createBlock 1 os (total - 1) (-1) := by
      simpa [initializeMemory] using hb
    rw [this]
    rfl

/-! ## Merge order -/

theorem freeBlockPrevFirst_eq (prev : Option MemoryBlock) (current : MemoryBlock)
    (rest : List MemoryBlock) :
    freeBlockPrevFirst prev current rest = freeBlock prev current rest := by
  rcases prev with _ | p <;> rcases rest with _ | ⟨n, after⟩
  · simp [freeBlockPrevFirst, freeBlock, mergeNext, mergePrev]
  · by_cases hn : n.isHole = 0 <;> simp [freeBlockPrevFirst, freeBlock, mergeNext, mergePrev, hn]
  · by_cases hp : p.isHole = 0 <;> simp [freeBlockPrevFirst, freeBlock, mergeNext, mergePrev, hp]
  · by_cases hp : p.isHole = 0 <;> by_cases hn : n.isHole = 0 <;>
      simp [freeBlockPrevFirst, freeBlock, mergeNext, mergePrev, hp, hn]

theorem deallocScanPrevFirst_eq (pid : Int) :
    ∀ (l : List MemoryBlock) (prev : Option MemoryBlock),
      deallocScanPrevFirst pid prev l = deallocScan pid prev l := by
  intro l
  induction l with
  | nil => intro prev; rfl
  | cons c rest ih =>
    intro prev
    rw [deallocScanPrevFirst, deallocScan, ih (some c), freeBlockPrevFirst_eq]

theorem deallocatePrevFirst_eq (mm : MemoryManager) (pid : Int) :
    deallocatePrevFirst mm pid = deallocateMemory mm pid := by
  unfold deallocatePrevFirst deallocateMemory
  rw [deallocScanPrevFirst_eq]

theorem deallocateMemory_both (mm : MemoryManager) (pid : Int) (pre2 : List MemoryBlock)
    (q P n : MemoryBlock) (after : List MemoryBlock)
    (hl : mm.head = pre2 ++ q :: P :: n :: after)
    (hq : hole q = true) (hP : hole P = false ∧ P.processID = pid) (hn : hole n = true)
    (hfirst : ∀ b ∈ pre2, ¬ (hole b = false ∧ b.processID = pid)) :
    deallocateMemory mm pid =
      (1, { mm with
              head := pre2 ++
                { isHole := q.isHole, startAddress := q.startAddress,
                  endAddress := n.endAddress, size := n.endAddress - q.startAddress + 1,
                  processID := q.processID } :: after
              numProcesses := mm.numProcesses - 1
              numHoles := mm.numHoles + -1
              freeMemory := mm.freeMemory + P.size }) := by
  have hl2 : mm.head = (pre2 ++ [q]) ++ P :: (n :: after) := by rw [hl]; simp
  have hf2 : ∀ b ∈ pre2 ++ [q], ¬ (hole b = false ∧ b.processID = pid) := by
    intro b hb
    rcases List.mem_append.1 hb with hb | hb
    · exact hfirst b hb
    · rw [List.mem_singleton] at hb
      subst hb
      rw [hq]
      simp
  rw [deallocateMemory_split mm pid (pre2 ++ [q]) P (n :: after) hl2 hP hf2,
    List.dropLast_concat, List.getLast?_concat, freeBlock_prev_next q P n after hq hn]

/-- C31 (merge-order independence).  For an occupied block `P`, the first of the list with
its id, that has a hole `q` immediately before it and a hole `n` immediately after it:
freeing `P` with the predecessor side absorbed first and the successor side second
(`deallocatePrevFirst`) gives exactly the result of `deallocateMemory` (successor absorbed
first), the same returned value, list and counters; in both orders `q`, `P` and `n` become
one single hole from the start of `q` to the end of `n`, and `numHoles` drops by one.  The
two orders also agree in every other state and for every id. -/
theorem C31_merge_order_independent (total os : Int) (mm : MemoryManager)
    (hr : Reachable total os mm) (pid : Int) (pre2 : List MemoryBlock)
    (q P n : MemoryBlock) (after : List MemoryBlock)
    (hl : mm.head = pre2 ++ q :: P :: n :: after)
    (hq : hole q = true) (hP : hole P = false ∧ P.processID = pid) (hn : hole n = true)
    (hfirst : ∀ b ∈ pre2, ¬ (hole b = false ∧ b.processID = pid)) :
    deallocatePrevFirst mm pid = deallocateMemory mm pid ∧
    (∃ merged : MemoryBlock,
      merged = { isHole := 1, startAddress := q.startAddress, endAddress := n.endAddress,
                 size := n.endAddress - q.startAddress + 1, processID := -1 } ∧
      hole merged = true ∧
      deallocatePrevFirst mm pid =
        (1, { mm with
                head := pre2 ++ merged :: after
                numProcesses := mm.numProcesses - 1
                numHoles := mm.numHoles - 1
                freeMemory := mm.freeMemory + P.size })) ∧
    (∀ (mm2 : MemoryManager) (pid2 : Int),
      deallocatePrevFirst mm2 pid2 = deallocateMemory mm2 pid2) := by
  refine ⟨deallocatePrevFirst_eq mm pid, ?_, deallocatePrevFirst_eq⟩
  have hqm : q ∈ mm.head := by rw [hl]; simp
  have e1 := reachable_flag total os mm hr q hqm hq
  have e2 := reachable_clean total os mm hr q hqm hq
  refine ⟨_, rfl, rfl, ?_⟩
  rw [deallocatePrevFirst_eq, deallocateMemory_both mm pid pre2 q P n after hl hq hP hn hfirst,
    e1, e2]
  rfl

/-- C31 on `scenarioState`, `[A][HOLE 50-99][B 100-129][HOLE 130-179][P5]`, freeing `B`
(process 3): both orders leave `[A][HOLE 50-179][P5]` with two holes fewer plus one. -/
theorem C31_merge_order_independent_witness :
    deallocatePrevFirst scenarioState 3 = deallocateMemory scenarioState 3 ∧
    (deallocatePrevFirst scenarioState 3).2.head =
      [{ isHole := 0, startAddress := 0, endAddress := 49, size := 50, processID := 1 },
       { isHole := 1, startAddress := 50, endAddress := 179, size := 130, processID := -1 },
       { isHole := 0, startAddress := 180, endAddress := 1023, size := 844, processID := 5 }] ∧
    (deallocatePrevFirst scenarioState 3).2.numHoles = scenarioState.numHoles - 1 :=
  ⟨(C31_merge_order_independent 1024 0 scenarioState reachable_scenario 3
      [{ isHole := 0, startAddress := 0, endAddress := 49, size := 50, processID := 1 }]
      { isHole := 1, startAddress := 50, endAddress := 99, size := 50, processID := -1 }
      { isHole := 0, startAddress := 100, endAddress := 129, size := 30, processID := 3 }
      { isHole := 1, startAddress := 130, endAddress := 179, size := 50, processID := -1 }
      [{ isHole := 0, startAddress := 180, endAddress := 1023, size := 844, processID := 5 }]
      (by decide) (by decide) (by decide) (by decide) (by decide)).1,
   by decide, by decide⟩

/-! ## Allocate / deallocate round trip -/

theorem noAdjHoles_pair :
    ∀ (pre : List MemoryBlock) (a b : MemoryBlock) (post : List MemoryBlock),
      NoAdjHoles (pre ++ a :: b :: post) → ¬ (hole a = true ∧ hole b = true) := by
  intro pre
  induction pre with
  | nil => intro a b post hn; exact hn.1
  | cons c rest ih => intro a b post hn; exact ih a b post hn.2

theorem noAdjHoles_around (pre : List MemoryBlock) (h : MemoryBlock)
    (post : List MemoryBlock) (hn : NoAdjHoles (pre ++ h :: post)) (hh : hole h = true) :
    isHoleAt pre.getLast? = false ∧ isHoleAt post.head? = false := by
  constructor
  · rcases prev_cases pre with hp | ⟨pre2, q, rfl, hq⟩
    · exact hp
    · have hn2 : NoAdjHoles (pre2 ++ q :: h :: post) := by simpa using hn
      exact absurd ⟨hq, hh⟩ (noAdjHoles_pair pre2 q h post hn2)
  · rcases next_cases post with hp | ⟨n, after, rfl, hq⟩
    · exact hp
    · exact absurd ⟨hh, hq⟩ (noAdjHoles_pair pre h n after hn)

theorem manager_eq (a b : MemoryManager) (h1 : a.head = b.head)
    (h2 : a.totalMemory = b.totalMemory) (h3 : a.osMemory = b.osMemory)
    (h4 : a.userMemory = b.userMemory) (h5 : a.freeMemory = b.freeMemory)
    (h6 : a.numProcesses = b.numProcesses) (h7 : a.numHoles = b.numHoles) : a = b := by
  cases a
  cases b
  simp_all

theorem round_trip (total os : Int) (h1 : os < total) (mm : MemoryManager)
    (hr : Reachable total os mm) (pid size algo : Int)
    (hfresh : pid ∉ occupiedIds mm.head)
    (hsucc : (allocateMemory mm pid size algo).1 ≠ -1) :
    deallocateMemory (allocateMemory mm pid size algo).2 pid = (1, mm) := by
  obtain ⟨_, _, _, ⟨_, hna, hw⟩, _, _, _⟩ := inv_reachable total os h1 mm hr
  have hclean := reachable_clean total os mm hr
  have hflag := reachable_flag total os mm hr
  obtain ⟨_, _, pre, h, post, hl, hh, _, he⟩ := allocateMemory_success mm pid size algo hsucc
  rw [he]
  have hhm : h ∈ mm.head := by rw [hl]; simp
  have hpid := hclean h hhm hh
  have hfl := hflag h hhm hh
  obtain ⟨_, hsz⟩ := hw h hhm
  rw [hl] at hna
  obtain ⟨hprev, hnext⟩ := noAdjHoles_around pre h post hna hh
  have hfirst : ∀ b ∈ pre, ¬ (hole b = false ∧ b.processID = pid) := by
    intro b hb hq
    exact hfresh ((mem_occupiedIds mm.head pid).2
      ⟨b, by rw [hl]; exact List.mem_append_left _ hb, hq⟩)
  have hh0 : h = { isHole := 1, startAddress := h.startAddress, endAddress := h.endAddress,
                   size := h.size, processID := -1 } := by
    cases h
    simp_all
  by_cases hex : h.size = size
  · have hab : allocBlock h pid size = [{ h with isHole := 0, processID := pid }] := by
      unfold allocBlock
      rw [if_pos hex]
    have hd : allocHoleDelta h size = -1 := by
      unfold allocHoleDelta
      rw [if_pos hex]
    rw [hab, hd]
    obtain ⟨P, hPdef⟩ : ∃ P : MemoryBlock, P = { h with isHole := 0, processID := pid } :=
      ⟨_, rfl⟩
    rw [← hPdef]
    obtain ⟨m1, hm1⟩ : ∃ m1 : MemoryManager, m1 =
        { mm with
            head := pre ++ [P] ++ post
            numHoles := mm.numHoles + -1
            numProcesses := mm.numProcesses + 1
            freeMemory := mm.freeMemory - size } := ⟨_, rfl⟩
    rw [← hm1]
    have hl1 : m1.head = pre ++ P :: post := by rw [hm1]; simp
    have hP : hole P = false ∧ P.processID = pid := by rw [hPdef]; exact ⟨rfl, rfl⟩
    rw [deallocateMemory_split m1 pid pre P post hl1 hP hfirst,
      freeBlock_none_none pre.getLast? P post hprev hnext]
    congr 1
    apply manager_eq
    · show pre.dropLast ++ (pre.getLast?.toList ++ { P with isHole := 1, processID := -1 } :: post)
        = mm.head
      rw [← List.append_assoc, dropLast_append_toList, hl, hPdef]
      congr 2
      exact hh0.symm
    · rw [hm1]
    · rw [hm1]
    · rw [hm1]
    · show m1.freeMemory + P.size = mm.freeMemory
      rw [hm1, hPdef]
      show mm.freeMemory - size + h.size = mm.freeMemory
      omega
    · show m1.numProcesses - 1 = mm.numProcesses
      rw [hm1]
      show mm.numProcesses + 1 - 1 = mm.numProcesses
      omega
    · show m1.numHoles + 1 = mm.numHoles
      rw [hm1]
      show mm.numHoles + -1 + 1 = mm.numHoles
      omega
  · have hab : allocBlock h pid size =
        [{ h with endAddress := h.startAddress + size - 1, size := size, isHole := 0,
                  processID := pid },
         createBlock 1 (h.startAddress + size) h.endAddress (-1)] := by
      unfold allocBlock
      rw [if_neg hex]
    have hd : allocHoleDelta h size = 0 := by
      unfold allocHoleDelta
      rw [if_neg hex]
    rw [hab, hd]
    obtain ⟨P, hPdef⟩ : ∃ P : MemoryBlock, P =
        { h with endAddress := h.startAddress + size - 1, size := size, isHole := 0,
                 processID := pid } := ⟨_, rfl⟩
    rw [← hPdef]
    obtain ⟨n, hndef⟩ : ∃ n : MemoryBlock,
        n = createBlock 1 (h.startAddress + size) h.endAddress (-1) := ⟨_, rfl⟩
    rw [← hndef]
    obtain ⟨m1, hm1⟩ : ∃ m1 : MemoryManager, m1 =
        { mm with
            head := pre ++ [P, n] ++ post
            numHoles := mm.numHoles + 0
            numProcesses := mm.numProcesses + 1
            freeMemory := mm.freeMemory - size } := ⟨_, rfl⟩
    rw [← hm1]
    have hl1 : m1.head = pre ++ P :: (n :: post) := by rw [hm1]; simp
    have hP : hole P = false ∧ P.processID = pid := by rw [hPdef]; exact ⟨rfl, rfl⟩
    have hnh : hole n = true := by rw [hndef]; rfl
    rw [deallocateMemory_split m1 pid pre P (n :: post) hl1 hP hfirst,
      freeBlock_none_next pre.getLast? P n post hprev hnh]
    congr 1
    apply manager_eq
    · show pre.dropLast ++ (pre.getLast?.toList ++ _ :: post) = mm.head
      rw [← List.append_assoc, dropLast_append_toList, hl, hPdef, hndef]
      congr 2
      rw [hh0]
      show _ = ({ isHole := 1, startAddress := h.startAddress, endAddress := h.endAddress,
                  size := h.size, processID := -1 } : MemoryBlock)
      congr 1
      show h.endAddress - h.startAddress + 1 = h.size
      omega
    · rw [hm1]
    · rw [hm1]
    · rw [hm1]
    · show m1.freeMemory + P.size = mm.freeMemory
      rw [hm1, hPdef]
      show mm.freeMemory - size + size = mm.freeMemory
      omega
    · show m1.numProcesses - 1 = mm.numProcesses
      rw [hm1]
      show mm.numProcesses + 1 - 1 = mm.numProcesses
      omega
    · show m1.numHoles + 0 = mm.numHoles
      rw [hm1]
      show mm.numHoles + 0 + 0 = mm.numHoles
      omega

theorem run_no_user (total os : Int) (hle : total ≤ os) :
    ∀ ops : List Op, run (initializeMemory total os) ops = initializeMemory total os := by
  intro ops
  refine run_induction (fun m => m = initializeMemory total os) ?_ ops _ rfl
  intro m op hm
  subst hm
  have hfree : (initializeMemory total os).freeMemory = total - os := rfl
  cases op with
  | alloc pid size algo =>
    show (allocateMemory (initializeMemory total os) pid size algo).2 = _
    unfold allocateMemory
    by_cases h1 : size ≤ 0
    · rw [if_pos h1]
    · rw [if_neg h1, if_pos (by rw [hfree]; omega)]
  | dealloc pid =>
    show (deallocateMemory (initializeMemory total os) pid).2 = _
    rcases deallocateMemory_result (initializeMemory total os) pid with
      ⟨_, h⟩ | ⟨⟨b, hb, hq, _⟩, _⟩
    · rw [h]
    · have : b = createBlock 1 os (total - 1) (-1) := by simpa [initializeMemory] using hb
      subst this
      exact absurd hq (by simp [hole, createBlock])

/-- C32 (allocate / deallocate round trip).  For every state `S` reachable from
`initializeMemory(total, os)`, every policy, every size and every process id that no
occupied block of `S` carries: if `allocateMemory(id, size, policy)` succeeds on `S`, the
immediately following `deallocateMemory(id)` returns 1 and its state is exactly `S`, the
same list of blocks and the same `freeMemory`, `numProcesses` and `numHoles`. -/
theorem C32_round_trip (total os : Int) (mm : MemoryManager)
    (hr : Reachable total os mm) (pid size algo : Int)
    (hfresh : pid ∉ occupiedIds mm.head)
    (hsucc : (allocateMemory mm pid size algo).1 ≠ -1) :
    deallocateMemory (allocateMemory mm pid size algo).2 pid = (1, mm) := by
  by_cases h1 : os < total
  · exact round_trip total os h1 mm hr pid size algo hfresh hsucc
  · exfalso
    obtain ⟨ops, rfl⟩ := hr
    rw [run_no_user total os (by omega)] at hsucc
    obtain ⟨hs, hf, _⟩ := allocateMemory_success _ pid size algo hsucc
    have hfree : (initializeMemory total os).freeMemory = total - os := rfl
    rw [hfree] at hf
    omega

/-- C32 on `holesState` (holes of 50, 200 and 100): a best-fit request of 80 by the unused
id 7 splits the hole of 100, and freeing 7 gives `holesState` back; an exact-fit request of
50 by first fit is undone in the same way. -/
theorem C32_round_trip_witness :
    (7 : Int) ∉ occupiedIds holesState.head ∧
    (allocateMemory holesState 7 80 BEST_FIT).1 ≠ -1 ∧
    deallocateMemory (allocateMemory holesState 7 80 BEST_FIT).2 7 = (1, holesState) ∧
    deallocateMemory (allocateMemory holesState 7 50 FIRST_FIT).2 7 = (1, holesState) :=
  ⟨by decide, by decide,
   C32_round_trip 1024 0 holesState reachable_holes 7 80 BEST_FIT (by decide) (by decide),
   C32_round_trip 1024 0 holesState reachable_holes 7 50 FIRST_FIT (by decide) (by decide)⟩

/-! ## 32-bit arithmetic: the checked code agrees with the exact code -/

theorem chk_eq (x : Int) (h1 : -2147483648 ≤ x) (h2 : x ≤ 2147483647) : chk x = some x := by
  unfold chk inInt32
  rw [if_pos (by simp [h1, h2])]

theorem chk_bind {α : Type} (x : Int) (f : Int → Option α) (h1 : -2147483648 ≤ x)
    (h2 : x ≤ 2147483647) : (chk x >>= f) = f x := by
  rw [chk_eq x h1 h2]
  rfl

theorem chk_obind {α : Type} (x : Int) (f : Int → Option α) (h1 : -2147483648 ≤ x)
    (h2 : x ≤ 2147483647) : (chk x).bind f = f x := by
  rw [chk_eq x h1 h2]
  rfl

theorem createBlock32_eq (isHole start end_ pid : Int)
    (h1 : -2147483648 ≤ end_ - start) (h2 : end_ - start ≤ 2147483646) :
    createBlock32 isHole start end_ pid = some (createBlock isHole start end_ pid) := by
  unfold createBlock32
  rw [chk_bind _ _ h1 (by omega), chk_bind _ _ (by omega) (by omega)]
  rfl

theorem allocBlock32_eq (cur : MemoryBlock) (pid size : Int)
    (hs : 0 ≤ cur.startAddress) (he : cur.endAddress ≤ 2147483646)
    (hw : cur.size = cur.endAddress - cur.startAddress + 1)
    (h0 : 0 ≤ size) (hle : size ≤ cur.size) :
    allocBlock32 cur pid size = some (allocBlock cur pid size) := by
  unfold allocBlock32 allocBlock
  by_cases hex : cur.size = size
  · rw [if_pos hex, if_pos hex]
    rfl
  · rw [if_neg hex, if_neg hex, chk_bind _ _ (by omega) (by omega),
      chk_bind _ _ (by omega) (by omega)]
    show (createBlock32 1 (cur.startAddress + size) cur.endAddress (-1) >>= _) = _
    rw [createBlock32_eq _ _ _ _ (by omega) (by omega)]
    rfl

theorem allocateAt32_eq (mm : MemoryManager) (hb : InRange mm) (pid size : Int)
    (pre : List MemoryBlock) (cur : MemoryBlock) (post : List MemoryBlock)
    (hl : mm.head = pre ++ cur :: post) (h0 : 0 ≤ size) (hfit : fits size cur = true) :
    allocateAt32 mm pre.length pid size = some (allocateAt mm pre.length pid size) := by
  obtain ⟨hblk, ⟨n1, n2⟩, ⟨p1, p2⟩, ⟨f1, f2⟩, _, _⟩ := hb
  have hcm : cur ∈ mm.head := by rw [hl]; simp
  obtain ⟨c1, c2, c3, c4⟩ := hblk cur hcm
  have hle : size ≤ cur.size := ((fits_iff size cur).1 hfit).2
  have hget : mm.head.get? pre.length = some cur := by rw [hl]; exact get?_split pre cur post
  unfold allocateAt32 allocateAt allocHoleDelta
  rw [hget]
  show (allocBlock32 cur pid size >>= _) = _
  rw [allocBlock32_eq cur pid size c1 c3 c4 h0 hle]
  simp only [Option.bind_eq_bind, Option.some_bind, Option.pure_def]
  by_cases hex : cur.size = size
  · rw [if_pos hex, if_pos hex, chk_obind _ _ (by omega) (by omega),
      chk_obind _ _ (by omega) (by omega), chk_obind _ _ (by omega) (by omega)]
    rfl
  · rw [if_neg hex, if_neg hex, chk_obind _ _ (by omega) (by omega),
      chk_obind _ _ (by omega) (by omega), Int.add_zero]

theorem firstFit32_eq (mm : MemoryManager) (hb : InRange mm) (pid size : Int)
    (h0 : 0 ≤ size) : firstFit32 mm pid size = some (firstFit mm pid size) := by
  unfold firstFit32 firstFit
  rcases firstFitScan_spec size mm.head 0 with ⟨_, h2⟩ | ⟨pre, cur, post, h1, h2, h3, _⟩
  · rw [h2]; rfl
  · rw [h2, Nat.zero_add]
    exact allocateAt32_eq mm hb pid size pre cur post h1 h0 h3

theorem bestFit32_eq (mm : MemoryManager) (hb : InRange mm) (pid size : Int)
    (h0 : 0 ≤ size) : bestFit32 mm pid size = some (bestFit mm pid size) := by
  have ht := hb.2.2.2.2.2
  unfold bestFit32 bestFit
  rw [chk_bind _ _ (by omega) (by omega), wrap32_eq _ (by omega) (by omega)]
  rcases bestFitScan_spec size mm.head 0 none (mm.totalMemory + 1) with
    ⟨_, h2⟩ | ⟨pre, cur, post, h1, h2, h3, _⟩
  · rw [h2]; rfl
  · rw [h2, Nat.zero_add]
    exact allocateAt32_eq mm hb pid size pre cur post h1 h0 h3

theorem worstFit32_eq (mm : MemoryManager) (hb : InRange mm) (pid size : Int)
    (h0 : 0 ≤ size) : worstFit32 mm pid size = some (worstFit mm pid size) := by
  unfold worstFit32 worstFit
  rcases worstFitScan_spec size mm.head 0 none (-1) with
    ⟨_, h2⟩ | ⟨pre, cur, post, h1, h2, h3, _⟩
  · rw [h2]; rfl
  · rw [h2, Nat.zero_add]
    exact allocateAt32_eq mm hb pid size pre cur post h1 h0 h3

theorem allocateMemory32_eq (mm : MemoryManager) (hb : InRange mm) (pid size algo : Int) :
    allocateMemory32 mm pid size algo = some (allocateMemory mm pid size algo) := by
  unfold allocateMemory32 allocateMemory
  by_cases h1 : size ≤ 0
  · rw [if_pos h1, if_pos h1]; rfl
  rw [if_neg h1, if_neg h1]
  by_cases h2 : size > mm.freeMemory
  · rw [if_pos h2, if_pos h2]; rfl
  rw [if_neg h2, if_neg h2]
  by_cases a0 : algo = FIRST_FIT
  · rw [if_pos a0, if_pos a0]; exact firstFit32_eq mm hb pid size (by omega)
  rw [if_neg a0, if_neg a0]
  by_cases a1 : algo = BEST_FIT
  · rw [if_pos a1, if_pos a1]; exact bestFit32_eq mm hb pid size (by omega)
  rw [if_neg a1, if_neg a1]
  by_cases a2 : algo = WORST_FIT
  · rw [if_pos a2, if_pos a2]; exact worstFit32_eq mm hb pid size (by omega)
  rw [if_neg a2, if_neg a2]
  rfl

theorem mergeNext32_eq (c : MemoryBlock) (rest : List MemoryBlock)
    (hc : 0 ≤ c.startAddress ∧ c.startAddress ≤ 2147483646)
    (hrest : ∀ b ∈ rest, 0 ≤ b.endAddress ∧ b.endAddress ≤ 2147483646) :
    mergeNext32 c rest = some (mergeNext c rest) := by
  rcases rest with _ | ⟨n, after⟩
  · rfl
  · obtain ⟨n1, n2⟩ := hrest n (List.mem_cons_self _ _)
    unfold mergeNext32 mergeNext
    simp only [Option.bind_eq_bind, Option.pure_def]
    by_cases hn : n.isHole ≠ 0
    · rw [if_pos hn, if_pos hn, chk_obind _ _ (by omega) (by omega),
        chk_obind _ _ (by omega) (by omega)]
    · rw [if_neg hn, if_neg hn]

theorem mergePrev32_eq (prev : Option MemoryBlock) (c : MemoryBlock)
    (rest : List MemoryBlock)
    (hp : ∀ p, prev = some p → 0 ≤ p.startAddress ∧ p.startAddress ≤ 2147483646)
    (hc : 0 ≤ c.endAddress ∧ c.endAddress ≤ 2147483646) :
    mergePrev32 prev c rest = some (mergePrev prev c rest) := by
  rcases prev with _ | p
  · rfl
  · obtain ⟨p1, p2⟩ := hp p rfl
    unfold mergePrev32 mergePrev
    simp only [Option.bind_eq_bind, Option.pure_def]
    by_cases hn : p.isHole ≠ 0
    · rw [if_pos hn, if_pos hn, chk_obind _ _ (by omega) (by omega),
        chk_obind _ _ (by omega) (by omega)]
    · rw [if_neg hn, if_neg hn]

theorem mergeNext_facts (c : MemoryBlock) (rest : List MemoryBlock)
    (hc : 0 ≤ c.endAddress ∧ c.endAddress ≤ 2147483646)
    (hrest : ∀ b ∈ rest, 0 ≤ b.endAddress ∧ b.endAddress ≤ 2147483646) :
    ((mergeNext c rest).2.2 = 0 ∨ (mergeNext c rest).2.2 = 1) ∧
    0 ≤ (mergeNext c rest).1.endAddress ∧ (mergeNext c rest).1.endAddress ≤ 2147483646 := by
  rcases rest with _ | ⟨n, after⟩
  · exact ⟨Or.inl rfl, hc⟩
  · have hn2 := hrest n (List.mem_cons_self _ _)
    by_cases hn : n.isHole ≠ 0
    · rw [mergeNext_cons_hole c n after hn]
      exact ⟨Or.inr rfl, hn2⟩
    · rw [mergeNext_cons_proc c n after (by simpa using hn)]
      exact ⟨Or.inl rfl, hc⟩

theorem mergePrev_count (prev : Option MemoryBlock) (c : MemoryBlock)
    (rest : List MemoryBlock) :
    (mergePrev prev c rest).2 = 0 ∨ (mergePrev prev c rest).2 = 1 := by
  rcases prev with _ | p
  · exact Or.inl rfl
  · by_cases hn : p.isHole ≠ 0
    · rw [mergePrev_hole p c rest hn]; exact Or.inr rfl
    · rw [mergePrev_proc p c rest (by simpa using hn)]; exact Or.inl rfl

theorem freeBlock32_eq (nh : Int) (prev : Option MemoryBlock) (c : MemoryBlock)
    (rest : List MemoryBlock) (hnh : 0 ≤ nh ∧ nh ≤ 2147483646)
    (hp : ∀ p, prev = some p → 0 ≤ p.startAddress ∧ p.startAddress ≤ 2147483646)
    (hcs : 0 ≤ c.startAddress ∧ c.startAddress ≤ 2147483646)
    (hce : 0 ≤ c.endAddress ∧ c.endAddress ≤ 2147483646)
    (hrest : ∀ b ∈ rest, 0 ≤ b.endAddress ∧ b.endAddress ≤ 2147483646) :
    freeBlock32 nh prev c rest =
      some ((freeBlock prev c rest).1, nh + (freeBlock prev c rest).2) := by
  obtain ⟨c1, hc1⟩ : ∃ c1 : MemoryBlock, c1 = { c with isHole := 1, processID := -1 } :=
    ⟨_, rfl⟩
  have e1 : mergeNext32 c1 rest = some (mergeNext c1 rest) :=
    mergeNext32_eq c1 rest (by rw [hc1]; exact hcs) hrest
  obtain ⟨k1, m1, m2⟩ := mergeNext_facts c1 rest (by rw [hc1]; exact hce) hrest
  have e2 : mergePrev32 prev (mergeNext c1 rest).1 (mergeNext c1 rest).2.1 =
      some (mergePrev prev (mergeNext c1 rest).1 (mergeNext c1 rest).2.1) :=
    mergePrev32_eq prev _ _ hp ⟨m1, m2⟩
  have k2 := mergePrev_count prev (mergeNext c1 rest).1 (mergeNext c1 rest).2.1
  unfold freeBlock32 freeBlock
  simp only [Option.bind_eq_bind, Option.pure_def]
  rw [chk_obind _ _ (by omega) (by omega), ← hc1, e1, Option.some_bind]
  rcases k1 with k1 | k1 <;> rcases k2 with k2 | k2
  · rw [if_neg (by rw [k1]; decide), Option.some_bind, e2, Option.some_bind,
      if_neg (by rw [k2]; decide), Option.some_bind, k1, k2]
    congr 2
  · rw [if_neg (by rw [k1]; decide), Option.some_bind, e2, Option.some_bind,
      if_pos k2, chk_obind _ _ (by omega) (by omega), k1, k2]
    congr 2
    omega
  · rw [if_pos k1, chk_obind _ _ (by omega) (by omega), e2, Option.some_bind,
      if_neg (by rw [k2]; decide), Option.some_bind, k1, k2]
    congr 2
    omega
  · rw [if_pos k1, chk_obind _ _ (by omega) (by omega), e2, Option.some_bind,
      if_pos k2, chk_obind _ _ (by omega) (by omega), k1, k2]
    congr 2
    omega

theorem deallocScan32_eq (nh pid : Int) (hnh : 0 ≤ nh ∧ nh ≤ 2147483646) :
    ∀ (l : List MemoryBlock) (prev : Option MemoryBlock),
      (∀ b ∈ l, (0 ≤ b.startAddress ∧ b.startAddress ≤ 2147483646) ∧
        (0 ≤ b.endAddress ∧ b.endAddress ≤ 2147483646)) →
      (∀ p, prev = some p → 0 ≤ p.startAddress ∧ p.startAddress ≤ 2147483646) →
      deallocScan32 nh pid prev l =
        some ((deallocScan pid prev l).map (fun r => (r.1, nh + r.2.1, r.2.2))) := by
  intro l
  induction l with
  | nil => intro prev _ _; rfl
  | cons c rest ih =>
    intro prev hl hp
    have hc := hl c (List.mem_cons_self _ _)
    have hrest : ∀ b ∈ rest, (0 ≤ b.startAddress ∧ b.startAddress ≤ 2147483646) ∧
        (0 ≤ b.endAddress ∧ b.endAddress ≤ 2147483646) := fun b hb =>
      hl b (List.mem_cons_of_mem _ hb)
    by_cases hm : c.isHole = 0 ∧ c.processID = pid
    · rw [deallocScan32, if_pos hm, deallocScan, if_pos hm,
        freeBlock32_eq nh prev c rest hnh hp hc.1 hc.2 (fun b hb => (hrest b hb).2)]
      rfl
    · rw [deallocScan32, if_neg hm, deallocScan, if_neg hm,
        ih (some c) hrest (fun p hpe => by cases hpe; exact hc.1)]
      cases deallocScan pid (some c) rest with
      | none => rfl
      | some r => rfl

theorem deallocScan_size (pid : Int) :
    ∀ (l : List MemoryBlock) (prev : Option MemoryBlock) (r : List MemoryBlock × Int × Int),
      deallocScan pid prev l = some r → ∃ b ∈ l, hole b = false ∧ b.size = r.2.2 := by
  intro l
  induction l with
  | nil => intro prev r h; simp [deallocScan] at h
  | cons c rest ih =>
    intro prev r h
    by_cases hm : c.isHole = 0 ∧ c.processID = pid
    · rw [deallocScan, if_pos hm] at h
      cases h
      exact ⟨c, List.mem_cons_self _ _, (hole_false_iff c).2 hm.1, rfl⟩
    · rw [deallocScan, if_neg hm] at h
      cases hrec : deallocScan pid (some c) rest with
      | none => rw [hrec] at h; cases h
      | some r2 =>
        rw [hrec] at h
        obtain ⟨b, hb, hh, hs⟩ := ih (some c) r2 hrec
        cases h
        exact ⟨b, List.mem_cons_of_mem _ hb, hh, hs⟩

theorem deallocateMemory32_eq (mm : MemoryManager) (hb : InRange mm) (pid : Int) :
    deallocateMemory32 mm pid = some (deallocateMemory mm pid) := by
  obtain ⟨hblk, hnh, ⟨p1, p2⟩, ⟨f1, f2⟩, hocc, _⟩ := hb
  have hscan := deallocScan32_eq mm.numHoles pid hnh mm.head none
    (fun b hbm => by
      obtain ⟨b1, b2, b3, _⟩ := hblk b hbm
      exact ⟨⟨b1, by omega⟩, ⟨by omega, b3⟩⟩)
    (fun p hp => by cases hp)
  unfold deallocateMemory32 deallocateMemory
  rw [hscan]
  cases hrec : deallocScan pid none mm.head with
  | none => rfl
  | some r =>
    obtain ⟨b, hbm, hh, hs⟩ := deallocScan_size pid mm.head none r hrec
    have h1 := hocc b hbm hh
    obtain ⟨b1, b2, b3, b4⟩ := hblk b hbm
    obtain ⟨l, dh, sz⟩ := r
    have hs2 : b.size = sz := hs
    show ((chk (mm.numProcesses - 1)).bind fun numProcesses =>
            (chk (mm.freeMemory + sz)).bind fun freeMemory => _) = _
    rw [chk_obind _ _ (by omega) (by omega), chk_obind _ _ (by omega) (by omega)]
    rfl

theorem counts_le_bytes :
    ∀ l : List MemoryBlock, (∀ b ∈ l, WellFormed b) →
      (0 ≤ holeCount l ∧ holeCount l ≤ holeBytes l) ∧
      (0 ≤ procCount l ∧ procCount l ≤ procBytes l) ∧
      ∀ b ∈ l, hole b = false → b.size ≤ procBytes l := by
  intro l
  induction l with
  | nil => intro _; exact ⟨⟨le_refl _, le_refl _⟩, ⟨le_refl _, le_refl _⟩, by simp⟩
  | cons c rest ih =>
    intro hw
    obtain ⟨⟨i1, i2⟩, ⟨i3, i4⟩, i5⟩ := ih (fun b hb => hw b (List.mem_cons_of_mem _ hb))
    obtain ⟨w1, w2⟩ := hw c (List.mem_cons_self _ _)
    rw [holeCount_cons, procCount_cons, holeBytes_cons, procBytes_cons]
    by_cases hh : hole c = true
    · rw [if_pos hh, if_pos hh, if_pos hh, if_pos hh]
      refine ⟨⟨by omega, by omega⟩, ⟨by omega, by omega⟩, ?_⟩
      intro b hb hbh
      rcases List.mem_cons.1 hb with rfl | hb
      · rw [hh] at hbh; cases hbh
      · have := i5 b hb hbh
        omega
    · rw [if_neg hh, if_neg hh, if_neg hh, if_neg hh]
      refine ⟨⟨by omega, by omega⟩, ⟨by omega, by omega⟩, ?_⟩
      intro b hb hbh
      rcases List.mem_cons.1 hb with rfl | hb
      · omega
      · have := i5 b hb hbh
        omega

theorem reachable_inRange (total os : Int) (h0 : 0 ≤ os) (h1 : os < total)
    (h2 : total ≤ 2147483646) (mm : MemoryManager) (hr : Reachable total os mm) :
    InRange mm := by
  obtain ⟨ht0, _, _, ⟨ht, _, hw⟩, hnh, hnp, hfm⟩ := inv_reachable total os h1 mm hr
  have hb := tiles_bounds mm.head os (total - 1) ht hw
  have hbytes := bytes_total mm.head os (total - 1) ht hw
  obtain ⟨⟨c1, c2⟩, ⟨c3, c4⟩, c5⟩ := counts_le_bytes mm.head hw
  have hhb := holeBytes_nonneg mm.head hw
  have hpb := procBytes_nonneg mm.head hw
  refine ⟨?_, ⟨by omega, by omega⟩, ⟨by omega, by omega⟩, ⟨by omega, by omega⟩, ?_,
    ⟨by omega, by omega⟩⟩
  · intro b hbm
    obtain ⟨w1, w2⟩ := hw b hbm
    have := hb.2 b hbm
    exact ⟨by omega, w1, by omega, w2⟩
  · intro b hbm hh
    have := c5 b hbm hh
    omega

theorem inInt32_of_range (x : Int) (h1 : -2147483648 ≤ x) (h2 : x ≤ 2147483647) :
    inInt32 x = true := by
  unfold inInt32
  simp [h1, h2]

/-- The bound `total ≤ 2^31 - 2` is sharp: with `total = 2^31 - 1` the state is still
representable, but `bestFit` overflows on `totalMemory + 1` (`firstFit` and `worstFit` do
not). -/
theorem maxTotal_overflow :
    Reachable 2147483647 0 maxTotalState ∧
    bestFit32 maxTotalState 1 10 = none ∧
    firstFit32 maxTotalState 1 10 = some (firstFit maxTotalState 1 10) ∧
    worstFit32 maxTotalState 1 10 = some (worstFit maxTotalState 1 10) ∧
    (firstFit maxTotalState 1 10).1 = 0 :=
  ⟨⟨[], rfl⟩, by decide, by decide, by decide, by decide⟩

/-- A direct call of a policy function with a negative size can overflow:
`firstFit(mm, 1, -2^31)` on the state of `initializeMemory(1024, 256)` passes the loop test
(`768 ≥ -2^31`), splits, and `createBlock` computes `1023 - (256 - 2^31) + 1`, which no
32-bit `int` holds; `allocateMemory` rejects the same size before any arithmetic. -/
theorem C36_counterexample :
    Reachable 1024 256 exampleState ∧ inInt32 (-2147483648) = true ∧
    firstFit32 exampleState 1 (-2147483648) = none ∧
    bestFit32 exampleState 1 (-2147483648) = none ∧
    worstFit32 exampleState 1 (-2147483648) = none ∧
    inInt32 (1023 - (256 + -2147483648) + 1) = false ∧
    (firstFit exampleState 1 (-2147483648)).2.head =
      [{ isHole := 0, startAddress := 256, endAddress := -2147483393, size := -2147483648,
         processID := 1 },
       { isHole := 1, startAddress := -2147483392, endAddress := 1023, size := 2147484416,
         processID := -1 }] ∧
    ∀ algo : Int,
      allocateMemory32 exampleState 1 (-2147483648) algo = some (-1, exampleState) := by
  refine ⟨⟨[], rfl⟩, by decide, by decide, by decide, by decide, by decide, by decide, ?_⟩
  intro algo
  unfold allocateMemory32
  rw [if_pos (by decide)]
  rfl

/-- C36 (no 32-bit overflow), amended.  For `0 ≤ os < total ≤ 2^31 - 2` and every state
reachable from `initializeMemory(total, os)`: the state satisfies `InRange` (all stored
addresses, sizes and counters are representable); `allocateMemory` and `deallocateMemory`,
for every `size`, id and policy, and `firstFit`, `bestFit`, `worstFit` called directly with
any `size ≥ 0`, run without any `int` operation leaving `[-2^31, 2^31 - 1]`, so the checked
32-bit result is the exact integer result; in particular `totalMemory + 1`,
`endAddress - startAddress + 1`, `startAddress + size` and `freeMemory - size` for a hole
that passes the loop test, and `freeMemory + size` for an occupied block, are
representable. -/
theorem C36_no_overflow (total os : Int) (h0 : 0 ≤ os) (h1 : os < total)
    (h2 : total ≤ 2147483646) (mm : MemoryManager) (hr : Reachable total os mm)
    (pid size algo : Int) :
    InRange mm ∧
    allocateMemory32 mm pid size algo = some (allocateMemory mm pid size algo) ∧
    deallocateMemory32 mm pid = some (deallocateMemory mm pid) ∧
    (0 ≤ size →
      firstFit32 mm pid size = some (firstFit mm pid size) ∧
      bestFit32 mm pid size = some (bestFit mm pid size) ∧
      worstFit32 mm pid size = some (worstFit mm pid size)) ∧
    inInt32 (mm.totalMemory + 1) = true ∧
    (∀ b ∈ mm.head, inInt32 (b.endAddress - b.startAddress + 1) = true) ∧
    (0 ≤ size → ∀ b ∈ mm.head, fits size b = true →
      inInt32 (b.startAddress + size) = true ∧ inInt32 (b.startAddress + size - 1) = true ∧
      inInt32 (b.endAddress - (b.startAddress + size) + 1) = true ∧
      inInt32 (mm.freeMemory - size) = true) ∧
    (∀ b ∈ mm.head, hole b = false → inInt32 (mm.freeMemory + b.size) = true) := by
  have hb := reachable_inRange total os h0 h1 h2 mm hr
  obtain ⟨hblk, _, _, ⟨f1, f2⟩, hocc, ⟨t1, t2⟩⟩ := id hb
  refine ⟨hb, allocateMemory32_eq mm hb pid size algo, deallocateMemory32_eq mm hb pid,
    fun hs => ⟨firstFit32_eq mm hb pid size hs, bestFit32_eq mm hb pid size hs,
      worstFit32_eq mm hb pid size hs⟩,
    inInt32_of_range _ (by omega) (by omega), ?_, ?_, ?_⟩
  · intro b hbm
    obtain ⟨b1, b2, b3, _⟩ := hblk b hbm
    exact inInt32_of_range _ (by omega) (by omega)
  · intro hs b hbm hfit
    obtain ⟨b1, b2, b3, b4⟩ := hblk b hbm
    have hle : size ≤ b.size := ((fits_iff size b).1 hfit).2
    exact ⟨inInt32_of_range _ (by omega) (by omega), inInt32_of_range _ (by omega) (by omega),
      inInt32_of_range _ (by omega) (by omega), inInt32_of_range _ (by omega) (by omega)⟩
  · intro b hbm hh
    obtain ⟨b1, b2, b3, b4⟩ := hblk b hbm
    have := hocc b hbm hh
    exact inInt32_of_range _ (by omega) (by omega)

/-- C36 on `holesState` with a best-fit request of 80 and the release of process 2. -/
theorem C36_no_overflow_witness :
    allocateMemory32 holesState 7 80 BEST_FIT = some (allocateMemory holesState 7 80 BEST_FIT) ∧
    deallocateMemory32 holesState 2 = some (deallocateMemory holesState 2) ∧
    (deallocateMemory holesState 2).1 = 1 ∧
    (allocateMemory holesState 7 80 BEST_FIT).1 = 270 :=
  ⟨(C36_no_overflow 1024 0 (by decide) (by decide) (by decide) holesState reachable_holes
      7 80 BEST_FIT).2.1,
   (C36_no_overflow 1024 0 (by decide) (by decide) (by decide) holesState reachable_holes
      2 80 BEST_FIT).2.2.1,
   by decide, by decide⟩

/-! ## The overflow of `totalMemory + 1` in `bestFit` -/

/-- C8 (best-fit selection) at the failing input `initializeMemory(2147483647, 0)` followed by
`allocateMemory(mm, 1, 10, BEST_FIT)`: the state is reachable, `0 < 10 ≤ freeMemory`, the
single hole has size `2147483647 ≥ 10`, but `totalMemory + 1` wraps to `-2^31`, no hole
size is below it, and the call returns `-1` and allocates nothing; the same request under
`FIRST_FIT` and `WORST_FIT` is placed at address 0. -/
theorem C8_best_fit_max_total :
    Reachable 2147483647 0 maxTotalState ∧
    (0 : Int) < 10 ∧ 10 ≤ maxTotalState.freeMemory ∧
    (∃ b ∈ maxTotalState.head, hole b = true ∧ (10 : Int) ≤ b.size) ∧
    wrap32 (maxTotalState.totalMemory + 1) = -2147483648 ∧
    allocateMemory maxTotalState 1 10 BEST_FIT = (-1, maxTotalState) ∧
    (allocateMemory maxTotalState 1 10 FIRST_FIT).1 = 0 ∧
    (allocateMemory maxTotalState 1 10 WORST_FIT).1 = 0 :=
  ⟨⟨[], rfl⟩, by decide, by decide, by decide, by decide, by decide, by decide, by decide⟩

/-- C33 (the policies succeed whenever a hole fits) at the failing input
`initializeMemory(2147483647, 0)` with `size = 10`: `0 ≤ os < total` holds and the hole of
size `2147483647` fits, `firstFit` and `worstFit` return `0`, but `bestFit`'s initial bound
is the wrapped value `-2^31`, it excludes the hole, and `bestFit` returns `-1` with the
state unchanged. -/
theorem C33_policies_max_total :
    Reachable 2147483647 0 maxTotalState ∧
    ((0 : Int) ≤ 0 ∧ (0 : Int) < 2147483647 ∧ (0 : Int) < 10) ∧
    (∃ b ∈ maxTotalState.head, hole b = true ∧ (10 : Int) ≤ b.size) ∧
    (firstFit maxTotalState 1 10).1 = 0 ∧
    (worstFit maxTotalState 1 10).1 = 0 ∧
    bestFit maxTotalState 1 10 = (-1, maxTotalState) ∧
    ¬ (∀ b ∈ maxTotalState.head, b.size < wrap32 (maxTotalState.totalMemory + 1)) :=
  ⟨⟨[], rfl⟩, by decide, by decide, by decide, by decide, by decide, by decide⟩

/-! ## binary32 arithmetic: rounding error -/

theorem bitLenAux_zero (fuel : Nat) : bitLenAux fuel 0 = 0 := by
  cases fuel <;> simp [bitLenAux]

theorem bitLenAux_spec :
    ∀ (fuel n : Nat), n ≤ fuel →
      n < 2 ^ bitLenAux fuel n ∧ (n ≠ 0 → 2 ^ bitLenAux fuel n ≤ 2 * n) := by
  intro fuel
  induction fuel with
  | zero =>
    intro n hn
    have : n = 0 := by omega
    subst this
    simp [bitLenAux]
  | succ fuel ih =>
    intro n hn
    by_cases h0 : n = 0
    · subst h0
      simp [bitLenAux]
    · have e : bitLenAux (fuel + 1) n = bitLenAux fuel (n / 2) + 1 := by
        simp [bitLenAux, h0]
      rw [e, pow_succ]
      obtain ⟨i1, i2⟩ := ih (n / 2) (by omega)
      constructor
      · omega
      · intro _
        by_cases h2 : n / 2 = 0
        · rw [h2, bitLenAux_zero]
          simp
          omega
        · have := i2 h2
          omega

theorem bitLen_spec (n : Nat) (h : n ≠ 0) :
    n < 2 ^ bitLen n ∧ 2 ^ bitLen n ≤ 2 * n := by
  obtain ⟨i1, i2⟩ := bitLenAux_spec n n (le_refl _)
  exact ⟨i1, i2 h⟩

theorem roundDiv_err (n d : Nat) (hd : d ≠ 0) :
    |((roundDiv n d : Nat) : ℚ) - (n : ℚ) / (d : ℚ)| ≤ 1 / 2 := by
  have hdq : (0 : ℚ) < (d : ℚ) := by exact_mod_cast Nat.pos_of_ne_zero hd
  have hn : (n : ℚ) = (d : ℚ) * ((n / d : Nat) : ℚ) + ((n % d : Nat) : ℚ) := by
    exact_mod_cast (Nat.div_add_mod n d).symm
  have hr : ((n % d : Nat) : ℚ) < (d : ℚ) := by
    exact_mod_cast Nat.mod_lt n (Nat.pos_of_ne_zero hd)
  have hr0 : (0 : ℚ) ≤ ((n % d : Nat) : ℚ) := by positivity
  have hq : (n : ℚ) / (d : ℚ) = ((n / d : Nat) : ℚ) + ((n % d : Nat) : ℚ) / (d : ℚ) := by
    rw [hn]
    field_simp
    ring
  have hlow : ∀ (c : 2 * ((n % d : Nat) : ℚ) ≤ (d : ℚ)),
      |(((n / d : Nat) : Nat) : ℚ) - (n : ℚ) / (d : ℚ)| ≤ 1 / 2 := by
    intro c
    rw [hq, abs_le]
    have h1 : ((n % d : Nat) : ℚ) / (d : ℚ) ≤ 1 / 2 := by
      rw [div_le_iff₀ hdq]
      linarith
    have h2 : (0 : ℚ) ≤ ((n % d : Nat) : ℚ) / (d : ℚ) := by positivity
    constructor <;> linarith
  have hhigh : ∀ (c : (d : ℚ) ≤ 2 * ((n % d : Nat) : ℚ)),
      |(((n / d + 1 : Nat) : Nat) : ℚ) - (n : ℚ) / (d : ℚ)| ≤ 1 / 2 := by
    intro c
    rw [hq, abs_le]
    push_cast
    have h1 : (1 : ℚ) / 2 ≤ ((n % d : Nat) : ℚ) / (d : ℚ) := by
      rw [le_div_iff₀ hdq]
      linarith
    have h2 : ((n % d : Nat) : ℚ) / (d : ℚ) < 1 := by
      rw [div_lt_one hdq]
      exact hr
    constructor <;> linarith
  unfold roundDiv
  simp only []
  by_cases c1 : 2 * (n % d) < d
  · rw [if_pos c1]
    exact hlow (by exact_mod_cast le_of_lt c1)
  · rw [if_neg c1]
    by_cases c2 : d < 2 * (n % d)
    · rw [if_pos c2]
      exact hhigh (by exact_mod_cast le_of_lt c2)
    · rw [if_neg c2]
      have c3 : 2 * (n % d) = d := by omega
      by_cases c4 : n / d % 2 = 0
      · rw [if_pos c4]
        exact hlow (by exact_mod_cast le_of_eq c3)
      · rw [if_neg c4]
        exact hhigh (by exact_mod_cast le_of_eq c3.symm)

theorem two_pow_toNat (e : Int) :
    ((2 : ℚ) ^ (-e).toNat) / ((2 : ℚ) ^ e.toNat) = (2 : ℚ) ^ (-e) := by
  rcases le_or_lt 0 e with h | h
  · have h1 : (-e).toNat = 0 := Int.toNat_eq_zero.2 (by omega)
    have h2 : ((e.toNat : Int)) = e := Int.toNat_of_nonneg h
    rw [h1, pow_zero, zpow_neg, one_div]
    congr 1
    rw [← zpow_natCast, h2]
  · have h1 : e.toNat = 0 := Int.toNat_eq_zero.2 (by omega)
    have h2 : (((-e).toNat : Int)) = -e := Int.toNat_of_nonneg (by omega)
    rw [h1, pow_zero, div_one, ← zpow_natCast, h2]

theorem scaled_quotient (n d : Nat) (hd : d ≠ 0) (e : Int) :
    ((n * 2 ^ (-e).toNat : Nat) : ℚ) / ((d * 2 ^ e.toNat : Nat) : ℚ) =
      (n : ℚ) / (d : ℚ) * (2 : ℚ) ^ (-e) := by
  have hdq : (d : ℚ) ≠ 0 := by exact_mod_cast hd
  rw [← two_pow_toNat e]
  push_cast
  field_simp

theorem roundExp_spec (n d : Nat) (hn : n ≠ 0) (hd : d ≠ 0) :
    (8388608 : ℚ) ≤ (n : ℚ) / (d : ℚ) * (2 : ℚ) ^ (-(F32.roundExp n d)) := by
  have hdq : (0 : ℚ) < (d : ℚ) := by exact_mod_cast Nat.pos_of_ne_zero hd
  have hnq : (0 : ℚ) < (n : ℚ) := by exact_mod_cast Nat.pos_of_ne_zero hn
  obtain ⟨_, n2⟩ := bitLen_spec n hn
  obtain ⟨d1, _⟩ := bitLen_spec d hd
  have n2q : (2 : ℚ) ^ (bitLen n : Int) ≤ 2 * (n : ℚ) := by
    rw [zpow_natCast]
    exact_mod_cast n2
  have d1q : (d : ℚ) < (2 : ℚ) ^ (bitLen d : Int) := by
    rw [zpow_natCast]
    exact_mod_cast d1
  have h2 : (0 : ℚ) < 2 := by norm_num
  unfold F32.roundExp
  simp only []
  by_cases c : d * 2 ^ ((bitLen n : Int) - (bitLen d : Int)).toNat ≤
      n * 2 ^ (-((bitLen n : Int) - (bitLen d : Int))).toNat
  · rw [if_pos c]
    have cq : (d : ℚ) * (2 : ℚ) ^ ((bitLen n : Int) - (bitLen d : Int)).toNat ≤
        (n : ℚ) * (2 : ℚ) ^ (-((bitLen n : Int) - (bitLen d : Int))).toNat := by
      exact_mod_cast c
    have hk : (2 : ℚ) ^ ((bitLen n : Int) - (bitLen d : Int)) ≤ (n : ℚ) / (d : ℚ) := by
      have hp := two_pow_toNat (-((bitLen n : Int) - (bitLen d : Int)))
      rw [neg_neg] at hp
      rw [← hp, div_le_div_iff₀ (by positivity) hdq]
      linarith
    have e1 : (2 : ℚ) ^ (-((bitLen n : Int) - (bitLen d : Int) - 23)) =
        8388608 / (2 : ℚ) ^ ((bitLen n : Int) - (bitLen d : Int)) := by
      rw [neg_sub, zpow_sub₀ (by norm_num)]
      norm_num
    rw [e1, mul_div_assoc', le_div_iff₀ (by positivity)]
    have := mul_le_mul_of_nonneg_left hk (by norm_num : (0 : ℚ) ≤ 8388608)
    linarith
  · rw [if_neg c]
    have hk : (2 : ℚ) ^ ((bitLen n : Int) - (bitLen d : Int)) ≤ 2 * ((n : ℚ) / (d : ℚ)) := by
      rw [zpow_sub₀ (by norm_num), div_le_iff₀ (by positivity)]
      have hpos : (0 : ℚ) ≤ (n : ℚ) / (d : ℚ) := by positivity
      have : 2 * ((n : ℚ) / (d : ℚ)) * (d : ℚ) = 2 * (n : ℚ) := by field_simp
      have h3 : 2 * ((n : ℚ) / (d : ℚ)) * (d : ℚ) ≤
          2 * ((n : ℚ) / (d : ℚ)) * (2 : ℚ) ^ (bitLen d : Int) :=
        mul_le_mul_of_nonneg_left (le_of_lt d1q) (by positivity)
      linarith
    have e1 : (2 : ℚ) ^ (-((bitLen n : Int) - (bitLen d : Int) - 24)) =
        16777216 / (2 : ℚ) ^ ((bitLen n : Int) - (bitLen d : Int)) := by
      rw [neg_sub, zpow_sub₀ (by norm_num)]
      norm_num
    rw [e1, mul_div_assoc', le_div_iff₀ (by positivity)]
    have := mul_le_mul_of_nonneg_left hk (by norm_num : (0 : ℚ) ≤ 8388608)
    linarith

theorem round_value (neg : Bool) (n d : Nat) (shift : Int) (hn : n ≠ 0) :
    F32.toRat (F32.round neg n d shift) =
      (if neg = true then (-1 : ℚ) else 1) *
        ((roundDiv (n * 2 ^ (-(F32.roundExp n d)).toNat)
            (d * 2 ^ (F32.roundExp n d).toNat) : Nat) : ℚ) *
        (2 : ℚ) ^ (F32.roundExp n d + shift) := by
  unfold F32.round F32.toRat
  rw [if_neg hn]
  simp only []
  by_cases hc : roundDiv (n * 2 ^ (-(F32.roundExp n d)).toNat)
      (d * 2 ^ (F32.roundExp n d).toNat) = 16777216
  · rw [if_pos hc, if_pos hc, hc]
    have e1 : (2 : ℚ) ^ (F32.roundExp n d + 1 + shift) =
        2 * (2 : ℚ) ^ (F32.roundExp n d + shift) := by
      rw [show F32.roundExp n d + 1 + shift = (F32.roundExp n d + shift) + 1 by ring,
        zpow_add₀ (by norm_num), zpow_one]
      ring
    rw [e1]
    cases neg <;> simp <;> ring
  · rw [if_neg hc, if_neg hc]
    cases neg <;> simp

theorem round_err (neg : Bool) (n d : Nat) (hd : d ≠ 0) (shift : Int) :
    |F32.toRat (F32.round neg n d shift) -
        (if neg = true then (-1 : ℚ) else 1) * ((n : ℚ) / (d : ℚ) * (2 : ℚ) ^ shift)| ≤
      1 / 16777216 * ((n : ℚ) / (d : ℚ) * (2 : ℚ) ^ shift) := by
  by_cases hn : n = 0
  · subst hn
    simp [F32.round, F32.toRat]
  have hden : d * 2 ^ (F32.roundExp n d).toNat ≠ 0 := by positivity
  have hm := roundDiv_err (n * 2 ^ (-(F32.roundExp n d)).toNat)
    (d * 2 ^ (F32.roundExp n d).toNat) hden
  rw [scaled_quotient n d hd] at hm
  have hs := roundExp_spec n d hn hd
  rw [round_value neg n d shift hn]
  obtain ⟨m, hmdef⟩ : ∃ m : ℚ, m =
      ((roundDiv (n * 2 ^ (-(F32.roundExp n d)).toNat)
          (d * 2 ^ (F32.roundExp n d).toNat) : Nat) : ℚ) := ⟨_, rfl⟩
  obtain ⟨s, hsdef⟩ : ∃ s : ℚ, s = (n : ℚ) / (d : ℚ) * (2 : ℚ) ^ (-(F32.roundExp n d)) :=
    ⟨_, rfl⟩
  obtain ⟨P, hPdef⟩ : ∃ P : ℚ, P = (2 : ℚ) ^ (F32.roundExp n d + shift) := ⟨_, rfl⟩
  rw [← hmdef, ← hsdef] at hm
  rw [← hsdef] at hs
  rw [← hmdef, ← hPdef]
  have hP : 0 < P := by rw [hPdef]; positivity
  have hx : (n : ℚ) / (d : ℚ) * (2 : ℚ) ^ shift = s * P := by
    rw [hsdef, hPdef, mul_assoc, ← zpow_add₀ (by norm_num)]
    congr 2
    ring
  rw [hx]
  have hsg : ∀ b : Bool, |(if b = true then (-1 : ℚ) else 1) * m * P -
      (if b = true then (-1 : ℚ) else 1) * (s * P)| = |m - s| * P := by
    intro b
    cases b
    · simp only [Bool.false_eq_true, if_false, one_mul]
      rw [← sub_mul, abs_mul, abs_of_pos hP]
    · simp only [if_true]
      rw [show (-1 : ℚ) * m * P - -1 * (s * P) = -((m - s) * P) by ring, abs_neg, abs_mul,
        abs_of_pos hP]
  rw [hsg]
  have h1 : |m - s| * P ≤ 1 / 2 * P := mul_le_mul_of_nonneg_right hm (le_of_lt hP)
  have h2 : 1 / 2 * P ≤ 1 / 16777216 * (s * P) := by
    have : (1 : ℚ) / 2 ≤ 1 / 16777216 * s := by linarith
    calc 1 / 2 * P ≤ 1 / 16777216 * s * P := mul_le_mul_of_nonneg_right this (le_of_lt hP)
      _ = 1 / 16777216 * (s * P) := by ring
  linarith

theorem round_mant_ne (neg : Bool) (n d : Nat) (hn : n ≠ 0) (hd : d ≠ 0) (shift : Int) :
    (F32.round neg n d shift).mant ≠ 0 := by
  intro h0
  have hv : F32.toRat (F32.round neg n d shift) = 0 := by
    unfold F32.toRat
    rw [h0]
    simp
  have he := round_err neg n d hd shift
  rw [hv] at he
  have hpos : (0 : ℚ) < (n : ℚ) / (d : ℚ) * (2 : ℚ) ^ shift := by
    have : (0 : ℚ) < (n : ℚ) := by exact_mod_cast Nat.pos_of_ne_zero hn
    have : (0 : ℚ) < (d : ℚ) := by exact_mod_cast Nat.pos_of_ne_zero hd
    positivity
  have habs : |0 - (if neg = true then (-1 : ℚ) else 1) *
      ((n : ℚ) / (d : ℚ) * (2 : ℚ) ^ shift)| = (n : ℚ) / (d : ℚ) * (2 : ℚ) ^ shift := by
    cases neg
    · simp only [Bool.false_eq_true, if_false, one_mul, zero_sub, abs_neg]
      exact abs_of_pos hpos
    · simp only [if_true, zero_sub]
      rw [show -(-1 * ((n : ℚ) / (d : ℚ) * (2 : ℚ) ^ shift)) =
        (n : ℚ) / (d : ℚ) * (2 : ℚ) ^ shift by ring]
      exact abs_of_pos hpos
  rw [habs] at he
  linarith

theorem sign_abs (x y : Int) :
    (if xor (decide (x < 0)) (decide (y < 0)) = true then (-1 : ℚ) else 1) *
      (|(x : ℚ)| * |(y : ℚ)|) = (x : ℚ) * (y : ℚ) := by
  rcases lt_or_le x 0 with hx | hx <;> rcases lt_or_le y 0 with hy | hy
  · have hxq : (x : ℚ) < 0 := by exact_mod_cast hx
    have hyq : (y : ℚ) < 0 := by exact_mod_cast hy
    simp [hx, hy, abs_of_neg hxq, abs_of_neg hyq]
  · have hxq : (x : ℚ) < 0 := by exact_mod_cast hx
    have hyq : (0 : ℚ) ≤ (y : ℚ) := by exact_mod_cast hy
    simp [hx, not_lt.2 hy, abs_of_neg hxq, abs_of_nonneg hyq]
  · have hxq : (0 : ℚ) ≤ (x : ℚ) := by exact_mod_cast hx
    have hyq : (y : ℚ) < 0 := by exact_mod_cast hy
    simp [not_lt.2 hx, hy, abs_of_nonneg hxq, abs_of_neg hyq]
  · have hxq : (0 : ℚ) ≤ (x : ℚ) := by exact_mod_cast hx
    have hyq : (0 : ℚ) ≤ (y : ℚ) := by exact_mod_cast hy
    simp [not_lt.2 hx, not_lt.2 hy, abs_of_nonneg hxq, abs_of_nonneg hyq]

theorem sign_div (x y : Int) :
    (if xor (decide (x < 0)) (decide (y < 0)) = true then (-1 : ℚ) else 1) *
      (|(x : ℚ)| / |(y : ℚ)|) = (x : ℚ) / (y : ℚ) := by
  rcases lt_or_le x 0 with hx | hx <;> rcases lt_or_le y 0 with hy | hy
  · have hxq : (x : ℚ) < 0 := by exact_mod_cast hx
    have hyq : (y : ℚ) < 0 := by exact_mod_cast hy
    simp [hx, hy, abs_of_neg hxq, abs_of_neg hyq]
  · have hxq : (x : ℚ) < 0 := by exact_mod_cast hx
    have hyq : (0 : ℚ) ≤ (y : ℚ) := by exact_mod_cast hy
    simp [hx, not_lt.2 hy, abs_of_neg hxq, abs_of_nonneg hyq, neg_div]
  · have hxq : (0 : ℚ) ≤ (x : ℚ) := by exact_mod_cast hx
    have hyq : (y : ℚ) < 0 := by exact_mod_cast hy
    simp [not_lt.2 hx, hy, abs_of_nonneg hxq, abs_of_neg hyq, div_neg]
  · have hxq : (0 : ℚ) ≤ (x : ℚ) := by exact_mod_cast hx
    have hyq : (0 : ℚ) ≤ (y : ℚ) := by exact_mod_cast hy
    simp [not_lt.2 hx, not_lt.2 hy, abs_of_nonneg hxq, abs_of_nonneg hyq]

theorem ofInt_err (x : Int) :
    |F32.toRat (F32.ofInt x) - (x : ℚ)| ≤ 1 / 16777216 * |(x : ℚ)| := by
  have h := round_err (decide (x < 0)) x.natAbs 1 (by decide) 0
  have e1 : ((x.natAbs : Nat) : ℚ) / ((1 : Nat) : ℚ) * (2 : ℚ) ^ (0 : Int) = |(x : ℚ)| := by
    rw [Nat.cast_natAbs]
    simp
  rw [e1] at h
  have e2 : (if decide (x < 0) = true then (-1 : ℚ) else 1) * |(x : ℚ)| = (x : ℚ) := by
    have := sign_abs x 1
    simpa using this
  rw [e2] at h
  exact h

theorem mul_err (a b : F32) :
    |F32.toRat (F32.mul a b) - F32.toRat a * F32.toRat b| ≤
      1 / 16777216 * |F32.toRat a * F32.toRat b| := by
  have h := round_err (xor (decide (a.mant < 0)) (decide (b.mant < 0)))
    (a.mant.natAbs * b.mant.natAbs) 1 (by decide) (a.exp + b.exp)
  have hp : (0 : ℚ) < (2 : ℚ) ^ (a.exp + b.exp) := by positivity
  have e1 : ((a.mant.natAbs * b.mant.natAbs : Nat) : ℚ) / ((1 : Nat) : ℚ) *
      (2 : ℚ) ^ (a.exp + b.exp) = |(a.mant : ℚ)| * |(b.mant : ℚ)| * (2 : ℚ) ^ (a.exp + b.exp) := by
    push_cast
    rw [Nat.cast_natAbs, Nat.cast_natAbs]
    simp
  have e2 : F32.toRat a * F32.toRat b =
      (a.mant : ℚ) * (b.mant : ℚ) * (2 : ℚ) ^ (a.exp + b.exp) := by
    unfold F32.toRat
    rw [zpow_add₀ (by norm_num)]
    ring
  have e3 : |F32.toRat a * F32.toRat b| =
      |(a.mant : ℚ)| * |(b.mant : ℚ)| * (2 : ℚ) ^ (a.exp + b.exp) := by
    rw [e2, abs_mul, abs_mul, abs_of_pos hp]
  rw [e1] at h
  rw [e3, e2, ← sign_abs a.mant b.mant]
  have e4 : (if xor (decide (a.mant < 0)) (decide (b.mant < 0)) = true then (-1 : ℚ) else 1) *
      (|(a.mant : ℚ)| * |(b.mant : ℚ)|) * (2 : ℚ) ^ (a.exp + b.exp) =
      (if xor (decide (a.mant < 0)) (decide (b.mant < 0)) = true then (-1 : ℚ) else 1) *
      (|(a.mant : ℚ)| * |(b.mant : ℚ)| * (2 : ℚ) ^ (a.exp + b.exp)) := by ring
  rw [e4]
  exact h

theorem div_err (a b : F32) (hb : b.mant ≠ 0) :
    ∃ q : F32, F32.div a b = some q ∧
      |F32.toRat q - F32.toRat a / F32.toRat b| ≤
        1 / 16777216 * |F32.toRat a / F32.toRat b| := by
  refine ⟨_, by unfold F32.div; rw [if_neg hb], ?_⟩
  have hbn : b.mant.natAbs ≠ 0 := Int.natAbs_ne_zero.2 hb
  have hbq : (b.mant : ℚ) ≠ 0 := by exact_mod_cast hb
  have h := round_err (xor (decide (a.mant < 0)) (decide (b.mant < 0)))
    a.mant.natAbs b.mant.natAbs hbn (a.exp - b.exp)
  have hp : (0 : ℚ) < (2 : ℚ) ^ (a.exp - b.exp) := by positivity
  have hinv : (0 : ℚ) < |(b.mant : ℚ)| := abs_pos.2 hbq
  have e1 : ((a.mant.natAbs : Nat) : ℚ) / ((b.mant.natAbs : Nat) : ℚ) *
      (2 : ℚ) ^ (a.exp - b.exp) =
      |(a.mant : ℚ)| / |(b.mant : ℚ)| * (2 : ℚ) ^ (a.exp - b.exp) := by
    rw [Nat.cast_natAbs, Nat.cast_natAbs]
    simp
  have e2 : F32.toRat a / F32.toRat b =
      (a.mant : ℚ) / (b.mant : ℚ) * (2 : ℚ) ^ (a.exp - b.exp) := by
    unfold F32.toRat
    rw [zpow_sub₀ (by norm_num)]
    field_simp
  have e3 : |F32.toRat a / F32.toRat b| =
      |(a.mant : ℚ)| / |(b.mant : ℚ)| * (2 : ℚ) ^ (a.exp - b.exp) := by
    rw [e2, abs_mul, abs_div, abs_of_pos hp]
  have hs := sign_div a.mant b.mant
  rw [e1] at h
  rw [e3, e2, ← hs]
  have e4 : (if xor (decide (a.mant < 0)) (decide (b.mant < 0)) = true then (-1 : ℚ) else 1) *
      (|(a.mant : ℚ)| / |(b.mant : ℚ)|) * (2 : ℚ) ^ (a.exp - b.exp) =
      (if xor (decide (a.mant < 0)) (decide (b.mant < 0)) = true then (-1 : ℚ) else 1) *
      (|(a.mant : ℚ)| / |(b.mant : ℚ)| * (2 : ℚ) ^ (a.exp - b.exp)) := by ring
  rw [e4]
  exact h

/-! ## Relative errors -/

theorem rel_abs (e a x : ℚ) (h : |a - x| ≤ e * |x|) : |a| ≤ (1 + e) * |x| := by
  have h1 : |a| ≤ |a - x| + |x| := by
    have := abs_add (a - x) x
    rwa [sub_add_cancel] at this
  linarith

theorem rel_abs_low (e a x : ℚ) (h : |a - x| ≤ e * |x|) : (1 - e) * |x| ≤ |a| := by
  have h1 : |x| ≤ |a - x| + |a| := by
    have := abs_add (x - a) a
    rwa [sub_add_cancel, abs_sub_comm] at this
  linarith

theorem rel_round (e1 e2 a r x : ℚ) (h2 : 0 ≤ e2) (ha : |a - x| ≤ e1 * |x|)
    (hr : |r - a| ≤ e2 * |a|) : |r - x| ≤ (e1 + e2 + e1 * e2) * |x| := by
  have h1 := rel_abs e1 a x ha
  have h3 : |r - x| ≤ |r - a| + |a - x| := by
    have := abs_add (r - a) (a - x)
    rwa [sub_add_sub_cancel] at this
  have h4 : e2 * |a| ≤ e2 * ((1 + e1) * |x|) := mul_le_mul_of_nonneg_left h1 h2
  nlinarith

theorem rel_mul_const (e a x c : ℚ) (ha : |a - x| ≤ e * |x|) :
    |a * c - x * c| ≤ e * |x * c| := by
  rw [← sub_mul, abs_mul, abs_mul]
  calc |a - x| * |c| ≤ e * |x| * |c| := mul_le_mul_of_nonneg_right ha (abs_nonneg c)
    _ = e * (|x| * |c|) := by ring

theorem rel_div (e1 e2 a b x y : ℚ) (h1 : 0 ≤ e1) (h2 : 0 ≤ e2) (h2lt : e2 < 1)
    (hy : y ≠ 0) (ha : |a - x| ≤ e1 * |x|) (hb : |b - y| ≤ e2 * |y|) :
    |a / b - x / y| ≤ (e1 + e2) / (1 - e2) * |x / y| := by
  have hypos : 0 < |y| := abs_pos.2 hy
  have hblow := rel_abs_low e2 b y hb
  have hbpos : 0 < |b| := by
    have : 0 < (1 - e2) * |y| := mul_pos (by linarith) hypos
    linarith
  have hb0 : b ≠ 0 := abs_pos.1 hbpos
  have e : a / b - x / y = ((a - x) * y - x * (b - y)) / (b * y) := by
    field_simp
    ring
  have hnum : |(a - x) * y - x * (b - y)| ≤ (e1 + e2) * (|x| * |y|) := by
    have t := abs_sub ((a - x) * y) (x * (b - y))
    rw [abs_mul, abs_mul] at t
    have t1 : |a - x| * |y| ≤ e1 * |x| * |y| := mul_le_mul_of_nonneg_right ha (abs_nonneg y)
    have t2 : |x| * |b - y| ≤ |x| * (e2 * |y|) := mul_le_mul_of_nonneg_left hb (abs_nonneg x)
    nlinarith
  have h1e : 0 < 1 - e2 := by linarith
  rw [e, abs_div, abs_mul, abs_div, div_le_iff₀ (mul_pos hbpos hypos)]
  have hx0 : 0 ≤ |x| := abs_nonneg x
  have key : (e1 + e2) * (|x| * |y|) ≤ (e1 + e2) / (1 - e2) * (|x| / |y|) * (|b| * |y|) := by
    have e3 : (e1 + e2) / (1 - e2) * (|x| / |y|) * (|b| * |y|) =
        (e1 + e2) / (1 - e2) * |x| * |b| := by
      field_simp
      ring
    rw [e3]
    have e4 : (e1 + e2) * (|x| * |y|) = (e1 + e2) / (1 - e2) * |x| * ((1 - e2) * |y|) := by
      field_simp
      ring
    rw [e4]
    exact mul_le_mul_of_nonneg_left hblow (by positivity)
  linarith

theorem ofInt_mant_ne (x : Int) (hx : x ≠ 0) : (F32.ofInt x).mant ≠ 0 :=
  round_mant_ne _ x.natAbs 1 (Int.natAbs_ne_zero.2 hx) (by decide) 0

theorem ofInt_hundred : F32.toRat (F32.ofInt 100) = 100 := by
  have e : F32.ofInt 100 = ⟨13107200, -17⟩ := by decide
  rw [e]
  norm_num [F32.toRat]

/-- The binary32 evaluation of `(float)A / U * 100` for `U ≠ 0` is defined and differs from
the exact quotient `A / U * 100` by a relative error of at most `2^-21`. -/
theorem fragmentation_err (A U : Int) (hU : U ≠ 0) :
    ∃ q : F32, F32.div (F32.ofInt A) (F32.ofInt U) = some q ∧
      |F32.toRat (F32.mul q (F32.ofInt 100)) - (A : ℚ) / (U : ℚ) * 100| ≤
        1 / 2097152 * |(A : ℚ) / (U : ℚ) * 100| := by
  have hUq : (U : ℚ) ≠ 0 := by exact_mod_cast hU
  obtain ⟨q, hq, hqe⟩ := div_err (F32.ofInt A) (F32.ofInt U) (ofInt_mant_ne U hU)
  refine ⟨q, hq, ?_⟩
  have hd := rel_div (1 / 16777216) (1 / 16777216) _ _ _ _ (by norm_num) (by norm_num)
    (by norm_num) hUq (ofInt_err A) (ofInt_err U)
  have hq2 := rel_round _ (1 / 16777216) _ _ _ (by norm_num) hd hqe
  have hc := rel_mul_const _ _ _ 100 hq2
  have hm := mul_err q (F32.ofInt 100)
  rw [ofInt_hundred] at hm
  have hfin := rel_round _ (1 / 16777216) _ _ _ (by norm_num) hc hm
  refine le_trans hfin ?_
  exact mul_le_mul_of_nonneg_right (by norm_num) (abs_nonneg _)

theorem calculateFragmentation32_eq (mm : MemoryManager) (hfree : mm.freeMemory ≠ 0)
    (q : F32)
    (hq : F32.div (F32.ofInt (mm.freeMemory - largestHoleScan mm.head 0))
      (F32.ofInt mm.userMemory) = some q) :
    calculateFragmentation32 mm = some (F32.mul q (F32.ofInt 100)) := by
  unfold calculateFragmentation32
  rw [if_neg hfree]
  simp only []
  rw [hq]

/-! ## C17: the fragmentation formula in `float` arithmetic -/

theorem round_zero (neg : Bool) (d : Nat) (shift : Int) : F32.round neg 0 d shift = ⟨0, 0⟩ := by
  unfold F32.round
  rw [if_pos rfl]

theorem fragmentation_zero (U : Int) (hU : U ≠ 0) :
    F32.div (F32.ofInt 0) (F32.ofInt U) = some ⟨0, 0⟩ ∧
    F32.mul ⟨0, 0⟩ (F32.ofInt 100) = ⟨0, 0⟩ := by
  constructor
  · unfold F32.div
    rw [if_neg (ofInt_mant_ne U hU)]
    have e : F32.ofInt 0 = ⟨0, 0⟩ := by decide
    rw [e]
    show some (F32.round _ 0 _ _) = _
    rw [round_zero]
  · unfold F32.mul
    show F32.round _ (0 * _) 1 _ = _
    rw [Nat.zero_mul, round_zero]

/-- The `float` value of `calculateFragmentation` is `0.0` when `freeMemory == 0`, and in
every reachable state whose list has exactly one hole. -/
theorem calculateFragmentation32_zero (mm : MemoryManager) :
    (mm.freeMemory = 0 → calculateFragmentation32 mm = some ⟨0, 0⟩) ∧
    (∀ total os : Int, 0 ≤ os → os < total → Reachable total os mm →
      mm.head.countP hole = 1 → calculateFragmentation32 mm = some ⟨0, 0⟩) := by
  have hzero : mm.freeMemory = 0 → calculateFragmentation32 mm = some ⟨0, 0⟩ := by
    intro hfree
    unfold calculateFragmentation32
    rw [if_pos hfree]
  refine ⟨hzero, ?_⟩
  intro total os _ h1 hr hone
  by_cases hfree : mm.freeMemory = 0
  · exact hzero hfree
  · obtain ⟨b1, _, _, b4, _, _⟩ := reachable_fragment_bounds total os h1 mm hr
    obtain ⟨_, s2, _⟩ := largestHoleScan_spec mm.head 0
    obtain ⟨b, hb, hh, hs⟩ := one_hole_bytes mm.head hone
    have hf : mm.freeMemory = holeBytes mm.head := (inv_reachable total os h1 mm hr).2.2.2.2.2.2
    have hle := s2 b hb hh
    have heq : mm.freeMemory - largestHoleScan mm.head 0 = 0 := by omega
    obtain ⟨z1, z2⟩ := fragmentation_zero mm.userMemory (by omega)
    have hq : F32.div (F32.ofInt (mm.freeMemory - largestHoleScan mm.head 0))
        (F32.ofInt mm.userMemory) = some ⟨0, 0⟩ := by rw [heq]; exact z1
    rw [calculateFragmentation32_eq mm hfree _ hq, z2]

/-- In every state reachable from `initializeMemory(total, os)`, for arbitrary `total` and
`os`, the `float` division of `calculateFragmentation` is not a division by zero. -/
theorem calculateFragmentation32_defined (total os : Int) (mm : MemoryManager)
    (hr : Reachable total os mm) : calculateFragmentation32 mm ≠ none := by
  by_cases hfree : mm.freeMemory = 0
  · unfold calculateFragmentation32
    rw [if_pos hfree]
    simp
  · have hu := reachable_user_ne_zero total os mm hr hfree
    obtain ⟨q, hq, _⟩ :=
      fragmentation_err (mm.freeMemory - largestHoleScan mm.head 0) mm.userMemory hu
    rw [calculateFragmentation32_eq mm hfree q hq]
    simp

end MemSim
